import Mathlib

/-!
# Workflow execution engine

A shallow embedding of `frontend/src/utils/workflowExecutor.js` (the run coordinator
`executeWorkflow`, the scheduler `topologicalSort`, the input resolver `getInputData` and the
three step executors) and of the filter endpoint of `backend/server.js` (`filterArray`,
`filterObject`, `simpleArrayFilter`), together with theorems about them.

Modelling conventions.

* A JavaScript `Map` is an association list read with `JsMap.get` and written with `JsMap.set`;
  the engine never iterates over a `Map`, so only the get/set behaviour is observable.
* A plain JavaScript object is the list of its own properties in `Object.keys` order
  (`JsObject`): array-index keys first, in ascending order, then the other keys in insertion
  order. The objects that the engine indexes (`results`, `inputs`, `context`) are built by the
  engine from an object literal; the key `__proto__` is never an own property of such an
  object, because a write under that key reaches the setter of `Object.prototype`. Of the
  prototype chain nothing else is modelled: a read finds own properties only, so the theorems
  about reads assume that the key read has an own entry.
* Values are JSON-shaped (`JsVal`); `undefined` appears only as the absence of a property or of
  a configuration field (`none`).
* Strings are Lean strings. Where JavaScript works on UTF-16 code units (`sanitize`), a
  character outside the basic plane counts as two units.
* `while` loops carry a fuel argument; `Outcome.diverged` is the result of an exhausted fuel and
  is shown never to occur (`topologicalSort_ne_diverged`, `executeWorkflow_ne_diverged`).
* The HTTP client, the filter endpoint and the JavaScript `Function` constructor are external:
  they are fields of `Env`, state-passing functions over an arbitrary world state. The text of
  the function that `executeTransform` builds is handed to `Env.callFunction`; the bindings
  that this text declares are read off in `transformNamespace`, for the texts in which every
  declared name can be declared and every quoted key denotes the key.
* The backend is a function of the request body (`filterRoute`); `backendEnv` is the `Env`
  whose filter endpoint it answers. The language model is a field of `Backend`, and the
  built-ins `JSON.stringify` and `toLowerCase` are the fields of `Runtime`; the limits of the
  body parser of the server are not modelled.
-/

namespace WorkflowEditor

/-! ## Values, objects and maps -/

/-- JSON-shaped JavaScript values. Numbers are integers here: the engine itself performs no
arithmetic on step results. -/
inductive JsVal where
  | null
  | bool (b : Bool)
  | num (n : Int)
  | str (s : String)
  | arr (items : List JsVal)
  | obj (fields : List (String × JsVal))

/-- The result of a computation that may throw (`thrown`, carrying `error.message`); `diverged`
stands for a loop that exhausted its fuel. -/
inductive Outcome (α : Type) where
  | ok (value : α)
  | thrown (message : String)
  | diverged

/-- A JavaScript `Map` keyed by strings: the most recent binding of a key is the first in the
list. -/
abbrev JsMap (α : Type) := List (String × α)

/-- The call `map.get(k)`; `none` is `undefined`. -/
def JsMap.get {α : Type} (m : JsMap α) (k : String) : Option α :=
  List.lookup k m

/-- The call `map.set(k, v)`. -/
def JsMap.set {α : Type} (m : JsMap α) (k : String) (v : α) : JsMap α :=
  (k, v) :: m

/-- The value of a property key that is an array index: a canonical decimal numeral below
`2^32 - 1`. Such keys come first, in ascending numeric order, in `Object.keys`. -/
def arrayIndex? (k : String) : Option Nat :=
  let cs := k.toList
  if cs.all Char.isDigit && !cs.isEmpty && (cs.head? != some '0' || cs.length == 1) then
    let n := cs.foldl (fun acc c => 10 * acc + (c.toNat - 48)) 0
    if n < 4294967295 then some n else none
  else none

/-- A plain object: its own properties in `Object.keys` order. -/
abbrev JsObject := List (String × JsVal)

/-- The own property `k` of an object built by the engine, as the read `o[k]` finds it; `none`
when the object has no own property `k`, as is the case for `__proto__`. -/
def JsObject.get (o : JsObject) (k : String) : Option JsVal :=
  if k = "__proto__" then none else List.lookup k o

/-- The list `Object.keys(o)`. -/
def JsObject.keys (o : JsObject) : List String :=
  o.map Prod.fst

/-- The list `Object.values(o)`. -/
def JsObject.values (o : JsObject) : List JsVal :=
  o.map Prod.snd

/-- Insertion of a new array-index key `k` (of numeric value `n`) at its place among the
leading array-index keys. -/
def JsObject.insertIndex (n : Nat) (k : String) (v : JsVal) : JsObject → JsObject
  | [] => [(k, v)]
  | e :: rest =>
    match arrayIndex? e.1 with
    | some m => if m < n then e :: JsObject.insertIndex n k v rest else (k, v) :: e :: rest
    | none => (k, v) :: e :: rest

/-- The write `o[k] = v` on an object built by the engine: under the key `__proto__` it adds no
own property (the setter of `Object.prototype` takes the value); otherwise an existing property
keeps its place, a new array-index key is inserted in numeric order before the other keys, and
any other new key goes last. -/
def JsObject.set (o : JsObject) (k : String) (v : JsVal) : JsObject :=
  if k = "__proto__" then o
  else if (JsObject.keys o).contains k then o.map (fun e => if e.1 == k then (k, v) else e)
  else
    match arrayIndex? k with
    | some n => JsObject.insertIndex n k v o
    | none => o ++ [(k, v)]

/-! ## The graph -/

/-- The record `node.data.config`; an absent field is `none` (an absent `config` has every field
absent). -/
structure Config where
  method : Option String
  url : Option String
  headers : Option JsVal
  expression : Option String
  condition : Option String
  trueValue : Option JsVal
  falseValue : Option JsVal
  type : Option String

/-- A step of the graph: `node.id`, `node.type`, `node.data.label`, `node.data.config`. -/
structure Node where
  id : String
  type : String
  label : String
  config : Config

/-- A connection: `edge.source -> edge.target` means that the target consumes from the
source. -/
structure Edge where
  source : String
  target : String

/-- The `nodeMap` of `executeWorkflow`: `nodes.forEach(node => nodeMap.set(node.id, node))`. -/
def buildNodeMap (nodes : List Node) : JsMap Node :=
  nodes.foldl (fun nodeMap node => JsMap.set nodeMap node.id node) []

/-- The `dependencies` map of `executeWorkflow`: every node starts with `[]`, then every edge
pushes its source onto the list of its target. (The `dependents` map built alongside is never
read and is left out.) -/
def buildDependencies (nodes : List Node) (edges : List Edge) : JsMap (List String) :=
  let init : JsMap (List String) := nodes.foldl (fun deps node => JsMap.set deps node.id []) []
  edges.foldl
    (fun deps edge =>
      JsMap.set deps edge.target ((JsMap.get deps edge.target).getD [] ++ [edge.source]))
    init

/-! ## The scheduler -/

/-- The initial `inDegree` map of `topologicalSort`. -/
def initInDegree (nodes : List Node) (dependencies : JsMap (List String)) : JsMap Int :=
  nodes.foldl
    (fun inDegree node =>
      JsMap.set inDegree node.id (((JsMap.get dependencies node.id).getD []).length : Int))
    []

/-- The initial `queue` of `topologicalSort`: the nodes of in-degree `0`, in node order. -/
def initQueue (nodes : List Node) (inDegree : JsMap Int) : List String :=
  nodes.foldl
    (fun queue node =>
      if JsMap.get inDegree node.id = some 0 then queue ++ [node.id] else queue)
    []

/-- One round of the inner `nodes.forEach` of the `while` loop, for the dequeued `nodeId`: a
node whose dependency list includes `nodeId` has its in-degree decremented and is enqueued when
the new value is `0`. (`inDegree` has an entry for every node, so the `none` branch is not
taken.) -/
def relaxNode (dependencies : JsMap (List String)) (nodeId : String)
    (st : JsMap Int × List String) (node : Node) : JsMap Int × List String :=
  if ((JsMap.get dependencies node.id).getD []).contains nodeId then
    match JsMap.get st.1 node.id with
    | some d =>
      let newInDegree := d - 1
      (JsMap.set st.1 node.id newInDegree, if newInDegree = 0 then st.2 ++ [node.id] else st.2)
    | none => st
  else st

/-- The `while (queue.length > 0)` loop of `topologicalSort`; `none` when the fuel runs out. -/
def kahnLoop (nodes : List Node) (dependencies : JsMap (List String)) :
    Nat → JsMap Int → List String → List String → Option (List String)
  | _, _, [], result => some result
  | 0, _, _ :: _, _ => none
  | fuel + 1, inDegree, nodeId :: queue, result =>
    let st := nodes.foldl (relaxNode dependencies nodeId) (inDegree, queue)
    kahnLoop nodes dependencies fuel st.1 st.2 (result ++ [nodeId])

/-- The message of the error thrown by `topologicalSort`. -/
def cycleMessage : String := "Workflow contains cycles or disconnected nodes"

/-- The function `topologicalSort(nodes, dependencies)` with an explicit fuel for its loop. -/
def topologicalSortFuel (fuel : Nat) (nodes : List Node) (dependencies : JsMap (List String)) :
    Outcome (List String) :=
  let inDegree := initInDegree nodes dependencies
  match kahnLoop nodes dependencies fuel inDegree (initQueue nodes inDegree) [] with
  | none => Outcome.diverged
  | some result =>
    if result.length ≠ nodes.length then Outcome.thrown cycleMessage else Outcome.ok result

/-- The function `topologicalSort(nodes, dependencies)`. The loop runs at most `2 * nodes.length`
times (`kahnLoop_fuel_enough`). -/
def topologicalSort (nodes : List Node) (dependencies : JsMap (List String)) :
    Outcome (List String) :=
  topologicalSortFuel (2 * nodes.length) nodes dependencies

/-! ## The input resolver -/

/-- The function `getInputData(nodeId, edges, results, nodeMap)`. The reads `results[...]` find
the own entries of the result set; a source without an own entry reads as `undefined` here. -/
def getInputData (nodeId : String) (edges : List Edge) (results : JsObject)
    (nodeMap : JsMap Node) : JsVal :=
  let incomingEdges := edges.filter (fun edge => edge.target == nodeId)
  match incomingEdges with
  | [] => JsVal.null
  | [edge] => (JsObject.get results edge.source).getD JsVal.null
  | _ =>
    JsVal.obj (incomingEdges.foldl
      (fun inputs edge =>
        match JsMap.get nodeMap edge.source with
        | some sourceNode =>
          JsObject.set inputs sourceNode.id ((JsObject.get results edge.source).getD JsVal.null)
        | none => inputs)
      [])

/-! ## The execution context of a transform step -/

/-- The expression `nodeId.split('-').pop()`: the part of the id after its last `-` (the whole
id when it has none). -/
def lastSegment (nodeId : String) : String :=
  String.mk (nodeId.toList.reverse.takeWhile (fun c => c != '-')).reverse

/-- The key `typeKey` of `executeTransform`: the node type, `_`, and the last segment of the
node id. -/
def typeKey (resultNode : Node) (nodeId : String) : String :=
  resultNode.type ++ "_" ++ lastSegment nodeId

/-- The `context` object of `executeTransform`: `data`, then for every key of `allResults` that
names a node, the result under the node id and again under `typeKey`. -/
def buildContext (inputData : JsVal) (allResults : JsObject) (nodeMap : JsMap Node) : JsObject :=
  (JsObject.keys allResults).foldl
    (fun context nodeId =>
      match JsMap.get nodeMap nodeId, JsObject.get allResults nodeId with
      | some resultNode, some result =>
        JsObject.set (JsObject.set context nodeId result) (typeKey resultNode nodeId) result
      | _, _ => context)
    [("data", inputData)]

/-- The image of one character under `replace(/[^a-zA-Z0-9_$]/g, '_')`. The pattern works on
UTF-16 code units, so a character outside the basic plane (two code units) gives two `_`. -/
def sanitizeChar (c : Char) : List Char :=
  if c.isAlphanum || c == '_' || c == '$' then [c]
  else if c.toNat < 65536 then ['_'] else ['_', '_']

/-- The expression `key.replace(/[^a-zA-Z0-9_$]/g, '_')`. -/
def sanitize (key : String) : String :=
  String.mk (key.toList.flatMap sanitizeChar)

/-- The length of a string in UTF-16 code units (the `length` of a JavaScript string). -/
def utf16Length (s : String) : Nat :=
  (s.toList.map (fun c => if c.toNat < 65536 then 1 else 2)).sum

/-- The loop `while (usedKeys.has(uniqueKey)) ...` started at the given `counter` and
`uniqueKey`; `none` when the fuel runs out. -/
def findUniqueKey (usedKeys : List String) (safeKey : String) :
    Nat → Nat → String → Option String
  | 0, _, _ => none
  | fuel + 1, counter, uniqueKey =>
    if usedKeys.contains uniqueKey then
      findUniqueKey usedKeys safeKey fuel (counter + 1) (safeKey ++ "_" ++ toString counter)
    else some uniqueKey

/-- One declaration `const <name> = ctx['<key>'];` of the generated function body. -/
structure VarDecl where
  name : String
  key : String

/-- The body of the `forEach` over the context keys other than `data`: the state is
`(usedKeys, varDeclarations)`. The loop needs at most `usedKeys.length + 1` rounds
(`findUniqueKey_fresh`). -/
def declareKey (st : List String × List VarDecl) (key : String) :
    Option (List String × List VarDecl) :=
  let safeKey := sanitize key
  match findUniqueKey st.1 safeKey (st.1.length + 1) 1 safeKey with
  | some uniqueKey => some (st.1 ++ [uniqueKey], st.2 ++ [VarDecl.mk uniqueKey key])
  | none => none

/-- The declarations for a list of keys, from a given state. -/
def declareKeys : List String → List String × List VarDecl → Option (List String × List VarDecl)
  | [], st => some st
  | key :: keys, st =>
    match declareKey st key with
    | some st1 => declareKeys keys st1
    | none => none

/-- The `varDeclarations` of `executeTransform` for a context with the given keys: first `data`,
then one declaration per key of the context other than `data`, in `Object.keys` order. -/
def varDeclarations (contextKeys : List String) : Option (List VarDecl) :=
  (declareKeys (contextKeys.filter (fun key => key != "data"))
    (["data"], [VarDecl.mk "data" "data"])).map Prod.snd

/-- The first character of an identifier, for names in ASCII: a letter, `_` or `$`. -/
def identifierStart (c : Char) : Bool :=
  c.isAlpha || c == '_' || c == '$'

/-- A later character of an identifier, for names in ASCII: a letter, a digit, `_` or `$`. -/
def identifierPart (c : Char) : Bool :=
  c.isAlphanum || c == '_' || c == '$'

/-- The reserved words of JavaScript in the body of a function made by `new Function` (not
strict, not a generator, not asynchronous). -/
def reservedWords : List String :=
  ["break", "case", "catch", "class", "const", "continue", "debugger", "default", "delete",
   "do", "else", "enum", "export", "extends", "false", "finally", "for", "function", "if",
   "import", "in", "instanceof", "new", "null", "return", "super", "switch", "this", "throw",
   "true", "try", "typeof", "var", "void", "while", "with"]

/-- A name that `const <name> = ...;` can declare in the body of the function built by
`executeTransform`: an identifier that is not a reserved word, not `let` (which no `const` may
bind) and not `ctx` (the parameter of the function). -/
def declarableName (name : String) : Bool :=
  match name.toList with
  | [] => false
  | c :: cs =>
    identifierStart c && cs.all identifierPart && !reservedWords.contains name &&
      name != "let" && name != "ctx"

/-- A key that the text `'<key>'` with a backslash before every single quote denotes: it holds
no backslash and no line terminator (line feed, carriage return, U+2028, U+2029). -/
def quotableKey (key : String) : Bool :=
  key.toList.all (fun c =>
    c.toNat != 92 && c.toNat != 10 && c.toNat != 13 && c.toNat != 8232 && c.toNat != 8233)

/-- The namespace of expression evaluation: the declared names, in declaration order, with the
values they are initialised to. The declaration `const <name> = ctx['<key>'];` binds `name` to
`ctx[key]` (`none` as a value when the context has no such key), provided that the text means
this: every name can be declared and every key is the one its quoted text denotes. Otherwise
the result is `none`: with a name that cannot be declared `new Function` throws a syntax error,
and a key with a backslash or a line terminator is read as another text or not at all. -/
def transformNamespace (inputData : JsVal) (allResults : JsObject) (nodeMap : JsMap Node) :
    Option (List (String × Option JsVal)) :=
  let context := buildContext inputData allResults nodeMap
  match varDeclarations (JsObject.keys context) with
  | none => none
  | some decls =>
    if decls.all (fun d => declarableName d.name && quotableKey d.key) then
      some (decls.map (fun d => (d.name, JsObject.get context d.key)))
    else none

/-! ## The external collaborators -/

/-- The request handed to the HTTP client, the argument of `axios(...)`: its `method`, `url`,
`headers` and `data` fields; `data` is `none` when it is `undefined`. -/
structure HttpRequest where
  method : String
  url : String
  headers : JsVal
  data : Option JsVal

/-- The body posted to `/api/filter`. -/
structure FilterRequest where
  type : String
  condition : String
  data : JsVal
  context : JsObject

/-- The collaborators of the engine, over a world state `σ`. Each either resolves with a value
or fails with an `error.message`.
* `axios`: the HTTP client; the value is `response.data`.
* `axiosPost`: the client call `axios.post(url, body)`; the value is `response.data.result`.
* `callFunction`: building `new Function(...params, body)` and calling it on the arguments. -/
structure Env (σ : Type) where
  axios : HttpRequest → σ → Except String JsVal × σ
  axiosPost : String → FilterRequest → σ → Except String JsVal × σ
  callFunction : List String → String → List JsVal → σ → Except String JsVal × σ

/-! ## The step executors -/

/-- JavaScript truthiness of a value. -/
def JsVal.truthy : JsVal → Bool
  | JsVal.null => false
  | JsVal.bool b => b
  | JsVal.num n => n != 0
  | JsVal.str s => s != ""
  | JsVal.arr _ => true
  | JsVal.obj _ => true

/-- A string-valued configuration field that is present and not empty (truthy). -/
def truthyString : Option String → Option String
  | some s => if s == "" then none else some s
  | none => none

/-- The function `executeHttpRequest(node, inputData)`. -/
def executeHttpRequest {σ : Type} (env : Env σ) (node : Node) (inputData : JsVal) (w : σ) :
    Outcome JsVal × σ :=
  let method := node.config.method.getD "GET"
  let headers := node.config.headers.getD (JsVal.obj [])
  match truthyString node.config.url with
  | none => (Outcome.thrown "URL is required for HTTP request node", w)
  | some url =>
    let data := if method != "GET" && method != "DELETE" then some inputData else none
    match env.axios (HttpRequest.mk method url headers data) w with
    | (Except.ok responseData, w1) => (Outcome.ok responseData, w1)
    | (Except.error message, w1) => (Outcome.thrown ("HTTP request failed: " ++ message), w1)

/-- The expression `key.replace(/'/g, "\\'")`: a backslash before every single quote. -/
def escapeQuotes (key : String) : String :=
  String.mk (key.toList.flatMap
    (fun c => if c == Char.ofNat 39 then [Char.ofNat 92, Char.ofNat 39] else [c]))

/-- The text of a declaration. The first declaration, the only one for the key `data`, is the
literal `const data = ctx.data;`. -/
def VarDecl.text (d : VarDecl) : String :=
  if d.key == "data" then "const data = ctx.data;"
  else "const " ++ d.name ++ " = ctx[" ++ String.singleton (Char.ofNat 39) ++ escapeQuotes d.key
    ++ String.singleton (Char.ofNat 39) ++ "];"

/-- The body of the function built for an expression. -/
def functionBody (decls : List VarDecl) (expression : String) : String :=
  "\n        " ++ "\n        ".intercalate (decls.map VarDecl.text)
    ++ "\n        \n        // Evaluate and return the expression\n        return ("
    ++ expression ++ ");\n      "

/-- The function `evaluateCondition(condition, context)`: the context keys are the parameter
names, the context values the arguments. -/
def evaluateCondition {σ : Type} (env : Env σ) (condition : String) (context : JsObject)
    (w : σ) : Except String JsVal × σ :=
  match env.callFunction (JsObject.keys context) ("return " ++ condition)
      (JsObject.values context) w with
  | (Except.ok value, w1) => (Except.ok value, w1)
  | (Except.error message, w1) =>
    (Except.error ("Condition evaluation error: " ++ message), w1)

/-- The function `executeTransform(node, inputData, allResults, nodeMap)`. -/
def executeTransform {σ : Type} (env : Env σ) (node : Node) (inputData : JsVal)
    (allResults : JsObject) (nodeMap : JsMap Node) (w : σ) : Outcome JsVal × σ :=
  let context := buildContext inputData allResults nodeMap
  match truthyString node.config.expression with
  | some expression =>
    match varDeclarations (JsObject.keys context) with
    | none => (Outcome.diverged, w)
    | some decls =>
      match env.callFunction ["ctx"] (functionBody decls expression) [JsVal.obj context] w with
      | (Except.ok value, w1) => (Outcome.ok value, w1)
      | (Except.error message, w1) =>
        (Outcome.thrown ("Transform expression error: " ++ message), w1)
  | none =>
    match truthyString node.config.condition, node.config.trueValue, node.config.falseValue with
    | some condition, some trueValue, some falseValue =>
      match evaluateCondition env condition context w with
      | (Except.ok conditionResult, w1) =>
        (Outcome.ok (if conditionResult.truthy then trueValue else falseValue), w1)
      | (Except.error message, w1) =>
        (Outcome.thrown ("Transform condition error: " ++ message), w1)
    | _, _, _ => (Outcome.ok inputData, w)

/-- The `context` object of `executeFilter`: `data`, then the result of every key of
`allResults` that names a node, under the node id. -/
def buildFilterContext (inputData : JsVal) (allResults : JsObject) (nodeMap : JsMap Node) :
    JsObject :=
  (JsObject.keys allResults).foldl
    (fun context nodeId =>
      match JsMap.get nodeMap nodeId, JsObject.get allResults nodeId with
      | some _, some result => JsObject.set context nodeId result
      | _, _ => context)
    [("data", inputData)]

/-- The function `executeFilter(node, inputData, allResults, nodeMap)`. -/
def executeFilter {σ : Type} (env : Env σ) (node : Node) (inputData : JsVal)
    (allResults : JsObject) (nodeMap : JsMap Node) (w : σ) : Outcome JsVal × σ :=
  let type := node.config.type.getD "array"
  match truthyString node.config.condition with
  | none => (Outcome.ok inputData, w)
  | some condition =>
    let context := buildFilterContext inputData allResults nodeMap
    match env.axiosPost "/api/filter" (FilterRequest.mk type condition inputData context) w with
    | (Except.ok result, w1) => (Outcome.ok result, w1)
    | (Except.error message, w1) =>
      (Outcome.thrown ("Filter execution failed: " ++ message), w1)

/-! ## The run coordinator -/

/-- One call of a step executor made by the run: the step, the input it was given and what the
executor returned. -/
structure Invocation where
  nodeId : String
  input : JsVal
  output : Outcome JsVal

/-- The `switch (node.type)` of `executeWorkflow`: the executor of the node, if its type is
known. -/
def executorOf {σ : Type} (env : Env σ) (node : Node) :
    Option (JsVal → JsObject → JsMap Node → σ → Outcome JsVal × σ) :=
  if node.type == "http_request" then
    some (fun inputData _ _ w => executeHttpRequest env node inputData w)
  else if node.type == "transform" then some (executeTransform env node)
  else if node.type == "filter" then some (executeFilter env node)
  else none

/-- What a run leaves behind: its outcome (the result set, or the error thrown), the executor
calls it made, in order, and the final world state. -/
structure RunResult (σ : Type) where
  outcome : Outcome JsObject
  trace : List Invocation
  world : σ

/-- The message of the error that wraps a failure of a step. -/
def stepErrorMessage (nodeId : String) (label : String) (message : String) : String :=
  "Error executing node " ++ nodeId ++ " (" ++ label ++ "): " ++ message

/-- The body of the `try` block for one node: the input is resolved, the executor of the node
type is called and its call recorded; an unknown type throws before any executor is called. -/
def executeStep {σ : Type} (env : Env σ) (edges : List Edge) (nodeMap : JsMap Node)
    (nodeId : String) (node : Node) (results : JsObject) (w : σ) :
    Outcome JsVal × List Invocation × σ :=
  let inputData := getInputData nodeId edges results nodeMap
  match executorOf env node with
  | none => (Outcome.thrown ("Unknown node type: " ++ node.type), [], w)
  | some executor =>
    match executor inputData results nodeMap w with
    | (output, w1) => (output, [Invocation.mk nodeId inputData output], w1)

/-- The loop `for (const nodeId of executionOrder)` of `executeWorkflow`, from the given result
set, trace and world: an id that names no node is skipped, a step that throws ends the run with
the wrapped error. -/
def runLoop {σ : Type} (env : Env σ) (edges : List Edge) (nodeMap : JsMap Node) :
    List String → JsObject → List Invocation → σ → RunResult σ
  | [], results, trace, w => RunResult.mk (Outcome.ok results) trace w
  | nodeId :: rest, results, trace, w =>
    match JsMap.get nodeMap nodeId with
    | none => runLoop env edges nodeMap rest results trace w
    | some node =>
      match executeStep env edges nodeMap nodeId node results w with
      | (Outcome.ok output, calls, w1) =>
        runLoop env edges nodeMap rest (JsObject.set results nodeId output) (trace ++ calls) w1
      | (Outcome.thrown message, calls, w1) =>
        RunResult.mk (Outcome.thrown (stepErrorMessage nodeId node.label message))
          (trace ++ calls) w1
      | (Outcome.diverged, calls, w1) => RunResult.mk Outcome.diverged (trace ++ calls) w1

/-- The function `executeWorkflow(nodes, edges)`, run from the world state `w`. -/
def executeWorkflow {σ : Type} (env : Env σ) (nodes : List Node) (edges : List Edge) (w : σ) :
    RunResult σ :=
  if nodes.length = 0 then RunResult.mk (Outcome.thrown "Workflow has no nodes") [] w
  else
    let nodeMap := buildNodeMap nodes
    let dependencies := buildDependencies nodes edges
    match topologicalSort nodes dependencies with
    | Outcome.thrown message => RunResult.mk (Outcome.thrown message) [] w
    | Outcome.diverged => RunResult.mk Outcome.diverged [] w
    | Outcome.ok executionOrder => runLoop env edges nodeMap executionOrder [] [] w

/-- An environment without collaborators: every request fails with `Network Error`, every
constructed function throws. -/
def offlineEnv : Env Unit where
  axios := fun _ w => (Except.error "Network Error", w)
  axiosPost := fun _ _ w => (Except.error "Network Error", w)
  callFunction := fun _ _ _ w => (Except.error "not evaluated", w)

/-- An environment whose HTTP client answers every request with the body `reply`. -/
def replyEnv (reply : JsVal) : Env Unit where
  axios := fun _ w => (Except.ok reply, w)
  axiosPost := fun _ _ w => (Except.error "Network Error", w)
  callFunction := fun _ _ _ w => (Except.error "not evaluated", w)

/-! ## Vocabulary of the statements -/

/-- The producers of a step: the sources of the connections into it, one per connection, in
connection order. -/
def producers (nodeId : String) (edges : List Edge) : List String :=
  (edges.filter (fun edge => edge.target == nodeId)).map Edge.source

/-- The dependency list read by the scheduler: `dependencies.get(id) || []`. -/
def depList (dependencies : JsMap (List String)) (nodeId : String) : List String :=
  (JsMap.get dependencies nodeId).getD []

/-- In the list `order`, `a` occurs and `b` occurs later: `order = front ++ b :: back` with `a`
in `front`. -/
def Before (order : List String) (a b : String) : Prop :=
  ∃ front back, order = front ++ b :: back ∧ a ∈ front

/-- How many of the ids already in `result` occur in the dependency list of `k`. -/
def doneCount (dependencies : JsMap (List String)) (k : String) (result : List String) : Nat :=
  (result.filter (fun p => decide (p ∈ depList dependencies k))).length

/-- The loop invariant of `topologicalSort` for nodes with pairwise distinct ids: the ids in
`result` and `queue` are distinct node ids; the in-degree of a node is the length of its
dependency list minus the number of its dependencies already in `result`; a node is in `result`
or `queue` exactly when that difference is `0`; every dependency of an id in `result` occurs
before it. -/
def KahnInv (nodes : List Node) (dependencies : JsMap (List String)) (inDegree : JsMap Int)
    (queue result : List String) : Prop :=
  (result ++ queue).Nodup ∧
  (∀ x ∈ result ++ queue, x ∈ nodes.map Node.id) ∧
  (∀ k ∈ nodes.map Node.id, JsMap.get inDegree k =
    some (((depList dependencies k).length : Int) - (doneCount dependencies k result : Int))) ∧
  (∀ k ∈ nodes.map Node.id, k ∈ result ++ queue ↔
    doneCount dependencies k result = (depList dependencies k).length) ∧
  (∀ k ∈ result, ∀ p ∈ depList dependencies k, Before result p k)

/-- Whether the in-degree recorded for `k` is positive. -/
def inDegreePositive (inDegree : JsMap Int) (k : String) : Bool :=
  match JsMap.get inDegree k with
  | some d => decide (0 < d)
  | none => false

/-- A bound on the number of rounds the loop of `topologicalSort` still makes: the ids in the
queue plus the distinct node ids of positive in-degree. -/
def loopMeasure (nodes : List Node) (inDegree : JsMap Int) (queue : List String) : Nat :=
  queue.length + ((nodes.map Node.id).dedup.filter (inDegreePositive inDegree)).length

/-! ## Sample graphs -/

/-- A configuration with every field absent. -/
def emptyConfig : Config :=
  Config.mk none none none none none none none none

/-- A transform step without configuration (the identity transform), labelled by its id. -/
def plainStep (id : String) : Node :=
  Node.mk id "transform" id emptyConfig

/-- The connection `source -> target`. -/
def connect (source target : String) : Edge :=
  Edge.mk source target

/-! ## Cycles -/

/-- A connection between two steps of the graph: `a -> b` with both ends step ids. -/
def edgeRel (nodes : List Node) (edges : List Edge) (a b : String) : Prop :=
  a ∈ nodes.map Node.id ∧ b ∈ nodes.map Node.id ∧ ∃ e ∈ edges, e.source = a ∧ e.target = b

/-- The graph contains a directed cycle among its steps: some step reaches itself along one or
more connections between steps. -/
def HasCycle (nodes : List Node) (edges : List Edge) : Prop :=
  ∃ v, Relation.TransGen (edgeRel nodes edges) v v

/-- The example graph `A -> B -> C`: `A` is an HTTP request without a url, `B` a transform with
the expression `data.value*2`, `C` a filter. -/
def pipelineNodes : List Node :=
  [Node.mk "A" "http_request" "Fetch" emptyConfig,
   Node.mk "B" "transform" "Double"
     (Config.mk none none none (some "data.value*2") none none none none),
   Node.mk "C" "filter" "Keep" emptyConfig]

/-- The connections of the example graph `A -> B -> C`. -/
def pipelineEdges : List Edge :=
  [connect "A" "B", connect "B" "C"]

/-! ## Names of the declarations -/

/-- The candidates of the collision loop for a sanitized key: the key itself, then the key
followed by `_1`, `_2`, ... -/
def suffixedName (safeKey : String) : Nat → String
  | 0 => safeKey
  | k + 1 => safeKey ++ "_" ++ toString (k + 1)

/-- The name `name` is the first of the candidates `safeKey`, `safeKey_1`, `safeKey_2`, ... that
is not among `usedKeys`. -/
def FreshName (usedKeys : List String) (safeKey name : String) : Prop :=
  ∃ k, name = suffixedName safeKey k ∧ name ∉ usedKeys ∧
    ∀ j, j < k → suffixedName safeKey j ∈ usedKeys

/-! ## Prior steps and the writes into the context -/

/-- A prior step seen by `executeTransform`: a key of `allResults` that names a node, with the
node and the result stored under the key. -/
def IsPriorStep (allResults : JsObject) (nodeMap : JsMap Node) (id : String) (node : Node)
    (result : JsVal) : Prop :=
  id ∈ JsObject.keys allResults ∧ JsMap.get nodeMap id = some node ∧
    JsObject.get allResults id = some result

/-- The writes `context[key] = value` that `executeTransform` makes after `data`, in order: for
each prior step its id and then its `typeKey`, both with the result of the step. -/
def contextWrites (allResults : JsObject) (nodeMap : JsMap Node) : List (String × JsVal) :=
  (JsObject.keys allResults).flatMap
    (fun nodeId =>
      match JsMap.get nodeMap nodeId, JsObject.get allResults nodeId with
      | some resultNode, some result => [(nodeId, result), (typeKey resultNode nodeId, result)]
      | _, _ => [])

/-- A context key that `executeTransform` turns into a variable as intended: the key is not
`__proto__` (a write under it adds no property), its quoted text denotes it, and its sanitized
form is a name that can be declared. -/
def PlainKey (key : String) : Prop :=
  key ≠ "__proto__" ∧ quotableKey key = true ∧ declarableName (sanitize key) = true

/-- The prior results of the example of the context builder: one transform step with the id
`transform-1700000000000` and a result with the field `x` equal to `1`. -/
def exampleResults : JsObject :=
  [("transform-1700000000000", JsVal.obj [("x", JsVal.num 1)])]

/-- Two steps for which the `typeKey` of the first, `transform_1`, is the sanitized id of the
second. -/
def aliasNodes : List Node :=
  [Node.mk "x-1" "transform" "Map" emptyConfig,
   Node.mk "transform-1" "filter" "Keep" emptyConfig]

/-- Two steps for which the `typeKey` of the second, `transform_1`, is the id of the first. -/
def clashNodes : List Node :=
  [Node.mk "transform_1" "filter" "Keep" emptyConfig,
   Node.mk "x-1" "transform" "Map" emptyConfig]

/-- The graph `A -> B`: `A` fetches the url `u`, `B` is the identity transform. -/
def fetchNodes : List Node :=
  [Node.mk "A" "http_request" "Fetch"
     (Config.mk none (some "u") none none none none none none),
   plainStep "B"]

/-! ## Calls to the collaborators -/

/-- One call to a collaborator of the engine, with its arguments. -/
inductive Call where
  | axios (request : HttpRequest) : Call
  | axiosPost (url : String) (body : FilterRequest) : Call
  | callFunction (params : List String) (body : String) (args : List JsVal) : Call

/-- The environment `env` with a log: every call is answered as `env` answers it, and is
appended to the list of calls kept next to the world state of `env`. -/
def recording {σ : Type} (env : Env σ) : Env (σ × List Call) where
  axios := fun request w =>
    match env.axios request w.1 with
    | (answer, w1) => (answer, (w1, w.2 ++ [Call.axios request]))
  axiosPost := fun url body w =>
    match env.axiosPost url body w.1 with
    | (answer, w1) => (answer, (w1, w.2 ++ [Call.axiosPost url body]))
  callFunction := fun params body args w =>
    match env.callFunction params body args w.1 with
    | (answer, w1) => (answer, (w1, w.2 ++ [Call.callFunction params body args]))

/-! ## The namespace of a condition -/

/-- The names that `evaluateCondition` makes available to the condition, with their values: the
parameters `...contextKeys` of the function it builds, paired with the arguments
`...contextValues` it is called on. -/
def conditionNamespace (inputData : JsVal) (allResults : JsObject) (nodeMap : JsMap Node) :
    List (String × Option JsVal) :=
  let context := buildContext inputData allResults nodeMap
  List.zip (JsObject.keys context) ((JsObject.values context).map some)

/-- The transform step of the condition-mode example: the condition `data > 10` with the
`trueValue` `big` and the `falseValue` `small`. -/
def conditionStep : Node :=
  Node.mk "T" "transform" "Size"
    (Config.mk none none none none (some "data > 10") (some (JsVal.str "big"))
      (some (JsVal.str "small")) none)

/-- An environment whose `Function` constructor evaluates the one body `return data > 10` on an
integer `data`, as JavaScript does, and nothing else; it has no network. -/
def thresholdEnv : Env Unit where
  axios := fun _ w => (Except.error "Network Error", w)
  axiosPost := fun _ _ w => (Except.error "Network Error", w)
  callFunction := fun params body args w =>
    if body = "return data > 10" then
      match (List.zip params args).lookup "data" with
      | some (JsVal.num n) => (Except.ok (JsVal.bool (decide (10 < n))), w)
      | _ => (Except.error "not evaluated", w)
    else (Except.error "not evaluated", w)

/-! ## The filtering backend (`server.js`) -/

/-- The two built-ins of the JavaScript runtime that the fallback filter calls:
`JSON.stringify(item)` and `String.prototype.toLowerCase`. -/
structure Runtime where
  stringify : JsVal → String
  toLowerCase : String → String

/-- The method `s.includes(sub)`: `sub` is a prefix of some tail of `s`. -/
def includes (s sub : String) : Bool :=
  s.toList.tails.any (fun t => sub.toList.isPrefixOf t)

/-- The function `simpleArrayFilter(array, condition, context)`; the `context` is not read. -/
def simpleArrayFilter (rt : Runtime) (array : List JsVal) (condition : String)
    (_context : JsObject) : List JsVal :=
  let lowerCondition := rt.toLowerCase condition
  if includes lowerCondition "summer" || includes lowerCondition "warm" then
    array.filter (fun item =>
      let itemStr := rt.toLowerCase (rt.stringify item)
      includes itemStr "summer" || includes itemStr "warm" || includes itemStr "short" ||
        includes itemStr "t-shirt" || includes itemStr "dress")
  else if includes lowerCondition "winter" || includes lowerCondition "cold" then
    array.filter (fun item =>
      let itemStr := rt.toLowerCase (rt.stringify item)
      includes itemStr "winter" || includes itemStr "cold" || includes itemStr "jacket" ||
        includes itemStr "sweater" || includes itemStr "coat")
  else array

/-- The test `Array.isArray(value)`. -/
def isArray : JsVal → Bool
  | JsVal.arr _ => true
  | _ => false

/-- The test `typeof value === 'object'`: it holds of objects, of arrays and of `null`. -/
def typeofObject : JsVal → Bool
  | JsVal.null => true
  | JsVal.arr _ => true
  | JsVal.obj _ => true
  | _ => false

/-- The backend process over a state `τ` of the language model.
* `runtime`: the built-ins of its JavaScript runtime.
* `openai`: absent when no API key is configured. Otherwise the `try` block of `filterArray` and
  `filterObject` (the prompt built from the request, the completion, the parsing of the answer)
  taken as one call on the request: `some value` is the parsed answer, which is returned, and
  `none` stands for an exception anywhere in the block. -/
structure Backend (τ : Type) where
  runtime : Runtime
  openai : Option (FilterRequest → τ → Option JsVal × τ)

/-- The function `filterArray(array, condition, context)`. -/
def filterArray {τ : Type} (backend : Backend τ) (array : JsVal) (condition : String)
    (context : JsObject) (t : τ) : Except String JsVal × τ :=
  match array with
  | JsVal.arr items =>
    match backend.openai with
    | some complete =>
      match complete (FilterRequest.mk "array" condition array context) t with
      | (some answer, t1) => (Except.ok answer, t1)
      | (none, t1) =>
        (Except.ok (JsVal.arr (simpleArrayFilter backend.runtime items condition context)), t1)
    | none =>
      (Except.ok (JsVal.arr (simpleArrayFilter backend.runtime items condition context)), t)
  | _ => (Except.error "Input data is not an array", t)

/-- The function `filterObject(obj, condition, context)`. -/
def filterObject {τ : Type} (backend : Backend τ) (obj : JsVal) (condition : String)
    (context : JsObject) (t : τ) : Except String JsVal × τ :=
  if !typeofObject obj || isArray obj then (Except.error "Input data is not an object", t)
  else
    match backend.openai with
    | some complete =>
      match complete (FilterRequest.mk "object" condition obj context) t with
      | (some answer, t1) => (Except.ok answer, t1)
      | (none, t1) => (Except.ok obj, t1)
    | none => (Except.ok obj, t)

/-- The answer of the backend to a request: the status and the JSON body. -/
structure HttpResponse where
  status : Nat
  body : JsObject

/-- The handler of `POST /api/filter` on a request body with the four fields that
`executeFilter` sends. -/
def filterRoute {τ : Type} (backend : Backend τ) (body : FilterRequest) (t : τ) :
    HttpResponse × τ :=
  if body.condition = "" then (HttpResponse.mk 200 [("result", body.data)], t)
  else if body.type = "array" then
    match filterArray backend body.data body.condition body.context t with
    | (Except.ok result, t1) => (HttpResponse.mk 200 [("result", result)], t1)
    | (Except.error message, t1) => (HttpResponse.mk 500 [("error", JsVal.str message)], t1)
  else if body.type = "object" then
    match filterObject backend body.data body.condition body.context t with
    | (Except.ok result, t1) => (HttpResponse.mk 200 [("result", result)], t1)
    | (Except.error message, t1) => (HttpResponse.mk 500 [("error", JsVal.str message)], t1)
  else (HttpResponse.mk 400 [("error", JsVal.str "Invalid filter type")], t)

/-- The engine connected to the backend: `axios.post('/api/filter', body)` is answered by
`filterRoute`. The client resolves on a status from 200 to 299, where `executeFilter` reads
`response.data.result`, and rejects on any other status with the message
`Request failed with status code <status>`. No other server is reachable and no function is
evaluated. -/
def backendEnv {τ : Type} (backend : Backend τ) : Env τ where
  axios := fun _ t => (Except.error "Network Error", t)
  axiosPost := fun url body t =>
    if url = "/api/filter" then
      match filterRoute backend body t with
      | (response, t1) =>
        if 200 ≤ response.status ∧ response.status < 300 then
          (Except.ok ((JsObject.get response.body "result").getD JsVal.null), t1)
        else
          (Except.error ("Request failed with status code " ++ toString response.status), t1)
    else (Except.error "Network Error", t)
  callFunction := fun _ _ _ t => (Except.error "not evaluated", t)

/-! ## The built-ins on plain text -/

/-- The escape of one character in a JSON string: `\"`, `\\`, the short escapes of backspace,
tab, line feed, form feed and carriage return, `\u00xx` for the other control characters, and
every other character as it is. -/
def escapeJsonChar (c : Char) : List Char :=
  if c.toNat = 34 then [Char.ofNat 92, Char.ofNat 34]
  else if c.toNat = 92 then [Char.ofNat 92, Char.ofNat 92]
  else if c.toNat = 8 then [Char.ofNat 92, 'b']
  else if c.toNat = 9 then [Char.ofNat 92, 't']
  else if c.toNat = 10 then [Char.ofNat 92, 'n']
  else if c.toNat = 12 then [Char.ofNat 92, 'f']
  else if c.toNat = 13 then [Char.ofNat 92, 'r']
  else if c.toNat < 32 then
    [Char.ofNat 92, 'u', '0', '0', Nat.digitChar (c.toNat / 16), Nat.digitChar (c.toNat % 16)]
  else [c]

/-- A string as JSON text: the escaped characters between double quotes. -/
def quoteJson (s : String) : String :=
  String.mk (Char.ofNat 34 :: s.toList.flatMap escapeJsonChar ++ [Char.ofNat 34])

mutual
/-- The text `JSON.stringify(value)` of a JSON value, without indentation; integers are printed
in decimal notation, as JavaScript prints the integers below `10^21`. -/
def jsonStringify : JsVal → String
  | JsVal.null => "null"
  | JsVal.bool b => if b then "true" else "false"
  | JsVal.num n => toString n
  | JsVal.str s => quoteJson s
  | JsVal.arr items => "[" ++ ",".intercalate (stringifyItems items) ++ "]"
  | JsVal.obj fields => "\x7b" ++ ",".intercalate (stringifyFields fields) ++ "\x7d"
/-- The texts of the items of an array. -/
def stringifyItems : List JsVal → List String
  | [] => []
  | item :: rest => jsonStringify item :: stringifyItems rest
/-- The texts `"key":value` of the fields of an object. -/
def stringifyFields : List (String × JsVal) → List String
  | [] => []
  | (key, value) :: rest => (quoteJson key ++ ":" ++ jsonStringify value) :: stringifyFields rest
end

/-- The method `toLowerCase` on the letters `A` to `Z`; every other character is left as it is
(JavaScript also lower-cases the letters outside ASCII). -/
def asciiLowerCase (s : String) : String :=
  String.mk (s.toList.map Char.toLower)

/-- The built-ins as they work on ASCII text and integers below `10^21`. -/
def asciiRuntime : Runtime :=
  Runtime.mk jsonStringify asciiLowerCase

/-- A backend without a configured language model. -/
def fallbackBackend : Backend Unit :=
  Backend.mk asciiRuntime none

/-- A backend with a configured language model whose every call fails; the state counts the
calls. -/
def countingBackend : Backend Nat :=
  Backend.mk asciiRuntime (some (fun _ calls => (none, calls + 1)))

/-- A filter step with the given `type` and `condition`. -/
def filterStep (type : Option String) (condition : String) : Node :=
  Node.mk "F" "filter" "Keep" (Config.mk none none none none (some condition) none none type)

/-! ## Containment -/

/-- The text `sub` occurs in the text `s`: `s` is some characters, then `sub`, then some
characters. -/
def Contains (s sub : String) : Prop :=
  ∃ front back : List Char, s.toList = front ++ sub.toList ++ back

/-- The words an item is kept for when the condition speaks of summer or warmth. -/
def summerWords : List String := ["summer", "warm", "short", "t-shirt", "dress"]

/-- The words an item is kept for when the condition speaks of winter or cold. -/
def winterWords : List String := ["winter", "cold", "jacket", "sweater", "coat"]

/-! ## Maps and objects -/

theorem JsMap.get_of_set {α : Type} (m : JsMap α) (k k1 : String) (v : α) :
    JsMap.get (JsMap.set m k v) k1 = if k1 = k then some v else JsMap.get m k1 := by
  unfold JsMap.get JsMap.set
  by_cases h : k1 = k
  · subst h; simp [List.lookup]
  · have hb : (k1 == k) = false := by simpa using h
    simp [List.lookup, hb, h]

/-! ## The dependency map -/

theorem depList_init (nodes : List Node) (k : String) :
    ∀ init : JsMap (List String), depList init k = [] →
      depList (nodes.foldl (fun deps node => JsMap.set deps node.id []) init) k = [] := by
  induction nodes with
  | nil => intro init h; simpa using h
  | cons n ns ih =>
    intro init h
    simp only [List.foldl_cons]
    apply ih
    unfold depList at h ⊢
    rw [JsMap.get_of_set]
    split <;> simp_all

theorem depList_edges (edges : List Edge) (k : String) :
    ∀ init : JsMap (List String),
      depList (edges.foldl
        (fun deps edge =>
          JsMap.set deps edge.target ((JsMap.get deps edge.target).getD [] ++ [edge.source]))
        init) k = depList init k ++ producers k edges := by
  induction edges with
  | nil => intro init; simp [producers]
  | cons e es ih =>
    intro init
    simp only [List.foldl_cons]
    rw [ih]
    unfold depList producers
    rw [JsMap.get_of_set]
    by_cases h : k = e.target
    · subst h; simp
    · have hb : (e.target == k) = false := by simpa using fun h1 => h h1.symm
      simp [h, List.filter_cons, hb]

/-- The dependency list of every id in the map built by `executeWorkflow` is the list of its
producers. -/
theorem depList_buildDependencies (nodes : List Node) (edges : List Edge) (k : String) :
    depList (buildDependencies nodes edges) k = producers k edges := by
  unfold buildDependencies
  simp only
  rw [depList_edges, depList_init nodes k [] (by simp [depList, JsMap.get])]
  simp

/-! ## The scheduler: one round of the loop -/

theorem relaxNode_get (deps : JsMap (List String)) (nodeId : String) (m : JsMap Int)
    (q : List String) (n : Node) (k : String) :
    JsMap.get (relaxNode deps nodeId (m, q) n).1 k =
      if k = n.id ∧ nodeId ∈ depList deps k then (JsMap.get m k).map (· - 1)
      else JsMap.get m k := by
  unfold relaxNode depList
  by_cases hc : nodeId ∈ (JsMap.get deps n.id).getD []
  · cases hm : JsMap.get m n.id with
    | none =>
      by_cases hk : k = n.id
      · subst hk; simp [hm, hc]
      · simp [hk, hc]
    | some d =>
      by_cases hk : k = n.id
      · subst hk; simp [hm, hc, JsMap.get_of_set]
      · simp [hk, hc, JsMap.get_of_set]
  · by_cases hk : k = n.id
    · subst hk; simp [hc]
    · simp [hk, hc]

theorem relaxNode_queue (deps : JsMap (List String)) (nodeId : String) (m : JsMap Int)
    (q : List String) (n : Node) :
    (relaxNode deps nodeId (m, q) n).2 =
      q ++ (if nodeId ∈ depList deps n.id ∧ JsMap.get m n.id = some 1
        then [n.id] else []) := by
  unfold relaxNode depList
  by_cases hc : nodeId ∈ (JsMap.get deps n.id).getD []
  · cases hm : JsMap.get m n.id with
    | none => simp [hc]
    | some d =>
      by_cases hd : d = 1
      · subst hd; simp [hc]
      · have : ¬ (d - 1 = 0) := by omega
        simp [hd, this, hc]
  · simp [hc]

/-- One round of the inner `forEach`, for nodes with pairwise distinct ids: every node that
depends on `nodeId` has its in-degree decremented once, and the nodes whose in-degree was `1`
are enqueued in node order. -/
theorem relaxNode_foldl (deps : JsMap (List String)) (nodeId : String) :
    ∀ (ns : List Node) (m : JsMap Int) (q : List String), (ns.map Node.id).Nodup →
      (∀ k, JsMap.get (ns.foldl (relaxNode deps nodeId) (m, q)).1 k =
        if k ∈ ns.map Node.id ∧ nodeId ∈ depList deps k
        then (JsMap.get m k).map (· - 1) else JsMap.get m k) ∧
      (ns.foldl (relaxNode deps nodeId) (m, q)).2 =
        q ++ (ns.filter (fun n => decide (nodeId ∈ depList deps n.id)
          && decide (JsMap.get m n.id = some 1))).map Node.id := by
  intro ns
  induction ns with
  | nil => intro m q _; simp
  | cons n ns ih =>
    intro m q hnd
    simp only [List.map_cons, List.nodup_cons] at hnd
    obtain ⟨hn, hnd⟩ := hnd
    simp only [List.foldl_cons]
    obtain ⟨ihm, ihq⟩ :=
      ih (relaxNode deps nodeId (m, q) n).1 (relaxNode deps nodeId (m, q) n).2 hnd
    have hfresh : ∀ k ∈ ns.map Node.id,
        JsMap.get (relaxNode deps nodeId (m, q) n).1 k = JsMap.get m k := by
      intro k hk
      rw [relaxNode_get]
      have : k ≠ n.id := fun h => hn (h ▸ hk)
      simp [this]
    constructor
    · intro k
      rw [ihm k]
      by_cases hk : k ∈ ns.map Node.id
      · have hne : k ≠ n.id := fun h => hn (h ▸ hk)
        rw [hfresh k hk]
        have hmem : k ∈ (n :: ns).map Node.id := by
          rw [List.map_cons]; exact List.mem_cons_of_mem _ hk
        simp only [hk, hmem]
      · simp only [hk, false_and, if_false]
        rw [relaxNode_get]
        by_cases hkn : k = n.id
        · subst hkn; simp
        · have hmem : ¬ k ∈ (n :: ns).map Node.id := by
            rw [List.map_cons]
            simp only [List.mem_cons, not_or]; exact ⟨hkn, hk⟩
          simp only [hkn, hmem, false_and, if_false]
    · rw [ihq, relaxNode_queue]
      have hcongr : ns.filter (fun n1 => decide (nodeId ∈ depList deps n1.id)
            && decide (JsMap.get (relaxNode deps nodeId (m, q) n).1 n1.id = some 1))
          = ns.filter (fun n1 => decide (nodeId ∈ depList deps n1.id)
            && decide (JsMap.get m n1.id = some 1)) := by
        apply List.filter_congr
        intro n1 hn1
        rw [hfresh n1.id (List.mem_map_of_mem _ hn1)]
      rw [hcongr, List.filter_cons]
      by_cases hc : nodeId ∈ depList deps n.id ∧ JsMap.get m n.id = some 1
      · obtain ⟨h1, h2⟩ := hc
        simp [h1, h2]
      · rw [if_neg hc]
        have : (decide (nodeId ∈ depList deps n.id)
            && decide (JsMap.get m n.id = some 1)) = false := by
          simpa using hc
        rw [this]
        simp

/-! ## The scheduler: the loop invariant -/

theorem filter_mem_length_le (R L : List String) (hR : R.Nodup) :
    (R.filter (fun p => decide (p ∈ L))).length ≤ L.length := by
  apply List.Subperm.length_le
  apply List.Nodup.subperm (hR.filter _)
  intro x hx
  simpa using (List.mem_filter.mp hx).2

theorem mem_of_filter_mem_length_eq (R L : List String) (hR : R.Nodup)
    (h : (R.filter (fun p => decide (p ∈ L))).length = L.length) : ∀ p ∈ L, p ∈ R := by
  have hsub : (R.filter (fun p => decide (p ∈ L))).Subperm L := by
    apply List.Nodup.subperm (hR.filter _)
    intro x hx
    simpa using (List.mem_filter.mp hx).2
  have hperm := hsub.perm_of_length_le (le_of_eq h.symm)
  intro p hp
  exact (List.mem_filter.mp (hperm.mem_iff.mpr hp)).1

theorem doneCount_append_singleton (deps : JsMap (List String)) (k x : String)
    (result : List String) :
    doneCount deps k (result ++ [x]) =
      doneCount deps k result + (if x ∈ depList deps k then 1 else 0) := by
  unfold doneCount
  rw [List.filter_append, List.length_append]
  by_cases h : x ∈ depList deps k <;> simp [List.filter_cons, h]

theorem Before.append_right {order : List String} {a b : String} (h : Before order a b)
    (tail : List String) : Before (order ++ tail) a b := by
  obtain ⟨f, bk, rfl, ha⟩ := h
  exact ⟨f, bk ++ tail, by simp, ha⟩

/-- The invariant is kept by one round of the `while` loop. -/
theorem KahnInv.step (nodes : List Node) (deps : JsMap (List String)) (inDegree : JsMap Int)
    (nodeId : String) (q result : List String) (hids : (nodes.map Node.id).Nodup)
    (inv : KahnInv nodes deps inDegree (nodeId :: q) result) :
    KahnInv nodes deps (nodes.foldl (relaxNode deps nodeId) (inDegree, q)).1
      (nodes.foldl (relaxNode deps nodeId) (inDegree, q)).2 (result ++ [nodeId]) := by
  obtain ⟨hnd, hsub, hdeg, hseen, hbef⟩ := inv
  obtain ⟨hm, hq⟩ := relaxNode_foldl deps nodeId nodes inDegree q hids
  have hres1 : (result ++ [nodeId]).Nodup := by
    have : (result ++ [nodeId]).Sublist (result ++ nodeId :: q) := by
      apply List.Sublist.append_left
      simp
    exact hnd.sublist this
  have hresnd : result.Nodup := (List.nodup_append.mp hnd).1
  have hle : ∀ k, doneCount deps k (result ++ [nodeId]) ≤ (depList deps k).length :=
    fun k => filter_mem_length_le _ _ hres1
  have hpushed : ∀ k, k ∈ (nodes.filter (fun n => decide (nodeId ∈ depList deps n.id)
        && decide (JsMap.get inDegree n.id = some 1))).map Node.id ↔
      k ∈ nodes.map Node.id ∧ nodeId ∈ depList deps k ∧
        doneCount deps k result + 1 = (depList deps k).length := by
    intro k
    simp only [List.mem_map, List.mem_filter, Bool.and_eq_true, decide_eq_true_eq]
    constructor
    · rintro ⟨n, ⟨hn, h1, h2⟩, rfl⟩
      have hk : n.id ∈ nodes.map Node.id := List.mem_map_of_mem _ hn
      refine ⟨⟨n, hn, rfl⟩, h1, ?_⟩
      have := hdeg n.id hk
      rw [h2] at this
      have h3 := Option.some.inj this
      omega
    · rintro ⟨⟨n, hn, rfl⟩, h1, h2⟩
      refine ⟨n, ⟨hn, h1, ?_⟩, rfl⟩
      rw [hdeg n.id (List.mem_map_of_mem _ hn)]
      congr 1
      omega
  have hmemnew : ∀ k, k ∈ (result ++ [nodeId]) ++ (nodes.foldl (relaxNode deps nodeId)
        (inDegree, q)).2 ↔ k ∈ result ++ nodeId :: q ∨
        (k ∈ nodes.map Node.id ∧ nodeId ∈ depList deps k ∧
          doneCount deps k result + 1 = (depList deps k).length) := by
    intro k
    rw [hq, ← hpushed k]
    simp only [List.mem_append, List.mem_cons, List.mem_singleton, List.not_mem_nil, or_false]
    tauto
  refine ⟨?_, ?_, ?_, ?_, ?_⟩
  · -- distinctness
    rw [hq]
    have heq : (result ++ [nodeId]) ++ (q ++ (nodes.filter (fun n =>
        decide (nodeId ∈ depList deps n.id)
          && decide (JsMap.get inDegree n.id = some 1))).map Node.id)
        = (result ++ nodeId :: q) ++ (nodes.filter (fun n =>
        decide (nodeId ∈ depList deps n.id)
          && decide (JsMap.get inDegree n.id = some 1))).map Node.id := by simp
    rw [heq]
    refine List.nodup_append.mpr ⟨hnd, ?_, ?_⟩
    · exact hids.sublist (List.Sublist.map _ (List.filter_sublist _))
    · intro k hk1 hk2
      have h2 := (hpushed k).mp hk2
      have h1 := (hseen k h2.1).mp hk1
      omega
  · intro x hx
    rcases (hmemnew x).mp hx with h | h
    · exact hsub x h
    · exact h.1
  · intro k hk
    rw [hm k, doneCount_append_singleton, hdeg k hk]
    by_cases hc : nodeId ∈ depList deps k
    · simp only [hk, hc, and_self, if_true, Option.map_some']
      congr 1
      push_cast
      ring
    · simp [hc]
  · intro k hk
    rw [hmemnew k, doneCount_append_singleton]
    have hle1 := hle k
    rw [doneCount_append_singleton] at hle1
    by_cases hc : nodeId ∈ depList deps k
    · simp only [hc, if_true] at hle1 ⊢
      constructor
      · rintro (h | h)
        · have := (hseen k hk).mp h
          omega
        · exact h.2.2
      · intro h
        exact Or.inr ⟨hk, trivial, h⟩
    · simp only [hc, if_false, false_and, and_false, or_false, Nat.add_zero]
      exact hseen k hk
  · intro k hk p hp
    rcases List.mem_append.mp hk with h | h
    · exact (hbef k h p hp).append_right _
    · have hkid : k = nodeId := by simpa using h
      subst hkid
      have hin : k ∈ result ++ k :: q := by simp
      have hcount := (hseen k (hsub k hin)).mp hin
      have hp1 := mem_of_filter_mem_length_eq result _ hresnd hcount p hp
      exact ⟨result, [], rfl, hp1⟩

/-! ## The scheduler: initial state and result of the loop -/

theorem initInDegree_foldl (deps : JsMap (List String)) (k : String) :
    ∀ (ns : List Node) (init : JsMap Int),
      JsMap.get (ns.foldl (fun inDegree node =>
        JsMap.set inDegree node.id (((JsMap.get deps node.id).getD []).length : Int)) init) k =
      if k ∈ ns.map Node.id then some ((depList deps k).length : Int) else JsMap.get init k := by
  intro ns
  induction ns with
  | nil => intro init; simp
  | cons n ns ih =>
    intro init
    simp only [List.foldl_cons]
    rw [ih]
    by_cases hk : k ∈ ns.map Node.id
    · have : k ∈ (n :: ns).map Node.id := by
        rw [List.map_cons]; exact List.mem_cons_of_mem _ hk
      simp only [hk, this, if_true]
    · rw [JsMap.get_of_set]
      by_cases hkn : k = n.id
      · subst hkn; simp [depList]
      · have : ¬ k ∈ (n :: ns).map Node.id := by
          rw [List.map_cons]; simp only [List.mem_cons, not_or]; exact ⟨hkn, hk⟩
        simp only [hk, this, hkn, if_false]

theorem initInDegree_get (nodes : List Node) (deps : JsMap (List String)) (k : String)
    (hk : k ∈ nodes.map Node.id) :
    JsMap.get (initInDegree nodes deps) k = some ((depList deps k).length : Int) := by
  unfold initInDegree
  rw [initInDegree_foldl, if_pos hk]

theorem initQueue_foldl (m : JsMap Int) :
    ∀ (ns : List Node) (q : List String),
      ns.foldl (fun queue node =>
        if JsMap.get m node.id = some 0 then queue ++ [node.id] else queue) q =
      q ++ (ns.filter (fun n => decide (JsMap.get m n.id = some 0))).map Node.id := by
  intro ns
  induction ns with
  | nil => intro q; simp
  | cons n ns ih =>
    intro q
    simp only [List.foldl_cons]
    rw [ih, List.filter_cons]
    by_cases h : JsMap.get m n.id = some 0 <;> simp [h]

theorem initQueue_eq (nodes : List Node) (m : JsMap Int) :
    initQueue nodes m = (nodes.filter (fun n => decide (JsMap.get m n.id = some 0))).map Node.id := by
  unfold initQueue
  rw [initQueue_foldl]
  simp

/-- The invariant holds when the loop is entered. -/
theorem KahnInv.init (nodes : List Node) (deps : JsMap (List String))
    (hids : (nodes.map Node.id).Nodup) :
    KahnInv nodes deps (initInDegree nodes deps)
      (initQueue nodes (initInDegree nodes deps)) [] := by
  have hmem : ∀ k, k ∈ initQueue nodes (initInDegree nodes deps) ↔
      k ∈ nodes.map Node.id ∧ (depList deps k).length = 0 := by
    intro k
    rw [initQueue_eq]
    simp only [List.mem_map, List.mem_filter, decide_eq_true_eq]
    constructor
    · rintro ⟨n, ⟨hn, h⟩, rfl⟩
      rw [initInDegree_get nodes deps n.id (List.mem_map_of_mem _ hn)] at h
      have := Option.some.inj h
      exact ⟨⟨n, hn, rfl⟩, by omega⟩
    · rintro ⟨⟨n, hn, rfl⟩, h⟩
      refine ⟨n, ⟨hn, ?_⟩, rfl⟩
      rw [initInDegree_get nodes deps n.id (List.mem_map_of_mem _ hn), h]
      rfl
  refine ⟨?_, ?_, ?_, ?_, ?_⟩
  · rw [List.nil_append, initQueue_eq]
    exact hids.sublist (List.Sublist.map _ (List.filter_sublist _))
  · intro x hx
    rw [List.nil_append] at hx
    exact ((hmem x).mp hx).1
  · intro k hk
    rw [initInDegree_get nodes deps k hk]
    simp [doneCount]
  · intro k hk
    rw [List.nil_append, hmem k]
    simp only [doneCount, List.filter_nil, List.length_nil]
    constructor
    · intro h; exact h.2.symm
    · intro h; exact ⟨hk, h.symm⟩
  · intro k hk; simp at hk

/-- What the loop returns, when it returns: distinct node ids, each after all the ids of its
dependency list. -/
theorem kahnLoop_sound (nodes : List Node) (deps : JsMap (List String))
    (hids : (nodes.map Node.id).Nodup) :
    ∀ (fuel : Nat) (inDegree : JsMap Int) (queue result r : List String),
      KahnInv nodes deps inDegree queue result →
      kahnLoop nodes deps fuel inDegree queue result = some r →
      r.Nodup ∧ (∀ x ∈ r, x ∈ nodes.map Node.id) ∧
        (∀ k ∈ r, ∀ p ∈ depList deps k, Before r p k) := by
  intro fuel
  induction fuel with
  | zero =>
    intro inDegree queue result r inv h
    cases queue with
    | nil =>
      simp only [kahnLoop, Option.some.injEq] at h
      subst h
      obtain ⟨hnd, hsub, _, _, hbef⟩ := inv
      simp only [List.append_nil] at hnd hsub
      exact ⟨hnd, hsub, hbef⟩
    | cons nodeId q => simp [kahnLoop] at h
  | succ fuel ih =>
    intro inDegree queue result r inv h
    cases queue with
    | nil =>
      simp only [kahnLoop, Option.some.injEq] at h
      subst h
      obtain ⟨hnd, hsub, _, _, hbef⟩ := inv
      simp only [List.append_nil] at hnd hsub
      exact ⟨hnd, hsub, hbef⟩
    | cons nodeId q =>
      simp only [kahnLoop] at h
      exact ih _ _ _ r (KahnInv.step nodes deps inDegree nodeId q result hids inv) h

/-! ## The scheduler: the loop ends within its fuel -/

theorem filter_length_le_of_imp (L : List String) (P Q : String → Bool)
    (h : ∀ k ∈ L, P k = true → Q k = true) : (L.filter P).length ≤ (L.filter Q).length := by
  induction L with
  | nil => simp
  | cons a L ih =>
    have ih1 := ih (fun k hk => h k (List.mem_cons_of_mem _ hk))
    have ha := h a (List.mem_cons_self _ _)
    rw [List.filter_cons, List.filter_cons]
    by_cases hp : P a = true
    · simp only [hp, ha hp, if_true, List.length_cons]; omega
    · by_cases hq : Q a = true
      · simp only [hp, hq, if_true, List.length_cons]; simp; omega
      · simp only [hp, hq]; simpa using ih1

theorem filter_length_succ_of_flip (L : List String) (P Q : String → Bool) (a : String)
    (hL : L.Nodup) (ha : a ∈ L) (hPa : P a = false) (hQa : Q a = true)
    (h : ∀ k, k ≠ a → P k = Q k) : (L.filter P).length + 1 = (L.filter Q).length := by
  induction L with
  | nil => simp at ha
  | cons b L ih =>
    rw [List.nodup_cons] at hL
    rw [List.filter_cons, List.filter_cons]
    by_cases hba : b = a
    · subst hba
      have hcongr : L.filter P = L.filter Q := by
        apply List.filter_congr
        intro k hk
        exact h k (fun hkb => hL.1 (hkb ▸ hk))
      simp [hPa, hQa, hcongr]
    · have haL : a ∈ L := by
        rcases List.mem_cons.mp ha with h1 | h1
        · exact absurd h1.symm hba
        · exact h1
      have ih1 := ih hL.2 haL
      rw [h b hba]
      by_cases hq : Q b = true
      · simp only [hq, if_true, List.length_cons]; omega
      · simp only [hq]; simpa using ih1

theorem relaxNode_measure (nodes : List Node) (deps : JsMap (List String)) (nodeId : String)
    (m : JsMap Int) (q : List String) (n : Node) (hn : n ∈ nodes) :
    loopMeasure nodes (relaxNode deps nodeId (m, q) n).1 (relaxNode deps nodeId (m, q) n).2
      ≤ loopMeasure nodes m q := by
  have hmem : n.id ∈ (nodes.map Node.id).dedup :=
    List.mem_dedup.mpr (List.mem_map_of_mem _ hn)
  have hnd : (nodes.map Node.id).dedup.Nodup := List.nodup_dedup _
  unfold relaxNode
  by_cases hc : nodeId ∈ (JsMap.get deps n.id).getD []
  · cases hm : JsMap.get m n.id with
    | none => simp [hc]
    | some d =>
      have hpos : ∀ k, inDegreePositive (JsMap.set m n.id (d - 1)) k =
          if k = n.id then decide (0 < d - 1) else inDegreePositive m k := by
        intro k
        unfold inDegreePositive
        rw [JsMap.get_of_set]
        by_cases hk : k = n.id <;> simp [hk]
      have hposn : inDegreePositive m n.id = decide (0 < d) := by
        unfold inDegreePositive; rw [hm]
      by_cases hd : d = 1
      · subst hd
        have hflip := filter_length_succ_of_flip (nodes.map Node.id).dedup
          (inDegreePositive (JsMap.set m n.id (1 - 1))) (inDegreePositive m) n.id hnd hmem
          (by rw [hpos]; simp) (by rw [hposn]; simp)
          (by intro k hk; rw [hpos]; simp [hk])
        simp only [hc, List.elem_eq_mem, decide_True, if_true, sub_self, loopMeasure,
          List.length_append, List.length_singleton]
        simp only [sub_self] at hflip
        omega
      · have hle := filter_length_le_of_imp (nodes.map Node.id).dedup
          (inDegreePositive (JsMap.set m n.id (d - 1))) (inDegreePositive m)
          (by
            intro k _ hk
            rw [hpos] at hk
            by_cases hkn : k = n.id
            · subst hkn
              rw [hposn]
              simp only [if_true, decide_eq_true_eq] at hk
              simp only [decide_eq_true_eq]
              omega
            · simpa [hkn] using hk)
        have hne : ¬ (d - 1 = 0) := by omega
        simp only [hc, List.elem_eq_mem, decide_True, if_true, hne, if_false, loopMeasure]
        omega
  · simp [hc]

theorem relaxNode_foldl_measure (nodes : List Node) (deps : JsMap (List String))
    (nodeId : String) :
    ∀ (ns : List Node) (m : JsMap Int) (q : List String), (∀ n ∈ ns, n ∈ nodes) →
      loopMeasure nodes (ns.foldl (relaxNode deps nodeId) (m, q)).1
        (ns.foldl (relaxNode deps nodeId) (m, q)).2 ≤ loopMeasure nodes m q := by
  intro ns
  induction ns with
  | nil => intro m q _; simp
  | cons n ns ih =>
    intro m q hsub
    simp only [List.foldl_cons]
    have h1 := relaxNode_measure nodes deps nodeId m q n (hsub n (List.mem_cons_self _ _))
    have h2 := ih (relaxNode deps nodeId (m, q) n).1 (relaxNode deps nodeId (m, q) n).2
      (fun k hk => hsub k (List.mem_cons_of_mem _ hk))
    exact le_trans h2 h1

/-- The loop of `topologicalSort` returns whenever its fuel is at least the measure of its
state; no assumption on the nodes or on the dependency map is needed. -/
theorem kahnLoop_fuel_enough (nodes : List Node) (deps : JsMap (List String)) :
    ∀ (fuel : Nat) (inDegree : JsMap Int) (queue result : List String),
      loopMeasure nodes inDegree queue ≤ fuel →
      ∃ r, kahnLoop nodes deps fuel inDegree queue result = some r := by
  intro fuel
  induction fuel with
  | zero =>
    intro inDegree queue result h
    cases queue with
    | nil => exact ⟨result, rfl⟩
    | cons x q => simp [loopMeasure] at h
  | succ fuel ih =>
    intro inDegree queue result h
    cases queue with
    | nil => exact ⟨result, rfl⟩
    | cons x q =>
      simp only [kahnLoop]
      apply ih
      have h1 := relaxNode_foldl_measure nodes deps x nodes inDegree q (fun n hn => hn)
      have h2 : loopMeasure nodes inDegree (x :: q) = loopMeasure nodes inDegree q + 1 := by
        simp [loopMeasure]; omega
      omega

/-- More fuel does not change what the loop returns. -/
theorem kahnLoop_fuel_mono (nodes : List Node) (deps : JsMap (List String)) :
    ∀ (fuel extra : Nat) (inDegree : JsMap Int) (queue result r : List String),
      kahnLoop nodes deps fuel inDegree queue result = some r →
      kahnLoop nodes deps (fuel + extra) inDegree queue result = some r := by
  intro fuel
  induction fuel with
  | zero =>
    intro extra inDegree queue result r h
    cases queue with
    | nil =>
      simp only [kahnLoop] at h
      cases extra <;> simpa [kahnLoop] using h
    | cons x q => simp [kahnLoop] at h
  | succ fuel ih =>
    intro extra inDegree queue result r h
    cases queue with
    | nil => simpa [kahnLoop] using h
    | cons x q =>
      have : fuel + 1 + extra = (fuel + extra) + 1 := by omega
      rw [this]
      simp only [kahnLoop] at h ⊢
      exact ih extra _ _ _ r h

theorem loopMeasure_init (nodes : List Node) (deps : JsMap (List String)) :
    loopMeasure nodes (initInDegree nodes deps) (initQueue nodes (initInDegree nodes deps))
      ≤ 2 * nodes.length := by
  unfold loopMeasure
  have h1 : (initQueue nodes (initInDegree nodes deps)).length ≤ nodes.length := by
    rw [initQueue_eq, List.length_map]
    exact List.length_filter_le _ _
  have h2 : ((nodes.map Node.id).dedup.filter
      (inDegreePositive (initInDegree nodes deps))).length ≤ nodes.length := by
    calc _ ≤ (nodes.map Node.id).dedup.length := List.length_filter_le _ _
      _ ≤ (nodes.map Node.id).length := (List.dedup_sublist _).length_le
      _ = nodes.length := List.length_map _ _
  omega

/-- The scheduler always finishes: it returns an order or throws. -/
theorem topologicalSort_ne_diverged (nodes : List Node) (deps : JsMap (List String)) :
    topologicalSort nodes deps ≠ Outcome.diverged := by
  unfold topologicalSort topologicalSortFuel
  obtain ⟨r, hr⟩ := kahnLoop_fuel_enough nodes deps (2 * nodes.length)
    (initInDegree nodes deps) (initQueue nodes (initInDegree nodes deps)) []
    (loopMeasure_init nodes deps)
  simp only [hr]
  split <;> simp

/-- With any fuel above `2 * nodes.length` the scheduler gives the same result. -/
theorem topologicalSortFuel_eq (nodes : List Node) (deps : JsMap (List String)) (extra : Nat) :
    topologicalSortFuel (2 * nodes.length + extra) nodes deps = topologicalSort nodes deps := by
  unfold topologicalSort topologicalSortFuel
  obtain ⟨r, hr⟩ := kahnLoop_fuel_enough nodes deps (2 * nodes.length)
    (initInDegree nodes deps) (initQueue nodes (initInDegree nodes deps)) []
    (loopMeasure_init nodes deps)
  simp only [hr, kahnLoop_fuel_mono nodes deps _ extra _ _ _ r hr]

/-! ## The scheduler: the order it returns -/

theorem Before.indexOf_lt {order : List String} {a b : String} (hnd : order.Nodup)
    (h : Before order a b) :
    a ∈ order ∧ b ∈ order ∧ order.indexOf a < order.indexOf b := by
  obtain ⟨f, bk, rfl, ha⟩ := h
  have hb : b ∉ f := by
    intro hb
    have := (List.nodup_append.mp hnd).2.2
    exact this hb (List.mem_cons_self _ _)
  refine ⟨List.mem_append_left _ ha, List.mem_append_right _ (List.mem_cons_self _ _), ?_⟩
  rw [List.indexOf_append_of_mem ha, List.indexOf_append_of_not_mem hb, List.indexOf_cons_self]
  have := List.indexOf_lt_length.mpr ha
  omega

/-- What an order returned by the scheduler looks like, for nodes with pairwise distinct ids:
a rearrangement of the node ids in which every id comes after all the ids of its dependency
list. -/
theorem topologicalSort_ok (nodes : List Node) (deps : JsMap (List String))
    (order : List String) (hids : (nodes.map Node.id).Nodup)
    (h : topologicalSort nodes deps = Outcome.ok order) :
    order.Nodup ∧ order.Perm (nodes.map Node.id) ∧
      ∀ k ∈ nodes.map Node.id, ∀ p ∈ depList deps k, Before order p k := by
  unfold topologicalSort topologicalSortFuel at h
  simp only at h
  cases hl : kahnLoop nodes deps (2 * nodes.length) (initInDegree nodes deps)
      (initQueue nodes (initInDegree nodes deps)) [] with
  | none => simp [hl] at h
  | some r =>
    rw [hl] at h
    simp only at h
    by_cases hlen : r.length ≠ nodes.length
    · simp [hlen] at h
    · simp only [hlen, if_false, Outcome.ok.injEq] at h
      subst h
      obtain ⟨hnd, hsub, hbef⟩ := kahnLoop_sound nodes deps hids _ _ _ _ r
        (KahnInv.init nodes deps hids) hl
      have hperm : r.Perm (nodes.map Node.id) := by
        apply (List.Nodup.subperm hnd hsub).perm_of_length_le
        rw [List.length_map]
        omega
      exact ⟨hnd, hperm, fun k hk p hp => hbef k (hperm.mem_iff.mpr hk) p hp⟩

theorem mem_producers (edges : List Edge) (e : Edge) (he : e ∈ edges) :
    e.source ∈ producers e.target edges := by
  unfold producers
  exact List.mem_map.mpr ⟨e, List.mem_filter.mpr ⟨he, by simp⟩, rfl⟩

/-- C1. Whenever `topologicalSort` returns an order for steps with pairwise distinct ids and the
dependency map that `executeWorkflow` builds from the connections, the order contains every step
id exactly once (and nothing else), and for every connection between steps the source occurs at
an earlier index than the target. -/
theorem topologicalSort_sound (nodes : List Node) (edges : List Edge) (order : List String)
    (hids : (nodes.map Node.id).Nodup)
    (h : topologicalSort nodes (buildDependencies nodes edges) = Outcome.ok order) :
    (∀ node ∈ nodes, order.count node.id = 1) ∧
    (∀ x ∈ order, x ∈ nodes.map Node.id) ∧
    order.length = nodes.length ∧
    (∀ e ∈ edges, e.source ∈ nodes.map Node.id → e.target ∈ nodes.map Node.id →
      e.source ∈ order ∧ e.target ∈ order ∧ order.indexOf e.source < order.indexOf e.target) := by
  obtain ⟨hnd, hperm, hbef⟩ := topologicalSort_ok nodes _ order hids h
  refine ⟨?_, ?_, ?_, ?_⟩
  · intro node hnode
    exact List.count_eq_one_of_mem hnd (hperm.mem_iff.mpr (List.mem_map_of_mem _ hnode))
  · intro x hx
    exact hperm.mem_iff.mp hx
  · rw [hperm.length_eq, List.length_map]
  · intro e he _ ht
    apply Before.indexOf_lt hnd
    apply hbef e.target ht
    rw [depList_buildDependencies]
    exact mem_producers edges e he

/-- C1, on the diamond `A -> B`, `A -> C`, `B -> D`, `C -> D` given in the node order
`D, C, B, A`: the order returned is `A, C, B, D`. -/
theorem topologicalSort_sound_witness :
    (∀ node ∈ [plainStep "D", plainStep "C", plainStep "B", plainStep "A"],
      ["A", "C", "B", "D"].count node.id = 1) ∧
    (∀ x ∈ ["A", "C", "B", "D"],
      x ∈ [plainStep "D", plainStep "C", plainStep "B", plainStep "A"].map Node.id) ∧
    ["A", "C", "B", "D"].length
      = [plainStep "D", plainStep "C", plainStep "B", plainStep "A"].length ∧
    (∀ e ∈ [connect "A" "B", connect "A" "C", connect "B" "D", connect "C" "D"],
      e.source ∈ [plainStep "D", plainStep "C", plainStep "B", plainStep "A"].map Node.id →
      e.target ∈ [plainStep "D", plainStep "C", plainStep "B", plainStep "A"].map Node.id →
      e.source ∈ ["A", "C", "B", "D"] ∧ e.target ∈ ["A", "C", "B", "D"] ∧
        ["A", "C", "B", "D"].indexOf e.source < ["A", "C", "B", "D"].indexOf e.target) :=
  topologicalSort_sound [plainStep "D", plainStep "C", plainStep "B", plainStep "A"]
    [connect "A" "B", connect "A" "C", connect "B" "D", connect "C" "D"] ["A", "C", "B", "D"]
    (by decide) (by rfl)

/-! ## The scheduler on duplicated connections and on cycles -/

/-- C2 as stated fails: two steps `A`, `B` and the connection `A -> B` listed twice. The ids
are distinct, every endpoint is a step and there is no directed cycle, yet `topologicalSort`
throws: the in-degree of `B` starts at `2` and is decremented once. -/
theorem topologicalSort_duplicate_connection :
    ([plainStep "A", plainStep "B"].map Node.id).Nodup ∧
    (∀ e ∈ [connect "A" "B", connect "A" "B"],
      e.source ∈ [plainStep "A", plainStep "B"].map Node.id ∧
      e.target ∈ [plainStep "A", plainStep "B"].map Node.id) ∧
    ¬ HasCycle [plainStep "A", plainStep "B"] [connect "A" "B", connect "A" "B"] ∧
    topologicalSort [plainStep "A", plainStep "B"]
      (buildDependencies [plainStep "A", plainStep "B"] [connect "A" "B", connect "A" "B"])
      = Outcome.thrown cycleMessage := by
  refine ⟨by decide, by decide, ?_, by rfl⟩
  rintro ⟨v, hv⟩
  have key : ∀ a b, Relation.TransGen
      (edgeRel [plainStep "A", plainStep "B"] [connect "A" "B", connect "A" "B"]) a b →
      a = "A" ∧ b = "B" := by
    intro a b hab
    have base : ∀ x y,
        edgeRel [plainStep "A", plainStep "B"] [connect "A" "B", connect "A" "B"] x y →
        x = "A" ∧ y = "B" := by
      rintro x y ⟨_, _, e, he, rfl, rfl⟩
      simp only [List.mem_cons, List.mem_singleton, List.not_mem_nil, or_false, or_self] at he
      subst he
      exact ⟨rfl, rfl⟩
    induction hab with
    | single h => exact base _ _ h
    | tail _ h ih => exact ⟨ih.1, (base _ _ h).2⟩
  have := key v v hv
  have h2 : ("A" : String) = "B" := this.1.symm.trans this.2
  exact absurd h2 (by decide)

theorem topologicalSort_thrown (nodes : List Node) (deps : JsMap (List String))
    (message : String) (h : topologicalSort nodes deps = Outcome.thrown message) :
    message = cycleMessage := by
  unfold topologicalSort topologicalSortFuel at h
  simp only at h
  split at h
  · simp at h
  · split at h
    · simpa using h.symm
    · simp at h

/-- Along connections between steps the index in a returned order increases. -/
theorem indexOf_lt_of_transGen (nodes : List Node) (edges : List Edge) (order : List String)
    (hids : (nodes.map Node.id).Nodup)
    (h : topologicalSort nodes (buildDependencies nodes edges) = Outcome.ok order)
    (a b : String) (hab : Relation.TransGen (edgeRel nodes edges) a b) :
    order.indexOf a < order.indexOf b := by
  obtain ⟨hnd, _, hbef⟩ := topologicalSort_ok nodes _ order hids h
  have base : ∀ x y, edgeRel nodes edges x y → order.indexOf x < order.indexOf y := by
    rintro x y ⟨_, hy, e, he, rfl, rfl⟩
    have hp : e.source ∈ depList (buildDependencies nodes edges) e.target := by
      rw [depList_buildDependencies]; exact mem_producers edges e he
    exact (Before.indexOf_lt hnd (hbef e.target hy e.source hp)).2.2
  induction hab with
  | single h1 => exact base _ _ h1
  | tail _ h1 ih => exact lt_trans ih (base _ _ h1)

/-- A graph with pairwise distinct step ids and a directed cycle makes the scheduler throw. -/
theorem topologicalSort_cycle (nodes : List Node) (edges : List Edge)
    (hids : (nodes.map Node.id).Nodup) (hcyc : HasCycle nodes edges) :
    topologicalSort nodes (buildDependencies nodes edges) = Outcome.thrown cycleMessage := by
  obtain ⟨v, hv⟩ := hcyc
  cases h : topologicalSort nodes (buildDependencies nodes edges) with
  | ok order =>
    exact absurd (indexOf_lt_of_transGen nodes edges order hids h v v hv) (lt_irrefl _)
  | thrown message => rw [topologicalSort_thrown nodes _ message h]
  | diverged => exact absurd h (topologicalSort_ne_diverged nodes _)

/-- C3 as stated fails when step ids repeat: with the steps `A, A, B, C` and the connections
`A -> B`, `C -> B`, `B -> C` the graph has the cycle `B -> C -> B`, but the duplicate `A` drives
the in-degree of `B` to `0`; the scheduler returns `A, A, B, C` and all four steps are run. -/
theorem executeWorkflow_cycle_duplicate_ids :
    HasCycle [plainStep "A", plainStep "A", plainStep "B", plainStep "C"]
      [connect "A" "B", connect "C" "B", connect "B" "C"] ∧
    (executeWorkflow offlineEnv [plainStep "A", plainStep "A", plainStep "B", plainStep "C"]
      [connect "A" "B", connect "C" "B", connect "B" "C"] ()).trace.map Invocation.nodeId
      = ["A", "A", "B", "C"] ∧
    (executeWorkflow offlineEnv [plainStep "A", plainStep "A", plainStep "B", plainStep "C"]
      [connect "A" "B", connect "C" "B", connect "B" "C"] ()).outcome
      = Outcome.ok [("A", JsVal.null),
          ("B", JsVal.obj [("A", JsVal.null), ("C", JsVal.null)]),
          ("C", JsVal.obj [("A", JsVal.null), ("C", JsVal.null)])] := by
  refine ⟨⟨"B", ?_⟩, by rfl, by rfl⟩
  apply Relation.TransGen.tail (b := "C")
  · apply Relation.TransGen.single
    exact ⟨by decide, by decide, connect "B" "C", by simp, rfl, rfl⟩
  · exact ⟨by decide, by decide, connect "C" "B", by simp, rfl, rfl⟩

/-- C3, amended. For every graph with pairwise distinct step ids that contains a directed cycle
among its steps, `executeWorkflow` fails with the error of the scheduler, returns no result set
and calls no executor: the trace is empty and the world is untouched. -/
theorem executeWorkflow_cycle {σ : Type} (env : Env σ) (nodes : List Node) (edges : List Edge)
    (w : σ) (hids : (nodes.map Node.id).Nodup) (hcyc : HasCycle nodes edges) :
    executeWorkflow env nodes edges w = RunResult.mk (Outcome.thrown cycleMessage) [] w := by
  have hne : ¬ nodes.length = 0 := by
    obtain ⟨v, hv⟩ := hcyc
    have hmem : v ∈ nodes.map Node.id := by
      cases hv with
      | single h => exact h.2.1
      | tail _ h => exact h.2.1
    intro h0
    rw [List.length_eq_zero] at h0
    subst h0
    simp at hmem
  unfold executeWorkflow
  simp only [hne, if_false, topologicalSort_cycle nodes edges hids hcyc]

/-- C3 on the cycle `A -> B -> A` (the self-loop `A -> A` is the same statement with one
step). -/
theorem executeWorkflow_cycle_witness :
    executeWorkflow offlineEnv [plainStep "A", plainStep "B"]
      [connect "A" "B", connect "B" "A"] ()
      = RunResult.mk (Outcome.thrown cycleMessage) [] () :=
  executeWorkflow_cycle offlineEnv [plainStep "A", plainStep "B"]
    [connect "A" "B", connect "B" "A"] () (by decide)
    ⟨"A", Relation.TransGen.tail
      (Relation.TransGen.single ⟨by decide, by decide, connect "A" "B", by simp, rfl, rfl⟩)
      ⟨by decide, by decide, connect "B" "A", by simp, rfl, rfl⟩⟩

/-! ## The scheduler on acyclic graphs without repeated connections -/

theorem kahnLoop_final (nodes : List Node) (deps : JsMap (List String))
    (hids : (nodes.map Node.id).Nodup) :
    ∀ (fuel : Nat) (inDegree : JsMap Int) (queue result r : List String),
      KahnInv nodes deps inDegree queue result →
      kahnLoop nodes deps fuel inDegree queue result = some r →
      ∃ last, KahnInv nodes deps last [] r := by
  intro fuel
  induction fuel with
  | zero =>
    intro inDegree queue result r inv h
    cases queue with
    | nil =>
      simp only [kahnLoop, Option.some.injEq] at h
      subst h
      exact ⟨inDegree, inv⟩
    | cons nodeId q => simp [kahnLoop] at h
  | succ fuel ih =>
    intro inDegree queue result r inv h
    cases queue with
    | nil =>
      simp only [kahnLoop, Option.some.injEq] at h
      subst h
      exact ⟨inDegree, inv⟩
    | cons nodeId q =>
      simp only [kahnLoop] at h
      exact ih _ _ _ r (KahnInv.step nodes deps inDegree nodeId q result hids inv) h

/-- When the loop has ended, a node that is not in the result has a dependency that is not in
the result either, provided its dependency list has no repetition. -/
theorem KahnInv.blocked (nodes : List Node) (deps : JsMap (List String)) (last : JsMap Int)
    (r : List String) (inv : KahnInv nodes deps last [] r) (k : String)
    (hk : k ∈ nodes.map Node.id) (hkr : k ∉ r) (hnd : (depList deps k).Nodup) :
    ∃ p ∈ depList deps k, p ∉ r := by
  obtain ⟨hrnd, _, _, hseen, _⟩ := inv
  rw [List.append_nil] at hrnd
  by_contra hall
  push_neg at hall
  apply hkr
  have := (hseen k hk).mpr (by
    unfold doneCount
    apply le_antisymm (filter_mem_length_le r _ hrnd)
    apply (List.Nodup.subperm hnd _).length_le
    intro p hp
    exact List.mem_filter.mpr ⟨hall p hp, by simpa using hp⟩)
  simpa using this

/-- The scheduler succeeds on every acyclic graph with pairwise distinct step ids in which the
connections into a step come from existing steps, each producer once. -/
theorem topologicalSort_complete (nodes : List Node) (edges : List Edge)
    (hids : (nodes.map Node.id).Nodup)
    (hprod : ∀ k ∈ nodes.map Node.id, (producers k edges).Nodup ∧
      ∀ p ∈ producers k edges, p ∈ nodes.map Node.id)
    (hacyclic : ¬ HasCycle nodes edges) :
    ∃ order, topologicalSort nodes (buildDependencies nodes edges) = Outcome.ok order := by
  obtain ⟨r, hr⟩ := kahnLoop_fuel_enough nodes (buildDependencies nodes edges)
    (2 * nodes.length) (initInDegree nodes (buildDependencies nodes edges))
    (initQueue nodes (initInDegree nodes (buildDependencies nodes edges))) []
    (loopMeasure_init nodes _)
  obtain ⟨last, inv⟩ := kahnLoop_final nodes _ hids _ _ _ _ r (KahnInv.init nodes _ hids) hr
  have hrnd : r.Nodup := by simpa using inv.1
  have hrsub : ∀ x ∈ r, x ∈ nodes.map Node.id := by simpa using inv.2.1
  suffices hlen : r.length = nodes.length by
    refine ⟨r, ?_⟩
    unfold topologicalSort topologicalSortFuel
    simp only [hr, hlen, ne_eq, not_true_eq_false, if_false]
  by_contra hne
  -- some node is missing from the result
  have hmissing : ∃ k ∈ nodes.map Node.id, k ∉ r := by
    by_contra hall
    push_neg at hall
    have h1 := (List.Nodup.subperm hids hall).length_le
    have h2 := (List.Nodup.subperm hrnd hrsub).length_le
    rw [List.length_map] at h1 h2
    omega
  -- every missing node has a missing producer
  have hstep : ∀ k ∈ nodes.map Node.id, k ∉ r →
      ∃ p ∈ nodes.map Node.id, p ∉ r ∧ edgeRel nodes edges p k := by
    intro k hk hkr
    have hd := depList_buildDependencies nodes edges k
    obtain ⟨p, hp, hpr⟩ := KahnInv.blocked nodes _ last r inv k hk hkr
      (by rw [hd]; exact (hprod k hk).1)
    rw [hd] at hp
    have hpid := (hprod k hk).2 p hp
    refine ⟨p, hpid, hpr, hpid, hk, ?_⟩
    unfold producers at hp
    obtain ⟨e, he, hes⟩ := List.mem_map.mp hp
    obtain ⟨he1, he2⟩ := List.mem_filter.mp he
    exact ⟨e, he1, hes, by simpa using he2⟩
  -- the reachability relation on the finitely many step ids is well founded
  let S := { x : String // x ∈ nodes.map Node.id }
  have hfin : Finite S := (List.finite_toSet (nodes.map Node.id)).to_subtype
  let rel : S → S → Prop := fun a b => Relation.TransGen (edgeRel nodes edges) a.1 b.1
  have htrans : IsTrans S rel := ⟨fun a b c hab hbc => Relation.TransGen.trans hab hbc⟩
  have hirrefl : IsIrrefl S rel := ⟨fun a ha => hacyclic ⟨a.1, ha⟩⟩
  have hwf : WellFounded rel := Finite.wellFounded_of_trans_of_irrefl rel
  obtain ⟨k, hk, hkr⟩ := hmissing
  obtain ⟨m, hm, hmin⟩ := hwf.has_min { x : S | x.1 ∉ r } ⟨⟨k, hk⟩, hkr⟩
  obtain ⟨p, hp, hpr, hedge⟩ := hstep m.1 m.2 hm
  exact hmin ⟨p, hp⟩ hpr (Relation.TransGen.single hedge)

theorem producers_nodup (edges : List Edge) (k : String)
    (hedges : (edges.map (fun e => (e.source, e.target))).Nodup) :
    (producers k edges).Nodup := by
  unfold producers
  have hsub : ((edges.filter (fun edge => edge.target == k)).map
      (fun e => (e.source, e.target))).Nodup :=
    hedges.sublist (List.Sublist.map _ (List.filter_sublist _))
  have hnd := List.Nodup.of_map _ hsub
  apply List.Nodup.map_on _ hnd
  intro x hx y hy hxy
  have hx1 : x.target = k := by simpa using (List.mem_filter.mp hx).2
  have hy1 : y.target = k := by simpa using (List.mem_filter.mp hy).2
  cases x
  cases y
  simp only at hx1 hy1 hxy
  subst hx1 hy1 hxy
  rfl

/-- C2, amended. For every list of steps with pairwise distinct ids and every list of
connections in which no connection is listed twice, whose endpoints are existing step ids and
which has no directed cycle, the scheduler (`topologicalSort` on the dependency map built by
`executeWorkflow`) returns an order, and in it the source of every connection occurs before the
target. -/
theorem topologicalSort_acyclic (nodes : List Node) (edges : List Edge)
    (hids : (nodes.map Node.id).Nodup)
    (hedges : (edges.map (fun e => (e.source, e.target))).Nodup)
    (hends : ∀ e ∈ edges, e.source ∈ nodes.map Node.id ∧ e.target ∈ nodes.map Node.id)
    (hacyclic : ¬ HasCycle nodes edges) :
    ∃ order, topologicalSort nodes (buildDependencies nodes edges) = Outcome.ok order ∧
      ∀ e ∈ edges, e.source ∈ order ∧ e.target ∈ order ∧
        order.indexOf e.source < order.indexOf e.target := by
  obtain ⟨order, horder⟩ := topologicalSort_complete nodes edges hids
    (fun k _ => ⟨producers_nodup edges k hedges, fun p hp => by
      unfold producers at hp
      obtain ⟨e, he, hes⟩ := List.mem_map.mp hp
      rw [← hes]
      exact (hends e (List.mem_filter.mp he).1).1⟩)
    hacyclic
  refine ⟨order, horder, ?_⟩
  intro e he
  obtain ⟨hnd, _, hbef⟩ := topologicalSort_ok nodes _ order hids horder
  apply Before.indexOf_lt hnd
  apply hbef e.target (hends e he).2
  rw [depList_buildDependencies]
  exact mem_producers edges e he

/-- A graph whose connections all go from a lower to a higher rank has no directed cycle. -/
theorem not_hasCycle_of_rank (nodes : List Node) (edges : List Edge) (rank : String → Nat)
    (h : ∀ e ∈ edges, rank e.source < rank e.target) : ¬ HasCycle nodes edges := by
  rintro ⟨v, hv⟩
  have key : ∀ a b, Relation.TransGen (edgeRel nodes edges) a b → rank a < rank b := by
    intro a b hab
    have base : ∀ x y, edgeRel nodes edges x y → rank x < rank y := by
      rintro x y ⟨_, _, e, he, rfl, rfl⟩
      exact h e he
    induction hab with
    | single h1 => exact base _ _ h1
    | tail _ h1 ih => exact lt_trans ih (base _ _ h1)
  exact lt_irrefl _ (key v v hv)

/-- C2 on the diamond `A -> B`, `A -> C`, `B -> D`, `C -> D` given in the node order
`D, C, B, A`. -/
theorem topologicalSort_acyclic_witness :
    ∃ order, topologicalSort [plainStep "D", plainStep "C", plainStep "B", plainStep "A"]
        (buildDependencies [plainStep "D", plainStep "C", plainStep "B", plainStep "A"]
          [connect "A" "B", connect "A" "C", connect "B" "D", connect "C" "D"])
        = Outcome.ok order ∧
      ∀ e ∈ [connect "A" "B", connect "A" "C", connect "B" "D", connect "C" "D"],
        e.source ∈ order ∧ e.target ∈ order ∧
          order.indexOf e.source < order.indexOf e.target :=
  topologicalSort_acyclic [plainStep "D", plainStep "C", plainStep "B", plainStep "A"]
    [connect "A" "B", connect "A" "C", connect "B" "D", connect "C" "D"]
    (by decide) (by decide) (by decide)
    (not_hasCycle_of_rank _ _ (fun s => if s = "A" then 0 else if s = "D" then 2 else 1)
      (by decide))

/-! ## Objects -/

theorem lookup_cons_ite {α : Type} (k1 ek : String) (ev : α) (rest : List (String × α)) :
    List.lookup k1 ((ek, ev) :: rest) = if k1 = ek then some ev else List.lookup k1 rest := by
  by_cases h : k1 = ek
  · subst h; simp [List.lookup]
  · have hb : (k1 == ek) = false := by simpa using h
    simp [List.lookup, hb, h]

theorem JsObject.keys_cons (e : String × JsVal) (rest : JsObject) :
    JsObject.keys (e :: rest) = e.1 :: JsObject.keys rest := rfl

theorem JsObject.lookup_replace (k k1 : String) (v : JsVal) :
    ∀ o : JsObject, List.lookup k1 (o.map (fun e => if e.1 == k then (k, v) else e)) =
      if k1 = k then (if k ∈ JsObject.keys o then some v else none) else List.lookup k1 o := by
  intro o
  induction o with
  | nil => simp [JsObject.keys]
  | cons e rest ih =>
    obtain ⟨ek, ev⟩ := e
    by_cases hek : ek = k
    · subst hek
      have hmap : ((ek, ev) :: rest).map (fun e => if e.1 == ek then (ek, v) else e)
          = (ek, v) :: rest.map (fun e => if e.1 == ek then (ek, v) else e) := by simp
      rw [hmap, lookup_cons_ite, lookup_cons_ite, ih, JsObject.keys_cons]
      by_cases h1 : k1 = ek
      · subst h1; simp
      · simp [h1]
    · have hmap : ((ek, ev) :: rest).map (fun e => if e.1 == k then (k, v) else e)
          = (ek, ev) :: rest.map (fun e => if e.1 == k then (k, v) else e) := by simp [hek]
      rw [hmap, lookup_cons_ite, lookup_cons_ite, ih, JsObject.keys_cons]
      by_cases h1 : k1 = k
      · subst h1
        have hne : ¬ k1 = ek := fun h => hek h.symm
        have hiff : (k1 ∈ ek :: JsObject.keys rest) ↔ k1 ∈ JsObject.keys rest := by
          rw [List.mem_cons]; tauto
        simp only [hne, if_false, if_true, hiff]
      · simp [h1]

theorem JsObject.lookup_append_new (k k1 : String) (v : JsVal) :
    ∀ o : JsObject, k ∉ JsObject.keys o →
      List.lookup k1 (o ++ [(k, v)]) = if k1 = k then some v else List.lookup k1 o := by
  intro o
  induction o with
  | nil =>
    intro _
    rw [List.nil_append, lookup_cons_ite]
  | cons e rest ih =>
    intro hk
    obtain ⟨ek, ev⟩ := e
    rw [JsObject.keys_cons, List.mem_cons, not_or] at hk
    rw [List.cons_append, lookup_cons_ite, lookup_cons_ite, ih hk.2]
    by_cases h1 : k1 = ek
    · subst h1
      have : ¬ k1 = k := fun h => hk.1 h.symm
      simp [this]
    · simp [h1]

theorem JsObject.lookup_insertIndex (n : Nat) (k k1 : String) (v : JsVal) :
    ∀ o : JsObject, k ∉ JsObject.keys o →
      List.lookup k1 (JsObject.insertIndex n k v o) =
        if k1 = k then some v else List.lookup k1 o := by
  intro o
  induction o with
  | nil =>
    intro _
    rw [JsObject.insertIndex, lookup_cons_ite]
  | cons e rest ih =>
    intro hk
    obtain ⟨ek, ev⟩ := e
    rw [JsObject.keys_cons, List.mem_cons, not_or] at hk
    have ih1 := ih hk.2
    have hhead : List.lookup k1 ((k, v) :: (ek, ev) :: rest) =
        if k1 = k then some v else List.lookup k1 ((ek, ev) :: rest) := lookup_cons_ite _ _ _ _
    unfold JsObject.insertIndex
    cases hidx : arrayIndex? ek with
    | none => simpa [hidx] using hhead
    | some m =>
      by_cases hmn : m < n
      · simp only [hidx, hmn, if_true]
        rw [lookup_cons_ite, lookup_cons_ite, ih1]
        by_cases h1 : k1 = ek
        · subst h1
          have : ¬ k1 = k := fun h => hk.1 h.symm
          simp [this]
        · simp [h1]
      · simpa [hidx, hmn] using hhead

/-- A write under `__proto__` leaves the own properties as they are. -/
theorem JsObject.set_proto (o : JsObject) (v : JsVal) : JsObject.set o "__proto__" v = o := by
  unfold JsObject.set
  rw [if_pos rfl]

/-- No own property is found under `__proto__`. -/
theorem JsObject.get_proto (o : JsObject) : JsObject.get o "__proto__" = none := by
  unfold JsObject.get
  rw [if_pos rfl]

/-- Reading after a write: `o[k] = v` changes what is read at `k`, unless `k` is `__proto__`,
and nothing else. -/
theorem JsObject.get_set (o : JsObject) (k k1 : String) (v : JsVal) :
    JsObject.get (JsObject.set o k v) k1
      = if k1 = k ∧ k ≠ "__proto__" then some v else JsObject.get o k1 := by
  by_cases hp : k = "__proto__"
  · subst hp
    rw [JsObject.set_proto, if_neg (fun h => h.2 rfl)]
  · unfold JsObject.get JsObject.set
    rw [if_neg hp]
    by_cases hp1 : k1 = "__proto__"
    · have hne : ¬ k1 = k := fun h => hp (h ▸ hp1)
      rw [if_pos hp1, if_pos hp1, if_neg (fun h => hne h.1)]
    · rw [if_neg hp1, if_neg hp1]
      have hcond : (k1 = k ∧ k ≠ "__proto__") ↔ k1 = k := ⟨fun h => h.1, fun h => ⟨h, hp⟩⟩
      simp only [hcond]
      by_cases hk : k ∈ JsObject.keys o
      · rw [if_pos (by simpa using hk), JsObject.lookup_replace]
        simp [hk]
      · rw [if_neg (by simpa using hk)]
        cases hidx : arrayIndex? k with
        | none => exact JsObject.lookup_append_new k k1 v o hk
        | some n => exact JsObject.lookup_insertIndex n k k1 v o hk

theorem lookup_isSome_iff (o : JsObject) (k : String) :
    (List.lookup k o).isSome ↔ k ∈ JsObject.keys o := by
  induction o with
  | nil => simp [JsObject.keys]
  | cons e rest ih =>
    obtain ⟨ek, ev⟩ := e
    rw [lookup_cons_ite, JsObject.keys_cons, List.mem_cons]
    by_cases h1 : k = ek
    · subst h1; simp
    · simp only [h1, if_false, false_or]; exact ih

/-- The keys under which a read finds an own property: the keys of the object other than
`__proto__`. -/
theorem JsObject.get_isSome_iff (o : JsObject) (k : String) :
    (JsObject.get o k).isSome ↔ k ∈ JsObject.keys o ∧ k ≠ "__proto__" := by
  unfold JsObject.get
  by_cases hp : k = "__proto__"
  · rw [if_pos hp]
    simp [hp]
  · rw [if_neg hp, lookup_isSome_iff]
    simp [hp]

/-- A key under which a read finds a value is not `__proto__`. -/
theorem JsObject.ne_proto_of_get {o : JsObject} {k : String} {v : JsVal}
    (h : JsObject.get o k = some v) : k ≠ "__proto__" := by
  intro hp
  rw [hp, JsObject.get_proto] at h
  cases h

/-- The keys after a write: the key written, unless it is `__proto__`, and the keys there
were. -/
theorem JsObject.mem_keys_set (o : JsObject) (k k1 : String) (v : JsVal) :
    k1 ∈ JsObject.keys (JsObject.set o k v) ↔ (k1 = k ∧ k ≠ "__proto__") ∨ k1 ∈ JsObject.keys o := by
  by_cases hp : k = "__proto__"
  · subst hp
    rw [JsObject.set_proto]
    simp
  · have hcond : (k1 = k ∧ k ≠ "__proto__") ↔ k1 = k := ⟨fun h => h.1, fun h => ⟨h, hp⟩⟩
    rw [hcond, ← lookup_isSome_iff, ← lookup_isSome_iff]
    have hset : ∀ k2, List.lookup k2 (JsObject.set o k v)
        = if k2 = k then some v else List.lookup k2 o := by
      intro k2
      unfold JsObject.set
      rw [if_neg hp]
      by_cases hk : k ∈ JsObject.keys o
      · rw [if_pos (by simpa using hk), JsObject.lookup_replace]
        simp [hk]
      · rw [if_neg (by simpa using hk)]
        cases hidx : arrayIndex? k with
        | none => exact JsObject.lookup_append_new k k2 v o hk
        | some n => exact JsObject.lookup_insertIndex n k k2 v o hk
    rw [hset]
    by_cases h : k1 = k <;> simp [h]

theorem JsObject.insertIndex_perm (n : Nat) (k : String) (v : JsVal) :
    ∀ o : JsObject, (JsObject.insertIndex n k v o).Perm ((k, v) :: o) := by
  intro o
  induction o with
  | nil => simp [JsObject.insertIndex]
  | cons e rest ih =>
    unfold JsObject.insertIndex
    cases hidx : arrayIndex? e.1 with
    | none => simp
    | some m =>
      by_cases hmn : m < n
      · simp only [hmn, if_true]
        exact (List.Perm.cons e ih).trans (List.Perm.swap _ _ _)
      · simp [hmn]

/-- A write keeps the keys of an object pairwise distinct. -/
theorem JsObject.nodup_keys_set (o : JsObject) (k : String) (v : JsVal)
    (h : (JsObject.keys o).Nodup) : (JsObject.keys (JsObject.set o k v)).Nodup := by
  by_cases hp : k = "__proto__"
  · subst hp
    rw [JsObject.set_proto]
    exact h
  unfold JsObject.set
  rw [if_neg hp]
  by_cases hk : k ∈ JsObject.keys o
  · rw [if_pos (by simpa using hk)]
    have : JsObject.keys (o.map (fun e => if e.1 == k then (k, v) else e)) = JsObject.keys o := by
      unfold JsObject.keys
      rw [List.map_map]
      apply List.map_congr_left
      intro e _
      by_cases he : e.1 = k
      · simp [he]
      · simp [he]
    rw [this]; exact h
  · rw [if_neg (by simpa using hk)]
    cases hidx : arrayIndex? k with
    | none =>
      show (JsObject.keys (o ++ [(k, v)])).Nodup
      unfold JsObject.keys
      rw [List.map_append]
      refine List.nodup_append.mpr ⟨h, List.nodup_singleton _, ?_⟩
      intro x hx hx1
      simp only [List.map_cons, List.map_nil, List.mem_singleton] at hx1
      subst hx1
      exact hk hx
    | some n =>
      show (JsObject.keys (JsObject.insertIndex n k v o)).Nodup
      have hp := (JsObject.insertIndex_perm n k v o).map Prod.fst
      unfold JsObject.keys
      rw [hp.nodup_iff, List.map_cons, List.nodup_cons]
      exact ⟨hk, h⟩

/-! ## The node map -/

theorem buildNodeMap_foldl_some (k : String) (node : Node) :
    ∀ (ns : List Node) (init : JsMap Node),
      JsMap.get (ns.foldl (fun nodeMap n => JsMap.set nodeMap n.id n) init) k = some node →
      (node ∈ ns ∧ node.id = k) ∨ JsMap.get init k = some node := by
  intro ns
  induction ns with
  | nil => intro init h; exact Or.inr h
  | cons n ns ih =>
    intro init h
    rw [List.foldl_cons] at h
    rcases ih _ h with h1 | h1
    · exact Or.inl ⟨List.mem_cons_of_mem _ h1.1, h1.2⟩
    · rw [JsMap.get_of_set] at h1
      by_cases hk : k = n.id
      · rw [if_pos hk] at h1
        have := Option.some.inj h1
        subst this
        exact Or.inl ⟨List.mem_cons_self _ _, hk.symm⟩
      · rw [if_neg hk] at h1
        exact Or.inr h1

theorem buildNodeMap_foldl_isSome (k : String) :
    ∀ (ns : List Node) (init : JsMap Node),
      (JsMap.get (ns.foldl (fun nodeMap n => JsMap.set nodeMap n.id n) init) k).isSome ↔
        k ∈ ns.map Node.id ∨ (JsMap.get init k).isSome := by
  intro ns
  induction ns with
  | nil => intro init; simp
  | cons n ns ih =>
    intro init
    rw [List.foldl_cons, ih, JsMap.get_of_set, List.map_cons, List.mem_cons]
    by_cases hk : k = n.id
    · simp [hk]
    · simp only [hk, if_false, false_or]

/-- An entry of the node map is a node of the graph, stored under its own id. -/
theorem buildNodeMap_get_some (nodes : List Node) (k : String) (node : Node)
    (h : JsMap.get (buildNodeMap nodes) k = some node) : node ∈ nodes ∧ node.id = k := by
  rcases buildNodeMap_foldl_some k node nodes [] h with h1 | h1
  · exact h1
  · simp [JsMap.get] at h1

/-- Every step id has an entry in the node map. -/
theorem buildNodeMap_get_of_mem (nodes : List Node) (k : String)
    (h : k ∈ nodes.map Node.id) : ∃ node, JsMap.get (buildNodeMap nodes) k = some node := by
  have := (buildNodeMap_foldl_isSome k nodes []).mpr (Or.inl h)
  exact Option.isSome_iff_exists.mp this

/-! ## The input resolver -/

/-- A step that no connection targets gets `null`, and a step that exactly one connection
targets gets the result of the source of that connection as it is. -/
theorem getInputData_single (nodeId : String) (edges : List Edge) (results : JsObject)
    (nodeMap : JsMap Node) :
    (producers nodeId edges = [] →
      getInputData nodeId edges results nodeMap = JsVal.null) ∧
    (∀ p v, producers nodeId edges = [p] → JsObject.get results p = some v →
      getInputData nodeId edges results nodeMap = v) := by
  unfold producers getInputData
  constructor
  · intro h
    rw [List.map_eq_nil_iff] at h
    simp only [h]
  · intro p v h hv
    cases hf : edges.filter (fun edge => edge.target == nodeId) with
    | nil => rw [hf] at h; simp at h
    | cons e rest =>
      rw [hf] at h
      cases rest with
      | nil =>
        simp only [List.map_cons, List.map_nil, List.cons.injEq, and_true] at h
        simp only [h, hv, Option.getD_some]
      | cons e2 rest2 => simp at h

/-- A list without repetition whose only member is `p` is the list `[p]`. -/
theorem eq_singleton_of_nodup (l : List String) (p : String) (hnd : l.Nodup)
    (h : ∀ q, q ∈ l ↔ q = p) : l = [p] := by
  cases l with
  | nil => exact absurd ((h p).mpr rfl) (List.not_mem_nil p)
  | cons a t =>
    have ha : a = p := (h a).mp (List.mem_cons_self a t)
    subst ha
    cases t with
    | nil => rfl
    | cons b t2 =>
      have hb : b = a := (h b).mp (List.mem_cons_of_mem _ (List.mem_cons_self b t2))
      subst hb
      rw [List.nodup_cons] at hnd
      exact absurd (List.mem_cons_self b t2) hnd.1

/-- C4 as stated fails: with the connection `A -> B` listed twice the step `B` has exactly one
producer, `A`, whose result is `7`, and `getInputData` returns the object with the one property
`A` of value `7`, not `7` itself. -/
theorem getInputData_repeated_connection :
    (∀ q, q ∈ producers "B" [connect "A" "B", connect "A" "B"] ↔ q = "A") ∧
    JsObject.get [("A", JsVal.num 7)] "A" = some (JsVal.num 7) ∧
    getInputData "B" [connect "A" "B", connect "A" "B"] [("A", JsVal.num 7)]
        (buildNodeMap [plainStep "A", plainStep "B"])
      = JsVal.obj [("A", JsVal.num 7)] := by
  refine ⟨?_, by rfl, by rfl⟩
  intro q
  simp [producers, connect]

/-- C4, amended. For every step id, every connection list in which no connection is listed
twice, every result set and every node map: `getInputData` returns `null` when the step has no
producer, and when it has exactly one producer `p` and `p` has the result `v`, it returns `v`
itself, whatever JSON value `v` is (`null` included). -/
theorem getInputData_zero_one (nodeId : String) (edges : List Edge) (results : JsObject)
    (nodeMap : JsMap Node)
    (hedges : (edges.map (fun e => (e.source, e.target))).Nodup) :
    (producers nodeId edges = [] →
      getInputData nodeId edges results nodeMap = JsVal.null) ∧
    (∀ p v, (∀ q, q ∈ producers nodeId edges ↔ q = p) → JsObject.get results p = some v →
      getInputData nodeId edges results nodeMap = v) := by
  refine ⟨(getInputData_single nodeId edges results nodeMap).1, ?_⟩
  intro p v hp hv
  exact (getInputData_single nodeId edges results nodeMap).2 p v
    (eq_singleton_of_nodup _ p (producers_nodup edges nodeId hedges) hp) hv

/-- C4, amended, on the connection `A -> B`: `A` has no producer and gets `null`; `B` has the
one producer `A` and gets the result of `A` as it is, here the number `7` and here `null`. -/
theorem getInputData_zero_one_witness :
    getInputData "A" [connect "A" "B"] [("A", JsVal.num 7)] [] = JsVal.null ∧
    getInputData "B" [connect "A" "B"] [("A", JsVal.num 7)] [] = JsVal.num 7 ∧
    getInputData "B" [connect "A" "B"] [("A", JsVal.null)] [] = JsVal.null :=
  ⟨(getInputData_zero_one "A" [connect "A" "B"] [("A", JsVal.num 7)] [] (by decide)).1
     (by decide),
   (getInputData_zero_one "B" [connect "A" "B"] [("A", JsVal.num 7)] [] (by decide)).2 "A"
     (JsVal.num 7) (by intro q; simp [producers, connect]) (by rfl),
   (getInputData_zero_one "B" [connect "A" "B"] [("A", JsVal.null)] [] (by decide)).2 "A"
     JsVal.null (by intro q; simp [producers, connect]) (by rfl)⟩

theorem inputs_foldl_get (results : JsObject) (nodeMap : JsMap Node) (k : String) :
    ∀ (es : List Edge) (init : JsObject),
      (∀ e ∈ es, (∃ node, JsMap.get nodeMap e.source = some node ∧ node.id = e.source) ∧
        e.source ≠ "__proto__") →
      JsObject.get (es.foldl (fun inputs edge =>
        match JsMap.get nodeMap edge.source with
        | some sourceNode =>
          JsObject.set inputs sourceNode.id ((JsObject.get results edge.source).getD JsVal.null)
        | none => inputs) init) k =
      if k ∈ es.map Edge.source then some ((JsObject.get results k).getD JsVal.null)
      else JsObject.get init k := by
  intro es
  induction es with
  | nil => intro init _; simp
  | cons e es ih =>
    intro init h
    obtain ⟨⟨node, hnode, hid⟩, hproto⟩ := h e (List.mem_cons_self _ _)
    rw [List.foldl_cons, ih _ (fun e1 he1 => h e1 (List.mem_cons_of_mem _ he1))]
    have hcond : (k = e.source ∧ e.source ≠ "__proto__") ↔ k = e.source :=
      ⟨fun hc => hc.1, fun hc => ⟨hc, hproto⟩⟩
    simp only [hnode, hid, JsObject.get_set, hcond, List.map_cons, List.mem_cons]
    by_cases hk : k ∈ es.map Edge.source
    · simp [hk]
    · by_cases hke : k = e.source
      · subst hke; simp
      · simp [hk, hke]

theorem inputs_foldl_keys (results : JsObject) (nodeMap : JsMap Node) (k : String) :
    ∀ (es : List Edge) (init : JsObject),
      (∀ e ∈ es, (∃ node, JsMap.get nodeMap e.source = some node ∧ node.id = e.source) ∧
        e.source ≠ "__proto__") →
      (k ∈ JsObject.keys (es.foldl (fun inputs edge =>
        match JsMap.get nodeMap edge.source with
        | some sourceNode =>
          JsObject.set inputs sourceNode.id ((JsObject.get results edge.source).getD JsVal.null)
        | none => inputs) init) ↔ k ∈ JsObject.keys init ∨ k ∈ es.map Edge.source) := by
  intro es
  induction es with
  | nil => intro init _; simp
  | cons e es ih =>
    intro init h
    obtain ⟨⟨node, hnode, hid⟩, hproto⟩ := h e (List.mem_cons_self _ _)
    rw [List.foldl_cons, ih _ (fun e1 he1 => h e1 (List.mem_cons_of_mem _ he1))]
    have hcond : (k = e.source ∧ e.source ≠ "__proto__") ↔ k = e.source :=
      ⟨fun hc => hc.1, fun hc => ⟨hc, hproto⟩⟩
    simp only [hnode, hid, JsObject.mem_keys_set, hcond, List.map_cons, List.mem_cons]
    tauto

theorem inputs_foldl_nodup (results : JsObject) (nodeMap : JsMap Node) :
    ∀ (es : List Edge) (init : JsObject), (JsObject.keys init).Nodup →
      (JsObject.keys (es.foldl (fun inputs edge =>
        match JsMap.get nodeMap edge.source with
        | some sourceNode =>
          JsObject.set inputs sourceNode.id ((JsObject.get results edge.source).getD JsVal.null)
        | none => inputs) init)).Nodup := by
  intro es
  induction es with
  | nil => intro init h; exact h
  | cons e es ih =>
    intro init h
    rw [List.foldl_cons]
    apply ih
    cases JsMap.get nodeMap e.source with
    | none => exact h
    | some node => exact JsObject.nodup_keys_set _ _ _ h

/-- C5. For every step that two or more connections target, all of them from existing steps
that have an entry in the result set, `getInputData` returns an object whose keys are exactly
the ids of the producers, each once, and whose value at each producer id is the result of that
producer. -/
theorem getInputData_fan_in (nodes : List Node) (edges : List Edge) (results : JsObject)
    (nodeId : String) (hmany : 2 ≤ (producers nodeId edges).length)
    (hexist : ∀ p ∈ producers nodeId edges, p ∈ nodes.map Node.id)
    (hres : ∀ p ∈ producers nodeId edges, ∃ v, JsObject.get results p = some v) :
    ∃ inputs : JsObject,
      getInputData nodeId edges results (buildNodeMap nodes) = JsVal.obj inputs ∧
      (∀ k, k ∈ JsObject.keys inputs ↔ k ∈ producers nodeId edges) ∧
      (JsObject.keys inputs).Nodup ∧
      (∀ p ∈ producers nodeId edges, JsObject.get inputs p = JsObject.get results p) := by
  unfold producers at hmany hexist hres ⊢
  unfold getInputData
  have hnode : ∀ e ∈ edges.filter (fun edge => edge.target == nodeId),
      (∃ node, JsMap.get (buildNodeMap nodes) e.source = some node ∧ node.id = e.source) ∧
        e.source ≠ "__proto__" := by
    intro e he
    obtain ⟨node, hn⟩ := buildNodeMap_get_of_mem nodes e.source
      (hexist e.source (List.mem_map_of_mem _ he))
    obtain ⟨v, hv⟩ := hres e.source (List.mem_map_of_mem _ he)
    exact ⟨⟨node, hn, (buildNodeMap_get_some nodes _ node hn).2⟩, JsObject.ne_proto_of_get hv⟩
  have hget := fun k => inputs_foldl_get results (buildNodeMap nodes) k
    (edges.filter (fun edge => edge.target == nodeId)) [] hnode
  have hkeys := fun k => inputs_foldl_keys results (buildNodeMap nodes) k
    (edges.filter (fun edge => edge.target == nodeId)) [] hnode
  have hnd := inputs_foldl_nodup results (buildNodeMap nodes)
    (edges.filter (fun edge => edge.target == nodeId)) [] (by simp [JsObject.keys])
  generalize edges.filter (fun edge => edge.target == nodeId) = incoming at *
  match incoming, hmany with
  | e1 :: e2 :: rest, _ =>
    refine ⟨_, rfl, ?_, hnd, ?_⟩
    · intro k
      rw [hkeys k]
      simp [JsObject.keys]
    · intro p hp
      rw [hget p, if_pos hp]
      obtain ⟨v, hv⟩ := hres p hp
      rw [hv]; rfl

/-- C5 on the fan-in `P1 -> S`, `P2 -> S` with the results `1` and `2`. -/
theorem getInputData_fan_in_witness :
    ∃ inputs : JsObject,
      getInputData "S" [connect "P1" "S", connect "P2" "S"]
          [("P1", JsVal.num 1), ("P2", JsVal.num 2)]
          (buildNodeMap [plainStep "P1", plainStep "P2", plainStep "S"]) = JsVal.obj inputs ∧
      (∀ k, k ∈ JsObject.keys inputs ↔
        k ∈ producers "S" [connect "P1" "S", connect "P2" "S"]) ∧
      (JsObject.keys inputs).Nodup ∧
      (∀ p ∈ producers "S" [connect "P1" "S", connect "P2" "S"],
        JsObject.get inputs p
          = JsObject.get [("P1", JsVal.num 1), ("P2", JsVal.num 2)] p) :=
  getInputData_fan_in [plainStep "P1", plainStep "P2", plainStep "S"]
    [connect "P1" "S", connect "P2" "S"] [("P1", JsVal.num 1), ("P2", JsVal.num 2)] "S"
    (by decide) (by decide)
    (by
      intro p hp
      have hp1 : p = "P1" ∨ p = "P2" := by
        simpa [producers, connect] using hp
      rcases hp1 with rfl | rfl
      · exact ⟨JsVal.num 1, rfl⟩
      · exact ⟨JsVal.num 2, rfl⟩)

/-! ## The run coordinator -/

theorem executeStep_calls {σ : Type} (env : Env σ) (edges : List Edge) (nodeMap : JsMap Node)
    (nodeId : String) (node : Node) (results : JsObject) (w : σ) :
    ∀ inv ∈ (executeStep env edges nodeMap nodeId node results w).2.1,
      inv.nodeId = nodeId ∧
      inv.output = (executeStep env edges nodeMap nodeId node results w).1 := by
  intro inv hinv
  unfold executeStep at hinv ⊢
  cases hex : executorOf env node with
  | none => simp [hex] at hinv
  | some executor =>
    simp only [hex, List.mem_singleton] at hinv ⊢
    subst hinv
    exact ⟨rfl, rfl⟩

theorem executeStep_ok_calls {σ : Type} (env : Env σ) (edges : List Edge)
    (nodeMap : JsMap Node) (nodeId : String) (node : Node) (results : JsObject) (w : σ)
    (output : JsVal) (calls : List Invocation) (w1 : σ)
    (h : executeStep env edges nodeMap nodeId node results w = (Outcome.ok output, calls, w1)) :
    ∃ input, calls = [Invocation.mk nodeId input (Outcome.ok output)] := by
  unfold executeStep at h
  cases hex : executorOf env node with
  | none => simp [hex] at h
  | some executor =>
    simp only [hex, Prod.mk.injEq] at h
    obtain ⟨h1, h2, _⟩ := h
    exact ⟨_, by rw [← h2, h1]⟩

/-- The ids before a failing or final point have been run: the loop over `pre ++ rest`
continues with `rest` from where the loop over `pre` ended. -/
theorem runLoop_append {σ : Type} (env : Env σ) (edges : List Edge) (nodeMap : JsMap Node)
    (rest : List String) :
    ∀ (pre : List String) (results : JsObject) (trace : List Invocation) (w : σ)
      (results1 : JsObject) (trace1 : List Invocation) (w1 : σ),
      runLoop env edges nodeMap pre results trace w
        = RunResult.mk (Outcome.ok results1) trace1 w1 →
      runLoop env edges nodeMap (pre ++ rest) results trace w
        = runLoop env edges nodeMap rest results1 trace1 w1 := by
  intro pre
  induction pre with
  | nil =>
    intro results trace w results1 trace1 w1 h
    simp only [runLoop, RunResult.mk.injEq, Outcome.ok.injEq] at h
    obtain ⟨h1, h2, h3⟩ := h
    subst h1 h2 h3
    rfl
  | cons nodeId pre ih =>
    intro results trace w results1 trace1 w1 h
    simp only [List.cons_append, runLoop] at h ⊢
    cases hn : JsMap.get nodeMap nodeId with
    | none =>
      simp only [hn] at h ⊢
      exact ih _ _ _ _ _ _ h
    | some node =>
      simp only [hn] at h ⊢
      rcases hs : executeStep env edges nodeMap nodeId node results w with ⟨out, calls, w2⟩
      rw [hs] at h
      cases out with
      | ok output =>
        simp only at h ⊢
        exact ih _ _ _ _ _ _ h
      | thrown message => simp at h
      | diverged => simp at h

/-- Every executor call of the loop is for one of the ids it is given. -/
theorem runLoop_trace_ids {σ : Type} (env : Env σ) (edges : List Edge) (nodeMap : JsMap Node) :
    ∀ (order : List String) (results : JsObject) (trace : List Invocation) (w : σ),
      ∀ inv ∈ (runLoop env edges nodeMap order results trace w).trace,
        inv ∈ trace ∨ inv.nodeId ∈ order := by
  intro order
  induction order with
  | nil => intro results trace w inv h; exact Or.inl h
  | cons nodeId rest ih =>
    intro results trace w inv h
    simp only [runLoop] at h
    cases hn : JsMap.get nodeMap nodeId with
    | none =>
      simp only [hn] at h
      rcases ih _ _ _ inv h with h1 | h1
      · exact Or.inl h1
      · exact Or.inr (List.mem_cons_of_mem _ h1)
    | some node =>
      simp only [hn] at h
      have hcalls := executeStep_calls env edges nodeMap nodeId node results w
      rcases hs : executeStep env edges nodeMap nodeId node results w with ⟨out, calls, w2⟩
      rw [hs] at h hcalls
      have hmem : ∀ i ∈ trace ++ calls, i ∈ trace ∨ i.nodeId ∈ nodeId :: rest := by
        intro i hi
        rcases List.mem_append.mp hi with h1 | h1
        · exact Or.inl h1
        · exact Or.inr (by rw [(hcalls i h1).1]; exact List.mem_cons_self _ _)
      cases out with
      | ok output =>
        simp only at h
        rcases ih _ _ _ inv h with h1 | h1
        · exact hmem inv h1
        · exact Or.inr (List.mem_cons_of_mem _ h1)
      | thrown message => exact hmem inv h
      | diverged => exact hmem inv h

theorem topologicalSort_ok_length (nodes : List Node) (deps : JsMap (List String))
    (order : List String) (h : topologicalSort nodes deps = Outcome.ok order) :
    order.length = nodes.length := by
  unfold topologicalSort topologicalSortFuel at h
  simp only at h
  split at h
  · simp at h
  · split at h
    · simp at h
    · rename_i hlen
      simp only [Outcome.ok.injEq] at h
      subst h
      simpa using hlen

/-- C6. In a run whose scheduling succeeded, let `nodeId` be the first step that fails: the
steps `pre` before it in the execution order ran to the result set `results1`, and the step
itself (its input resolution, dispatch or executor) throws `message`. Then `executeWorkflow`
throws the error that names the id and the label of that step and carries `message`, returns
no result set, and its executor calls are those of the steps before plus the failing call: no
call is made for a step after `nodeId`. -/
theorem executeWorkflow_first_failure {σ : Type} (env : Env σ) (nodes : List Node)
    (edges : List Edge) (w : σ) (pre post : List String) (nodeId : String) (node : Node)
    (results1 : JsObject) (trace1 calls : List Invocation) (w1 w2 : σ) (message : String)
    (horder : topologicalSort nodes (buildDependencies nodes edges)
      = Outcome.ok (pre ++ nodeId :: post))
    (hpre : runLoop env edges (buildNodeMap nodes) pre [] [] w
      = RunResult.mk (Outcome.ok results1) trace1 w1)
    (hnode : JsMap.get (buildNodeMap nodes) nodeId = some node)
    (hfail : executeStep env edges (buildNodeMap nodes) nodeId node results1 w1
      = (Outcome.thrown message, calls, w2)) :
    executeWorkflow env nodes edges w
      = RunResult.mk (Outcome.thrown (stepErrorMessage nodeId node.label message))
          (trace1 ++ calls) w2 ∧
    (∀ inv ∈ trace1 ++ calls, inv.nodeId ∈ pre ∨
      (inv.nodeId = nodeId ∧ inv.output = Outcome.thrown message)) := by
  have hlen := topologicalSort_ok_length nodes _ _ horder
  have hne : ¬ nodes.length = 0 := by
    rw [← hlen]; simp
  constructor
  · unfold executeWorkflow
    simp only [hne, if_false, horder]
    rw [runLoop_append env edges (buildNodeMap nodes) (nodeId :: post) pre [] [] w
      results1 trace1 w1 hpre]
    simp only [runLoop, hnode, hfail]
  · intro inv hinv
    rcases List.mem_append.mp hinv with h1 | h1
    · have := runLoop_trace_ids env edges (buildNodeMap nodes) pre [] [] w inv
        (by rw [hpre]; exact h1)
      rcases this with h2 | h2
      · simp at h2
      · exact Or.inl h2
    · have := executeStep_calls env edges (buildNodeMap nodes) nodeId node results1 w1 inv
        (by rw [hfail]; exact h1)
      rw [hfail] at this
      exact Or.inr this

/-- C6 on the example `A -> B -> C` where `A` has no url: the run reports step `A` with its
label and the message of the HTTP executor; the only executor call is the failing one. -/
theorem executeWorkflow_first_failure_witness :
    executeWorkflow offlineEnv pipelineNodes pipelineEdges ()
      = RunResult.mk
          (Outcome.thrown
            "Error executing node A (Fetch): URL is required for HTTP request node")
          [Invocation.mk "A" JsVal.null
            (Outcome.thrown "URL is required for HTTP request node")] () ∧
    (∀ inv ∈ ([] : List Invocation) ++ [Invocation.mk "A" JsVal.null
        (Outcome.thrown "URL is required for HTTP request node")],
      inv.nodeId ∈ ([] : List String) ∨
        (inv.nodeId = "A" ∧
          inv.output = Outcome.thrown "URL is required for HTTP request node")) :=
  executeWorkflow_first_failure offlineEnv pipelineNodes pipelineEdges () [] ["B", "C"] "A"
    (Node.mk "A" "http_request" "Fetch" emptyConfig) [] []
    [Invocation.mk "A" JsVal.null (Outcome.thrown "URL is required for HTTP request node")]
    () () "URL is required for HTTP request node" (by rfl) (by rfl) (by rfl) (by rfl)

/-- A loop that ends with a result set, over distinct ids other than `__proto__` that all name
nodes: one executor call per id, in order; the final keys are the initial keys and the ids;
every call returned the value stored under its id; other entries are unchanged. -/
theorem runLoop_ok {σ : Type} (env : Env σ) (edges : List Edge) (nodeMap : JsMap Node) :
    ∀ (order : List String) (results : JsObject) (trace : List Invocation) (w : σ)
      (final : JsObject),
      order.Nodup → (∀ k ∈ order, (JsMap.get nodeMap k).isSome) →
      "__proto__" ∉ order → (JsObject.keys results).Nodup →
      (runLoop env edges nodeMap order results trace w).outcome = Outcome.ok final →
      ∃ calls : List Invocation,
        (runLoop env edges nodeMap order results trace w).trace = trace ++ calls ∧
        calls.map Invocation.nodeId = order ∧
        (∀ k, k ∈ JsObject.keys final ↔ k ∈ JsObject.keys results ∨ k ∈ order) ∧
        (JsObject.keys final).Nodup ∧
        (∀ inv ∈ calls, ∃ v, inv.output = Outcome.ok v ∧
          JsObject.get final inv.nodeId = some v) ∧
        (∀ k, k ∉ order → JsObject.get final k = JsObject.get results k) := by
  intro order
  induction order with
  | nil =>
    intro results trace w final _ _ _ hnd h
    simp only [runLoop, Outcome.ok.injEq] at h
    subst h
    exact ⟨[], by simp [runLoop], rfl, by simp, hnd, by simp, fun _ _ => rfl⟩
  | cons nodeId rest ih =>
    intro results trace w final hord hnodes hproto hnd h
    rw [List.nodup_cons] at hord
    rw [List.mem_cons, not_or] at hproto
    have hidp : nodeId ≠ "__proto__" := fun hp => hproto.1 hp.symm
    have hcond : ∀ k, (k = nodeId ∧ nodeId ≠ "__proto__") ↔ k = nodeId :=
      fun k => ⟨fun hc => hc.1, fun hc => ⟨hc, hidp⟩⟩
    obtain ⟨node, hn⟩ := Option.isSome_iff_exists.mp (hnodes nodeId (List.mem_cons_self _ _))
    simp only [runLoop, hn] at h ⊢
    rcases hs : executeStep env edges nodeMap nodeId node results w with ⟨out, calls1, w1⟩
    rw [hs] at h
    cases out with
    | thrown message => simp at h
    | diverged => simp at h
    | ok output =>
      simp only at h ⊢
      obtain ⟨input, hcalls⟩ := executeStep_ok_calls env edges nodeMap nodeId node results w
        output calls1 w1 hs
      subst hcalls
      obtain ⟨calls, h1, h2, h3, h4, h5, h6⟩ := ih (JsObject.set results nodeId output)
        (trace ++ [Invocation.mk nodeId input (Outcome.ok output)]) w1 final hord.2
        (fun k hk => hnodes k (List.mem_cons_of_mem _ hk)) hproto.2
        (JsObject.nodup_keys_set _ _ _ hnd) h
      refine ⟨Invocation.mk nodeId input (Outcome.ok output) :: calls, ?_, ?_, ?_, h4, ?_, ?_⟩
      · rw [h1]; simp
      · simp [h2]
      · intro k
        rw [h3 k, JsObject.mem_keys_set, hcond, List.mem_cons]
        tauto
      · intro inv hinv
        rcases List.mem_cons.mp hinv with h7 | h7
        · subst h7
          refine ⟨output, rfl, ?_⟩
          rw [h6 nodeId hord.1, JsObject.get_set, if_pos ⟨rfl, hidp⟩]
        · exact h5 inv h7
      · intro k hk
        rw [List.mem_cons, not_or] at hk
        rw [h6 k hk.2, JsObject.get_set, if_neg (fun hc => hk.1 hc.1)]

/-- C7 as stated fails: the single step `__proto__`, an HTTP request that the client answers
with `7`, has pairwise distinct ids and the run succeeds with one executor call that returns
`7`, but the result set returned has no key: the write `results[nodeId] = output` under
`__proto__` adds no property. -/
theorem executeWorkflow_proto_id :
    ([Node.mk "__proto__" "http_request" "Fetch"
        (Config.mk none (some "u") none none none none none none)].map Node.id).Nodup ∧
    executeWorkflow (replyEnv (JsVal.num 7))
        [Node.mk "__proto__" "http_request" "Fetch"
          (Config.mk none (some "u") none none none none none none)] [] ()
      = RunResult.mk (Outcome.ok [])
          [Invocation.mk "__proto__" JsVal.null (Outcome.ok (JsVal.num 7))] () := by
  refine ⟨by decide, by rfl⟩

/-- C7, amended. For every graph with pairwise distinct step ids, none of them `__proto__`, on
which `executeWorkflow` succeeds, the result set returned has exactly the step ids as keys (each
once), the executor calls of the run are one per step, and every call returned the value that
the result set holds under the id of its step. -/
theorem executeWorkflow_complete {σ : Type} (env : Env σ) (nodes : List Node)
    (edges : List Edge) (w : σ) (results : JsObject) (hids : (nodes.map Node.id).Nodup)
    (hproto : "__proto__" ∉ nodes.map Node.id)
    (h : (executeWorkflow env nodes edges w).outcome = Outcome.ok results) :
    (∀ k, k ∈ JsObject.keys results ↔ k ∈ nodes.map Node.id) ∧
    (JsObject.keys results).Nodup ∧
    ((executeWorkflow env nodes edges w).trace.map Invocation.nodeId).Perm
      (nodes.map Node.id) ∧
    (∀ inv ∈ (executeWorkflow env nodes edges w).trace, ∃ v,
      inv.output = Outcome.ok v ∧ JsObject.get results inv.nodeId = some v) := by
  unfold executeWorkflow at h ⊢
  by_cases hne : nodes.length = 0
  · simp [hne] at h
  · simp only [hne, if_false] at h ⊢
    cases hsort : topologicalSort nodes (buildDependencies nodes edges) with
    | thrown message => simp [hsort] at h
    | diverged => simp [hsort] at h
    | ok order =>
      simp only [hsort] at h ⊢
      obtain ⟨hnd, hperm, _⟩ := topologicalSort_ok nodes _ order hids hsort
      obtain ⟨calls, h1, h2, h3, h4, h5, _⟩ := runLoop_ok env edges (buildNodeMap nodes) order
        [] [] w results hnd
        (fun k hk => by
          obtain ⟨node, hn⟩ := buildNodeMap_get_of_mem nodes k (hperm.mem_iff.mp hk)
          rw [hn]; rfl)
        (fun hp => hproto (hperm.mem_iff.mp hp))
        (by simp [JsObject.keys]) h
      rw [h1, List.nil_append]
      refine ⟨?_, h4, ?_, h5⟩
      · intro k
        rw [h3 k, ← hperm.mem_iff]
        simp [JsObject.keys]
      · rw [h2]; exact hperm

/-- C7, amended, on the graph `A -> B` where the HTTP client answers `7` to the request of `A`
and `B` passes its input on: the result set holds `7` under both ids. -/
theorem executeWorkflow_complete_witness :
    (∀ k, k ∈ JsObject.keys [("A", JsVal.num 7), ("B", JsVal.num 7)] ↔
      k ∈ fetchNodes.map Node.id) ∧
    (JsObject.keys [("A", JsVal.num 7), ("B", JsVal.num 7)]).Nodup ∧
    ((executeWorkflow (replyEnv (JsVal.num 7)) fetchNodes [connect "A" "B"]
      ()).trace.map Invocation.nodeId).Perm (fetchNodes.map Node.id) ∧
    (∀ inv ∈ (executeWorkflow (replyEnv (JsVal.num 7)) fetchNodes [connect "A" "B"] ()).trace,
      ∃ v, inv.output = Outcome.ok v ∧
        JsObject.get [("A", JsVal.num 7), ("B", JsVal.num 7)] inv.nodeId = some v) :=
  executeWorkflow_complete (replyEnv (JsVal.num 7)) fetchNodes [connect "A" "B"] ()
    [("A", JsVal.num 7), ("B", JsVal.num 7)] (by decide) (by decide) (by rfl)

/-! ## Decimal numerals -/

theorem digitChar_toNat (m : Nat) (h : m < 10) : (Nat.digitChar m).toNat - 48 = m := by
  interval_cases m <;> rfl

theorem digitsValue_append (xs : List Char) (c : Char) :
    (xs ++ [c]).foldl (fun acc d => 10 * acc + (d.toNat - 48)) 0 =
      10 * xs.foldl (fun acc d => 10 * acc + (d.toNat - 48)) 0 + (c.toNat - 48) := by
  rw [List.foldl_append]; rfl

theorem toDigitsCore_spec :
    ∀ (fuel n : Nat) (ds : List Char), n < fuel →
      Nat.toDigitsCore 10 fuel n ds = Nat.toDigitsCore 10 fuel n [] ++ ds ∧
      (Nat.toDigitsCore 10 fuel n []).foldl (fun acc d => 10 * acc + (d.toNat - 48)) 0 = n := by
  intro fuel
  induction fuel with
  | zero => intro n ds h; omega
  | succ fuel ih =>
    intro n ds h
    unfold Nat.toDigitsCore
    by_cases h0 : n / 10 = 0
    · simp only [h0, if_true]
      have hn : n < 10 := by omega
      refine ⟨by simp, ?_⟩
      simp only [List.foldl_cons, List.foldl_nil, Nat.mul_zero, Nat.zero_add]
      rw [Nat.mod_eq_of_lt hn]
      exact digitChar_toNat n hn
    · simp only [h0, if_false]
      have hlt : n / 10 < fuel := by omega
      obtain ⟨h1, h2⟩ := ih (n / 10) (Nat.digitChar (n % 10) :: ds) hlt
      obtain ⟨h3, _⟩ := ih (n / 10) [Nat.digitChar (n % 10)] hlt
      obtain ⟨_, h5⟩ := ih (n / 10) [] hlt
      refine ⟨?_, ?_⟩
      · rw [h1, h3]; simp
      · rw [h3, digitsValue_append, h5, digitChar_toNat _ (Nat.mod_lt _ (by omega))]
        omega

/-- The decimal numeral of a number determines the number. -/
theorem toString_nat_injective (a b : Nat) (h : toString a = toString b) : a = b := by
  have ha := (toDigitsCore_spec (a + 1) a [] (by omega)).2
  have hb := (toDigitsCore_spec (b + 1) b [] (by omega)).2
  have hd : Nat.toDigits 10 a = Nat.toDigits 10 b := by
    have h1 : (toString a).data = (toString b).data := by rw [h]
    exact h1
  unfold Nat.toDigits at hd
  rw [← ha, ← hb, hd]

theorem string_append_left_cancel (s a b : String) (h : s ++ a = s ++ b) : a = b := by
  have h1 : (s ++ a).data = (s ++ b).data := by rw [h]
  rw [String.data_append, String.data_append] at h1
  exact String.ext (List.append_cancel_left h1)

theorem string_append_length (s a : String) : (s ++ a).length = s.length + a.length :=
  String.length_append s a

/-! ## The collision loop -/

theorem suffixedName_injective (safeKey : String) (a b : Nat)
    (h : suffixedName safeKey a = suffixedName safeKey b) : a = b := by
  have hlen : ∀ k, (suffixedName safeKey (k + 1)).length = safeKey.length + 1
      + (toString (k + 1)).length := by
    intro k
    simp only [suffixedName, string_append_length]
    rfl
  cases a with
  | zero =>
    cases b with
    | zero => rfl
    | succ b =>
      have := congrArg String.length h
      rw [hlen] at this
      simp only [suffixedName] at this
      omega
  | succ a =>
    cases b with
    | zero =>
      have := congrArg String.length h
      rw [hlen] at this
      simp only [suffixedName] at this
      omega
    | succ b =>
      simp only [suffixedName] at h
      have h1 := string_append_left_cancel (safeKey ++ "_") _ _ h
      exact toString_nat_injective _ _ h1

theorem findUniqueKey_some (usedKeys : List String) (safeKey : String) :
    ∀ (fuel counter : Nat) (cur r : String),
      findUniqueKey usedKeys safeKey fuel counter cur = some r →
      (cur ∉ usedKeys ∧ r = cur) ∨
      (cur ∈ usedKeys ∧ ∃ k, counter ≤ k ∧ r = safeKey ++ "_" ++ toString k ∧ r ∉ usedKeys ∧
        ∀ j, counter ≤ j → j < k → safeKey ++ "_" ++ toString j ∈ usedKeys) := by
  intro fuel
  induction fuel with
  | zero => intro counter cur r h; simp [findUniqueKey] at h
  | succ fuel ih =>
    intro counter cur r h
    unfold findUniqueKey at h
    by_cases hc : cur ∈ usedKeys
    · have hcb : usedKeys.contains cur = true := by simpa using hc
      rw [if_pos hcb] at h
      right
      refine ⟨hc, ?_⟩
      rcases ih _ _ _ h with ⟨h1, h2⟩ | ⟨h1, k, hk, h2, h3, h4⟩
      · exact ⟨counter, le_refl _, h2, h2 ▸ h1, fun j hj1 hj2 => by omega⟩
      · refine ⟨k, by omega, h2, h3, ?_⟩
        intro j hj1 hj2
        by_cases hj : j = counter
        · subst hj; exact h1
        · exact h4 j (by omega) hj2
    · have hcb : ¬ usedKeys.contains cur = true := by simpa using hc
      rw [if_neg hcb] at h
      exact Or.inl ⟨hc, (Option.some.inj h).symm⟩

theorem findUniqueKey_none (usedKeys : List String) (safeKey : String) :
    ∀ (fuel counter : Nat) (cur : String),
      findUniqueKey usedKeys safeKey (fuel + 1) counter cur = none →
      cur ∈ usedKeys ∧
        ∀ j, counter ≤ j → j < counter + fuel → safeKey ++ "_" ++ toString j ∈ usedKeys := by
  intro fuel
  induction fuel with
  | zero =>
    intro counter cur h
    unfold findUniqueKey at h
    by_cases hc : cur ∈ usedKeys
    · exact ⟨hc, fun j h1 h2 => by omega⟩
    · have hcb : ¬ usedKeys.contains cur = true := by simpa using hc
      rw [if_neg hcb] at h
      simp at h
  | succ fuel ih =>
    intro counter cur h
    unfold findUniqueKey at h
    by_cases hc : cur ∈ usedKeys
    · have hcb : usedKeys.contains cur = true := by simpa using hc
      rw [if_pos hcb] at h
      obtain ⟨h1, h2⟩ := ih _ _ h
      refine ⟨hc, ?_⟩
      intro j hj1 hj2
      by_cases hj : j = counter
      · subst hj; exact h1
      · exact h2 j (by omega) (by omega)
    · have hcb : ¬ usedKeys.contains cur = true := by simpa using hc
      rw [if_neg hcb] at h
      simp at h

/-- The collision loop always ends within `usedKeys.length + 1` rounds, and returns the first
candidate that is not used. -/
theorem findUniqueKey_fresh (usedKeys : List String) (safeKey : String) :
    ∃ r, findUniqueKey usedKeys safeKey (usedKeys.length + 1) 1 safeKey = some r ∧
      FreshName usedKeys safeKey r := by
  cases h : findUniqueKey usedKeys safeKey (usedKeys.length + 1) 1 safeKey with
  | none =>
    exfalso
    obtain ⟨h1, h2⟩ := findUniqueKey_none usedKeys safeKey _ _ _ h
    have hsub : (List.range (usedKeys.length + 1)).map (suffixedName safeKey) ⊆ usedKeys := by
      intro x hx
      obtain ⟨k, hk, rfl⟩ := List.mem_map.mp hx
      rw [List.mem_range] at hk
      cases k with
      | zero => exact h1
      | succ k => exact h2 (k + 1) (by omega) (by omega)
    have hnd : ((List.range (usedKeys.length + 1)).map (suffixedName safeKey)).Nodup :=
      (List.nodup_range _).map (fun a b hab => suffixedName_injective safeKey a b hab)
    have := (List.Nodup.subperm hnd hsub).length_le
    simp at this
  | some r =>
    refine ⟨r, rfl, ?_⟩
    rcases findUniqueKey_some usedKeys safeKey _ _ _ r h with ⟨h1, h2⟩ | ⟨h1, k, hk, h2, h3, h4⟩
    · exact ⟨0, h2, h2 ▸ h1, fun j hj => by omega⟩
    · obtain ⟨k1, rfl⟩ : ∃ k1, k = k1 + 1 := ⟨k - 1, by omega⟩
      refine ⟨k1 + 1, h2, h3, ?_⟩
      intro j hj
      cases j with
      | zero => exact h1
      | succ j => exact h4 (j + 1) (by omega) hj

/-! ## The declarations -/

theorem declareKey_spec (usedKeys : List String) (decls : List VarDecl) (key : String) :
    ∃ r, declareKey (usedKeys, decls) key
        = some (usedKeys ++ [r], decls ++ [VarDecl.mk r key]) ∧
      FreshName usedKeys (sanitize key) r := by
  obtain ⟨r, h1, h2⟩ := findUniqueKey_fresh usedKeys (sanitize key)
  refine ⟨r, ?_, h2⟩
  unfold declareKey
  simp only [h1]

theorem declareKeys_spec :
    ∀ (keys usedKeys : List String) (decls : List VarDecl),
      ∃ new : List VarDecl,
        declareKeys keys (usedKeys, decls)
          = some (usedKeys ++ new.map VarDecl.name, decls ++ new) ∧
        new.map VarDecl.key = keys ∧
        ∀ a d b, new = a ++ d :: b →
          FreshName (usedKeys ++ a.map VarDecl.name) (sanitize d.key) d.name := by
  intro keys
  induction keys with
  | nil => intro usedKeys decls; exact ⟨[], by simp [declareKeys], rfl, by simp⟩
  | cons key keys ih =>
    intro usedKeys decls
    obtain ⟨r, h1, h2⟩ := declareKey_spec usedKeys decls key
    obtain ⟨new, h3, h4, h5⟩ := ih (usedKeys ++ [r]) (decls ++ [VarDecl.mk r key])
    refine ⟨VarDecl.mk r key :: new, ?_, by simp [h4], ?_⟩
    · unfold declareKeys
      simp only [h1, h3]
      simp
    · intro a d b hsplit
      cases a with
      | nil =>
        simp only [List.nil_append, List.cons.injEq] at hsplit
        rw [← hsplit.1]
        simpa using h2
      | cons x a =>
        simp only [List.cons_append, List.cons.injEq] at hsplit
        have := h5 a d b hsplit.2
        rw [← hsplit.1]
        simpa using this

theorem nodup_of_not_mem_prefix {α : Type} (l : List α)
    (h : ∀ pre d post, l = pre ++ d :: post → d ∉ pre) : l.Nodup := by
  induction l using List.reverseRecOn with
  | nil => exact List.nodup_nil
  | append_singleton init x ih =>
    refine List.nodup_append.mpr ⟨?_, List.nodup_singleton _, ?_⟩
    · apply ih
      intro pre d post hsplit
      exact h pre d (post ++ [x]) (by rw [hsplit]; simp)
    · intro y hy hy1
      rw [List.mem_singleton] at hy1
      subst hy1
      exact h init y [] rfl hy

/-- The declarations of `executeTransform` exist for every list of context keys: `data` first,
then one per other key in order, each named by the first unused candidate of its key. -/
theorem varDeclarations_spec (contextKeys : List String) :
    ∃ decls, varDeclarations contextKeys = some decls ∧
      decls.map VarDecl.key = "data" :: contextKeys.filter (fun key => key != "data") ∧
      decls.head? = some (VarDecl.mk "data" "data") ∧
      ∀ pre d post, decls = pre ++ d :: post → pre ≠ [] →
        FreshName (pre.map VarDecl.name) (sanitize d.key) d.name := by
  obtain ⟨new, h1, h2, h3⟩ := declareKeys_spec (contextKeys.filter (fun key => key != "data"))
    ["data"] [VarDecl.mk "data" "data"]
  refine ⟨[VarDecl.mk "data" "data"] ++ new, ?_, by simp [h2], by simp, ?_⟩
  · unfold varDeclarations
    rw [h1]; rfl
  · intro pre d post hsplit hpre
    cases pre with
    | nil => exact absurd rfl hpre
    | cons x a =>
      simp only [List.singleton_append, List.cons_append, List.cons.injEq] at hsplit
      have := h3 a d post hsplit.2
      rw [← hsplit.1]
      simpa using this

/-- The names of the declarations are pairwise distinct. -/
theorem varDeclarations_nodup (contextKeys : List String) (decls : List VarDecl)
    (h : varDeclarations contextKeys = some decls) : (decls.map VarDecl.name).Nodup := by
  obtain ⟨decls1, h1, _, _, h4⟩ := varDeclarations_spec contextKeys
  rw [h] at h1
  have hsame := Option.some.inj h1
  subst hsame
  apply nodup_of_not_mem_prefix
  intro pre n post hsplit
  obtain ⟨dpre, drest, hd, hpre, hrest⟩ := List.map_eq_append_iff.mp hsplit
  obtain ⟨d1, dpost, hdr, hn, _⟩ := List.map_eq_cons_iff.mp hrest
  subst hdr hpre hn
  cases dpre with
  | nil => simp
  | cons x a =>
    obtain ⟨k, _, hk, _⟩ := h4 (x :: a) d1 dpost hd (by simp)
    exact hk

/-- C10. For every list of context keys, the declarations of `executeTransform` exist; their
names are pairwise distinct; the first declares `data`; the others are for the keys other than
`data`, in order, and each is named by the sanitized key when no earlier declaration has that
name, and otherwise by the sanitized key followed by `_k` for the smallest `k ≥ 1` whose name
no earlier declaration has. -/
theorem varDeclarations_names (contextKeys : List String) :
    ∃ decls, varDeclarations contextKeys = some decls ∧
      decls.map VarDecl.key = "data" :: contextKeys.filter (fun key => key != "data") ∧
      decls.head? = some (VarDecl.mk "data" "data") ∧
      (decls.map VarDecl.name).Nodup ∧
      ∀ pre d post, decls = pre ++ d :: post → pre ≠ [] →
        (sanitize d.key ∉ pre.map VarDecl.name → d.name = sanitize d.key) ∧
        (sanitize d.key ∈ pre.map VarDecl.name →
          ∃ k, 1 ≤ k ∧ d.name = sanitize d.key ++ "_" ++ toString k ∧
            d.name ∉ pre.map VarDecl.name ∧
            ∀ j, 1 ≤ j → j < k → sanitize d.key ++ "_" ++ toString j ∈ pre.map VarDecl.name) := by
  obtain ⟨decls, h1, h2, h3, h4⟩ := varDeclarations_spec contextKeys
  refine ⟨decls, h1, h2, h3, ?_, ?_⟩
  · exact varDeclarations_nodup contextKeys decls h1
  · intro pre d post hsplit hpre
    obtain ⟨k, hk1, hk2, hk3⟩ := h4 pre d post hsplit hpre
    constructor
    · intro hfree
      cases k with
      | zero => exact hk1
      | succ k => exact absurd (hk3 0 (by omega)) hfree
    · intro hused
      cases k with
      | zero => rw [hk1] at hk2; exact absurd hused hk2
      | succ k =>
        refine ⟨k + 1, by omega, hk1, hk2, ?_⟩
        intro j hj1 hj2
        obtain ⟨j1, rfl⟩ : ∃ j1, j = j1 + 1 := ⟨j - 1, by omega⟩
        exact hk3 (j1 + 1) hj2

/-! ## The context of a transform step -/

theorem buildContext_foldl (allResults : JsObject) (nodeMap : JsMap Node) :
    ∀ (ks : List String) (init : JsObject),
      ks.foldl (fun context nodeId =>
        match JsMap.get nodeMap nodeId, JsObject.get allResults nodeId with
        | some resultNode, some result =>
          JsObject.set (JsObject.set context nodeId result) (typeKey resultNode nodeId) result
        | _, _ => context) init
      = (ks.flatMap (fun nodeId =>
        match JsMap.get nodeMap nodeId, JsObject.get allResults nodeId with
        | some resultNode, some result =>
          [(nodeId, result), (typeKey resultNode nodeId, result)]
        | _, _ => [])).foldl (fun c p => JsObject.set c p.1 p.2) init := by
  intro ks
  induction ks with
  | nil => intro init; rfl
  | cons k ks ih =>
    intro init
    rw [List.foldl_cons, List.flatMap_cons, List.foldl_append, ih]
    congr 1
    cases JsMap.get nodeMap k with
    | none => rfl
    | some node =>
      cases JsObject.get allResults k with
      | none => rfl
      | some result => rfl

/-- The context is the object `data` after the writes of `contextWrites`. -/
theorem buildContext_eq (inputData : JsVal) (allResults : JsObject) (nodeMap : JsMap Node) :
    buildContext inputData allResults nodeMap
      = (contextWrites allResults nodeMap).foldl (fun c p => JsObject.set c p.1 p.2)
          [("data", inputData)] := by
  unfold buildContext contextWrites
  exact buildContext_foldl allResults nodeMap _ _

theorem mem_contextWrites (allResults : JsObject) (nodeMap : JsMap Node) (key : String)
    (v : JsVal) :
    (key, v) ∈ contextWrites allResults nodeMap ↔
      ∃ id node, IsPriorStep allResults nodeMap id node v ∧
        (key = id ∨ key = typeKey node id) := by
  unfold contextWrites IsPriorStep
  rw [List.mem_flatMap]
  constructor
  · rintro ⟨id, hid, hmem⟩
    cases hn : JsMap.get nodeMap id with
    | none => simp [hn] at hmem
    | some node =>
      cases hr : JsObject.get allResults id with
      | none => simp [hn, hr] at hmem
      | some result =>
        simp only [hn, hr, List.mem_cons, Prod.mk.injEq, List.mem_singleton,
          List.not_mem_nil, or_false] at hmem
        rcases hmem with ⟨h1, h2⟩ | ⟨h1, h2⟩
        · subst h2; exact ⟨id, node, ⟨hid, hn, hr⟩, Or.inl h1⟩
        · subst h2; exact ⟨id, node, ⟨hid, hn, hr⟩, Or.inr h1⟩
  · rintro ⟨id, node, ⟨hid, hn, hr⟩, hkey⟩
    refine ⟨id, hid, ?_⟩
    simp only [hn, hr, List.mem_cons, Prod.mk.injEq, List.mem_singleton, and_true,
      List.not_mem_nil, or_false]
    exact hkey

theorem writes_foldl_get_other (key : String) :
    ∀ (W : List (String × JsVal)) (init : JsObject), (∀ v, (key, v) ∉ W) →
      JsObject.get (W.foldl (fun c p => JsObject.set c p.1 p.2) init) key
        = JsObject.get init key := by
  intro W
  induction W with
  | nil => intro init _; rfl
  | cons p W ih =>
    intro init h
    rw [List.foldl_cons, ih _ (fun v hv => h v (List.mem_cons_of_mem _ hv)), JsObject.get_set]
    have : key ≠ p.1 := by
      intro hk
      exact h p.2 (by rw [hk]; exact List.mem_cons_self _ _)
    rw [if_neg (fun hc => this hc.1)]

/-- A key other than `__proto__` whose writes all carry the same value reads that value. -/
theorem writes_foldl_get (key : String) (v : JsVal) (hkey : key ≠ "__proto__") :
    ∀ (W : List (String × JsVal)) (init : JsObject), (key, v) ∈ W →
      (∀ v1, (key, v1) ∈ W → v1 = v) →
      JsObject.get (W.foldl (fun c p => JsObject.set c p.1 p.2) init) key = some v := by
  intro W
  induction W with
  | nil => intro init h; simp at h
  | cons p W ih =>
    intro init hmem hall
    rw [List.foldl_cons]
    by_cases hlater : ∃ v1, (key, v1) ∈ W
    · obtain ⟨v1, hv1⟩ := hlater
      have : v1 = v := hall v1 (List.mem_cons_of_mem _ hv1)
      subst this
      exact ih _ hv1 (fun v2 hv2 => hall v2 (List.mem_cons_of_mem _ hv2))
    · have hnone : ∀ v1, (key, v1) ∉ W := fun v1 hv1 => hlater ⟨v1, hv1⟩
      rw [writes_foldl_get_other key W _ hnone, JsObject.get_set]
      rcases List.mem_cons.mp hmem with h1 | h1
      · rw [← h1]; simp [hkey]
      · exact absurd h1 (hnone v)

theorem writes_foldl_keys (key : String) :
    ∀ (W : List (String × JsVal)) (init : JsObject), (∀ p ∈ W, p.1 ≠ "__proto__") →
      (key ∈ JsObject.keys (W.foldl (fun c p => JsObject.set c p.1 p.2) init) ↔
        key ∈ JsObject.keys init ∨ key ∈ W.map Prod.fst) := by
  intro W
  induction W with
  | nil => intro init _; simp
  | cons p W ih =>
    intro init hW
    have hp : p.1 ≠ "__proto__" := hW p (List.mem_cons_self _ _)
    have hcond : (key = p.1 ∧ p.1 ≠ "__proto__") ↔ key = p.1 :=
      ⟨fun hc => hc.1, fun hc => ⟨hc, hp⟩⟩
    rw [List.foldl_cons, ih _ (fun q hq => hW q (List.mem_cons_of_mem _ hq)),
      JsObject.mem_keys_set, hcond, List.map_cons, List.mem_cons]
    tauto

theorem writes_foldl_nodup :
    ∀ (W : List (String × JsVal)) (init : JsObject), (JsObject.keys init).Nodup →
      (JsObject.keys (W.foldl (fun c p => JsObject.set c p.1 p.2) init)).Nodup := by
  intro W
  induction W with
  | nil => intro init h; exact h
  | cons p W ih =>
    intro init h
    rw [List.foldl_cons]
    exact ih _ (JsObject.nodup_keys_set _ _ _ h)

/-- The keys of the context are pairwise distinct. -/
theorem buildContext_keys_nodup (inputData : JsVal) (allResults : JsObject)
    (nodeMap : JsMap Node) :
    (JsObject.keys (buildContext inputData allResults nodeMap)).Nodup := by
  rw [buildContext_eq]
  exact writes_foldl_nodup _ _ (by simp [JsObject.keys])

/-- When no write goes to `__proto__`, a key of the context is `data`, the id of a prior step
or the `typeKey` of a prior step. -/
theorem mem_buildContext_keys (inputData : JsVal) (allResults : JsObject)
    (nodeMap : JsMap Node) (key : String)
    (hproto : ∀ p ∈ contextWrites allResults nodeMap, p.1 ≠ "__proto__") :
    key ∈ JsObject.keys (buildContext inputData allResults nodeMap) ↔
      key = "data" ∨ ∃ id node result, IsPriorStep allResults nodeMap id node result ∧
        (key = id ∨ key = typeKey node id) := by
  rw [buildContext_eq, writes_foldl_keys key _ _ hproto]
  constructor
  · rintro (h | h)
    · left; simpa [JsObject.keys] using h
    · right
      obtain ⟨⟨k, v⟩, hp, rfl⟩ := List.mem_map.mp h
      obtain ⟨id, node, h1, h2⟩ := (mem_contextWrites allResults nodeMap k v).mp hp
      exact ⟨id, node, v, h1, h2⟩
  · rintro (h | ⟨id, node, result, h1, h2⟩)
    · left; simp [JsObject.keys, h]
    · right
      exact List.mem_map.mpr ⟨(key, result),
        (mem_contextWrites allResults nodeMap key result).mpr ⟨id, node, h1, h2⟩, rfl⟩

theorem typeKey_ne_data (node : Node) (id : String) : typeKey node id ≠ "data" := by
  intro h
  have h1 : (typeKey node id).data = "data".data := by rw [h]
  unfold typeKey at h1
  rw [String.data_append, String.data_append] at h1
  have hmem : '_' ∈ node.type.data ++ "_".data ++ (lastSegment id).data := by
    apply List.mem_append_left
    apply List.mem_append_right
    decide
  rw [h1] at hmem
  revert hmem
  decide

theorem IsPriorStep.unique {allResults : JsObject} {nodeMap : JsMap Node} {id : String}
    {n1 n2 : Node} {r1 r2 : JsVal} (h1 : IsPriorStep allResults nodeMap id n1 r1)
    (h2 : IsPriorStep allResults nodeMap id n2 r2) : n1 = n2 ∧ r1 = r2 := by
  obtain ⟨_, ha, hb⟩ := h1
  obtain ⟨_, hc, hd⟩ := h2
  rw [ha] at hc
  rw [hb] at hd
  exact ⟨Option.some.inj hc, Option.some.inj hd⟩

/-! ## The namespace of a transform step -/

theorem sanitizeChar_utf16 (c : Char) :
    ((sanitizeChar c).map (fun c => if c.toNat < 65536 then 1 else 2)).sum
      = if c.toNat < 65536 then 1 else 2 := by
  unfold sanitizeChar
  by_cases h1 : (c.isAlphanum || c == '_' || c == '$') = true
  · rw [if_pos h1]; simp
  · rw [if_neg h1]
    by_cases h2 : c.toNat < 65536
    · rw [if_pos h2]
      have : ('_' : Char).toNat < 65536 := by decide
      simp [h2, this]
    · rw [if_neg h2]
      have : ('_' : Char).toNat < 65536 := by decide
      simp [h2, this]

/-- Sanitization keeps the length of a string (in UTF-16 code units). -/
theorem utf16Length_sanitize (key : String) : utf16Length (sanitize key) = utf16Length key := by
  unfold utf16Length sanitize
  show ((key.toList.flatMap sanitizeChar).map _).sum = _
  induction key.toList with
  | nil => rfl
  | cons c cs ih =>
    rw [List.flatMap_cons, List.map_append, List.sum_append, ih, sanitizeChar_utf16,
      List.map_cons, List.sum_cons]

theorem transformNamespace_eq (inputData : JsVal) (allResults : JsObject)
    (nodeMap : JsMap Node) (decls : List VarDecl)
    (h : varDeclarations (JsObject.keys (buildContext inputData allResults nodeMap))
      = some decls)
    (hall : decls.all (fun d => declarableName d.name && quotableKey d.key) = true) :
    transformNamespace inputData allResults nodeMap
      = some (decls.map (fun d =>
          (d.name, JsObject.get (buildContext inputData allResults nodeMap) d.key))) := by
  unfold transformNamespace
  simp only [h, hall, if_true]

/-- The declarations of a transform step when no write of the context goes to `__proto__`:
every declared key is `data` or comes from a prior step, and no key is declared twice. -/
theorem decl_keys (inputData : JsVal) (allResults : JsObject) (nodeMap : JsMap Node)
    (decls : List VarDecl)
    (hproto : ∀ p ∈ contextWrites allResults nodeMap, p.1 ≠ "__proto__")
    (hkeys : decls.map VarDecl.key = "data" ::
      (JsObject.keys (buildContext inputData allResults nodeMap)).filter
        (fun key => key != "data")) :
    (decls.map VarDecl.key).Nodup ∧
    (∀ d ∈ decls, d.key = "data" ∨ ∃ id node result,
      IsPriorStep allResults nodeMap id node result ∧
        (d.key = id ∨ d.key = typeKey node id)) ∧
    (∀ id node result, IsPriorStep allResults nodeMap id node result → id ≠ "data" →
      ∃ d ∈ decls, d.key = id) := by
  refine ⟨?_, ?_, ?_⟩
  · rw [hkeys, List.nodup_cons]
    refine ⟨?_, (buildContext_keys_nodup inputData allResults nodeMap).filter _⟩
    intro h
    have := (List.mem_filter.mp h).2
    simp at this
  · intro d hd
    have : d.key ∈ decls.map VarDecl.key := List.mem_map_of_mem _ hd
    rw [hkeys, List.mem_cons] at this
    rcases this with h | h
    · exact Or.inl h
    · exact (mem_buildContext_keys inputData allResults nodeMap d.key hproto).mp
        (List.mem_filter.mp h).1
  · intro id node result hstep hne
    have hmem : id ∈ decls.map VarDecl.key := by
      rw [hkeys]
      apply List.mem_cons_of_mem
      apply List.mem_filter.mpr
      refine ⟨(mem_buildContext_keys inputData allResults nodeMap id hproto).mpr
        (Or.inr ⟨id, node, result, hstep, Or.inl rfl⟩), ?_⟩
      simpa using hne
    obtain ⟨d, hd, hk⟩ := List.mem_map.mp hmem
    exact ⟨d, hd, hk⟩

theorem decl_key_ne_of_mem_prefix (decls pre post : List VarDecl) (d d1 : VarDecl)
    (hnd : (decls.map VarDecl.key).Nodup) (hsplit : decls = pre ++ d :: post)
    (hd1 : d1 ∈ pre) : d1.key ≠ d.key := by
  intro heq
  rw [hsplit, List.map_append, List.map_cons] at hnd
  have hdisj := (List.nodup_append.mp hnd).2.2
  exact hdisj (List.mem_map_of_mem _ hd1) (by rw [heq]; exact List.mem_cons_self _ _)

/-! ## Names that can be declared -/

theorem toDigitsCore_isDigit :
    ∀ (fuel n : Nat) (ds : List Char), (∀ c ∈ ds, c.isDigit = true) →
      ∀ c ∈ Nat.toDigitsCore 10 fuel n ds, c.isDigit = true := by
  intro fuel
  induction fuel with
  | zero =>
    intro n ds h c hc
    unfold Nat.toDigitsCore at hc
    exact h c hc
  | succ fuel ih =>
    intro n ds h c hc
    unfold Nat.toDigitsCore at hc
    have hdigit : (Nat.digitChar (n % 10)).isDigit = true := by
      have hlt : n % 10 < 10 := Nat.mod_lt _ (by omega)
      generalize n % 10 = m at hlt
      interval_cases m <;> rfl
    have hds : ∀ c ∈ Nat.digitChar (n % 10) :: ds, c.isDigit = true := by
      intro c1 hc1
      rcases List.mem_cons.mp hc1 with h1 | h1
      · rw [h1]; exact hdigit
      · exact h c1 h1
    by_cases h0 : n / 10 = 0
    · simp only [h0, if_true] at hc
      exact hds c hc
    · simp only [h0, if_false] at hc
      exact ih (n / 10) _ hds c hc

/-- The decimal numeral of a number consists of digits. -/
theorem toString_nat_isDigit (n : Nat) : ∀ c ∈ (toString n).toList, c.isDigit = true := by
  intro c hc
  have hd : (toString n).toList = Nat.toDigits 10 n := rfl
  rw [hd] at hc
  unfold Nat.toDigits at hc
  exact toDigitsCore_isDigit _ _ [] (by simp) c hc

theorem identifierPart_of_isDigit (c : Char) (h : c.isDigit = true) :
    identifierPart c = true := by
  unfold identifierPart Char.isAlphanum
  simp [h]

/-- What `declarableName` tests, spelled out. -/
theorem declarableName_iff (s : String) :
    declarableName s = true ↔ ∃ c cs, s.data = c :: cs ∧ identifierStart c = true ∧
      cs.all identifierPart = true ∧ s ∉ reservedWords ∧ s ≠ "let" ∧ s ≠ "ctx" := by
  unfold declarableName
  show (match s.data with
    | [] => false
    | c :: cs => identifierStart c && cs.all identifierPart && !reservedWords.contains s &&
        s != "let" && s != "ctx") = true ↔ _
  cases s.data with
  | nil => simp
  | cons c cs => simp [and_assoc]

/-- A name that can be declared can still be declared with a suffix `_k` of the collision
loop: it starts with the same character, and no reserved word holds a `_`. -/
theorem declarableName_suffixedName (s : String) (k : Nat) (h : declarableName s = true) :
    declarableName (suffixedName s k) = true := by
  cases k with
  | zero => exact h
  | succ k =>
    obtain ⟨c, cs, hs, hstart, hpart, _, _, _⟩ := (declarableName_iff s).mp h
    have hlist : (suffixedName s (k + 1)).data
        = c :: (cs ++ '_' :: (toString (k + 1)).data) := by
      show (s ++ "_" ++ toString (k + 1)).data = _
      rw [String.data_append, String.data_append, hs]
      simp
    have hmem : '_' ∈ (suffixedName s (k + 1)).data := by
      rw [hlist]
      simp
    have hres : ∀ w ∈ "let" :: "ctx" :: reservedWords, '_' ∉ w.data := by decide
    have hne : ∀ w ∈ "let" :: "ctx" :: reservedWords, suffixedName s (k + 1) ≠ w := by
      intro w hw heq
      exact hres w hw (heq ▸ hmem)
    refine (declarableName_iff _).mpr ⟨c, _, hlist, hstart, ?_, ?_, ?_, ?_⟩
    · rw [List.all_eq_true] at hpart ⊢
      intro x hx
      rcases List.mem_append.mp hx with h1 | h1
      · exact hpart x h1
      · rcases List.mem_cons.mp h1 with h2 | h2
        · rw [h2]; rfl
        · exact identifierPart_of_isDigit x (toString_nat_isDigit (k + 1) x h2)
    · exact fun hin => hne _ (List.mem_cons_of_mem _ (List.mem_cons_of_mem _ hin)) rfl
    · exact hne "let" (by simp)
    · exact hne "ctx" (by simp)

/-- The key `data` is a plain key. -/
theorem plainKey_data : PlainKey "data" := by
  refine ⟨by decide, by decide, by decide⟩

/-- When the ids and the `typeKey`s of the prior steps are plain keys, no write of the context
goes to `__proto__`. -/
theorem contextWrites_ne_proto (allResults : JsObject) (nodeMap : JsMap Node)
    (hplain : ∀ id node result, IsPriorStep allResults nodeMap id node result →
      PlainKey id ∧ PlainKey (typeKey node id)) :
    ∀ p ∈ contextWrites allResults nodeMap, p.1 ≠ "__proto__" := by
  rintro ⟨key, v⟩ hp
  obtain ⟨id, node, hstep, hk | hk⟩ := (mem_contextWrites allResults nodeMap key v).mp hp
  · rw [hk]; exact (hplain id node v hstep).1.1
  · rw [hk]; exact (hplain id node v hstep).2.1

/-- When the ids and the `typeKey`s of the prior steps are plain keys, every declaration of
`executeTransform` has a name that can be declared and a key that its quoted text denotes. -/
theorem decls_declarable (allResults : JsObject) (nodeMap : JsMap Node) (decls : List VarDecl)
    (hplain : ∀ id node result, IsPriorStep allResults nodeMap id node result →
      PlainKey id ∧ PlainKey (typeKey node id))
    (hhead : decls.head? = some (VarDecl.mk "data" "data"))
    (hfrom : ∀ d ∈ decls, d.key = "data" ∨ ∃ id node result,
      IsPriorStep allResults nodeMap id node result ∧ (d.key = id ∨ d.key = typeKey node id))
    (hfresh : ∀ pre d post, decls = pre ++ d :: post → pre ≠ [] →
      FreshName (pre.map VarDecl.name) (sanitize d.key) d.name) :
    decls.all (fun d => declarableName d.name && quotableKey d.key) = true := by
  rw [List.all_eq_true]
  intro d hd
  have hkey : PlainKey d.key := by
    rcases hfrom d hd with h | ⟨id, node, result, hstep, h | h⟩
    · rw [h]; exact plainKey_data
    · rw [h]; exact (hplain id node result hstep).1
    · rw [h]; exact (hplain id node result hstep).2
  have hname : declarableName d.name = true := by
    obtain ⟨pre, post, hsplit⟩ := List.append_of_mem hd
    cases pre with
    | nil =>
      rw [hsplit] at hhead
      simp only [List.nil_append, List.head?_cons, Option.some.injEq] at hhead
      rw [hhead]
      decide
    | cons x a =>
      obtain ⟨k, hk, _, _⟩ := hfresh (x :: a) d post hsplit (by simp)
      rw [hk]
      exact declarableName_suffixedName _ k hkey.2.2
  rw [Bool.and_eq_true]
  exact ⟨hname, hkey.2.1⟩

/-- Under the hypotheses of the amended C9, a declaration is named by its sanitized key, or by
the sanitized `typeKey` of a prior step followed by `_j` with `j ≥ 1`. -/
theorem decl_name_shape (allResults : JsObject) (nodeMap : JsMap Node) (decls : List VarDecl)
    (hdistinct : ∀ id1 n1 r1 id2 n2 r2, IsPriorStep allResults nodeMap id1 n1 r1 →
      IsPriorStep allResults nodeMap id2 n2 r2 → sanitize id1 = sanitize id2 → id1 = id2)
    (hdata : ∀ id n r, IsPriorStep allResults nodeMap id n r → sanitize id ≠ "data")
    (halias : ∀ id1 n1 r1 id2 n2 r2, IsPriorStep allResults nodeMap id1 n1 r1 →
      IsPriorStep allResults nodeMap id2 n2 r2 →
      ∀ k, sanitize id1 = suffixedName (sanitize (typeKey n2 id2)) k → id1 = id2 ∧ k = 0)
    (hhead : decls.head? = some (VarDecl.mk "data" "data"))
    (hnd : (decls.map VarDecl.key).Nodup)
    (hfrom : ∀ d ∈ decls, d.key = "data" ∨ ∃ id node result,
      IsPriorStep allResults nodeMap id node result ∧ (d.key = id ∨ d.key = typeKey node id))
    (hfresh : ∀ pre d post, decls = pre ++ d :: post → pre ≠ [] →
      FreshName (pre.map VarDecl.name) (sanitize d.key) d.name) :
    ∀ (n : Nat) (pre : List VarDecl) (d : VarDecl) (post : List VarDecl), pre.length = n →
      decls = pre ++ d :: post →
      d.name = sanitize d.key ∨ ∃ j id2 n2 r2, 1 ≤ j ∧ IsPriorStep allResults nodeMap id2 n2 r2 ∧
        d.name = suffixedName (sanitize (typeKey n2 id2)) j := by
  intro n
  induction n using Nat.strong_induction_on with
  | _ n ih =>
    intro pre d post hlen hsplit
    cases hpre : pre with
    | nil =>
      subst hpre
      rw [hsplit] at hhead
      simp only [List.nil_append, List.head?_cons, Option.some.injEq] at hhead
      subst hhead
      left; rfl
    | cons x a =>
      obtain ⟨k, hk1, hk2, hk3⟩ := hfresh pre d post hsplit (by rw [hpre]; simp)
      cases k with
      | zero => left; exact hk1
      | succ k =>
        right
        have hdmem : d ∈ decls := by rw [hsplit]; simp
        have hused : sanitize d.key ∈ pre.map VarDecl.name := hk3 0 (by omega)
        obtain ⟨d1, hd1, hname1⟩ := List.mem_map.mp hused
        obtain ⟨s, t, hst⟩ := List.append_of_mem hd1
        have hsplit1 : decls = s ++ d1 :: (t ++ d :: post) := by
          rw [hsplit, hst]; simp
        have hslen : s.length < n := by
          rw [← hlen, hst]; simp
        have hshape1 := ih s.length hslen s d1 (t ++ d :: post) rfl hsplit1
        have hd1mem : d1 ∈ decls := by rw [hsplit1]; simp
        have hkeyne : d1.key ≠ d.key := decl_key_ne_of_mem_prefix decls pre post d d1 hnd hsplit hd1
        rcases hfrom d hdmem with hdk | ⟨id, node, result, hstep, hdk | hdk⟩
        · -- the key `data` is declared first only
          exfalso
          have hxmem : x ∈ pre := by rw [hpre]; exact List.mem_cons_self _ _
          have hxkey : x.key = "data" := by
            rw [hsplit, hpre] at hhead
            simp only [List.cons_append, List.head?_cons, Option.some.injEq] at hhead
            rw [hhead]
          exact decl_key_ne_of_mem_prefix decls pre post d x hnd hsplit hxmem
            (by rw [hxkey, hdk])
        · -- the key is the id of a prior step
          rw [hdk] at hname1 hk1
          rcases hshape1 with h1 | ⟨j, id2, n2, r2, hj, hstep2, h1⟩
          · rw [h1] at hname1
            rcases hfrom d1 hd1mem with hk | ⟨id1, node1, result1, hstep1, hk | hk⟩
            · rw [hk] at hname1
              exact absurd hname1.symm (hdata id node result hstep)
            · rw [hk] at hname1
              have := hdistinct id1 node1 result1 id node result hstep1 hstep hname1
              exact absurd (by rw [hk, hdk, this]) hkeyne
            · rw [hk] at hname1
              refine ⟨k + 1, id1, node1, result1, by omega, hstep1, ?_⟩
              rw [hk1, ← hname1]
          · rw [h1] at hname1
            have := (halias id node result id2 n2 r2 hstep hstep2 j hname1.symm).2
            omega
        · -- the key is the `typeKey` of a prior step
          exact ⟨k + 1, id, node, result, by omega, hstep, by rw [hk1, hdk]⟩

/-- C9, amended. For every primary input and every result set of prior steps whose ids and
`typeKey`s are plain keys (not `__proto__`, without backslash or line terminator, with a
sanitized form that can be declared), and whose sanitized ids are pairwise distinct, different
from `data`, and different from every name that a `typeKey` can take (the sanitized `typeKey` of
another step, or any sanitized `typeKey` followed by `_k`, `k ≥ 1`), the namespace of
`executeTransform` has pairwise distinct names, binds `data` to the primary input, and binds the
sanitized id of every prior step to the result of that step; sanitization keeps the length of the
id. -/
theorem transformNamespace_binds_steps (inputData : JsVal) (allResults : JsObject)
    (nodeMap : JsMap Node)
    (hplain : ∀ id node result, IsPriorStep allResults nodeMap id node result →
      PlainKey id ∧ PlainKey (typeKey node id))
    (hdistinct : ∀ id1 n1 r1 id2 n2 r2, IsPriorStep allResults nodeMap id1 n1 r1 →
      IsPriorStep allResults nodeMap id2 n2 r2 → sanitize id1 = sanitize id2 → id1 = id2)
    (hdata : ∀ id n r, IsPriorStep allResults nodeMap id n r → sanitize id ≠ "data")
    (halias : ∀ id1 n1 r1 id2 n2 r2, IsPriorStep allResults nodeMap id1 n1 r1 →
      IsPriorStep allResults nodeMap id2 n2 r2 →
      ∀ k, sanitize id1 = suffixedName (sanitize (typeKey n2 id2)) k → id1 = id2 ∧ k = 0) :
    ∃ ns, transformNamespace inputData allResults nodeMap = some ns ∧
      (ns.map Prod.fst).Nodup ∧
      ("data", some inputData) ∈ ns ∧
      ∀ id node result, IsPriorStep allResults nodeMap id node result →
        (sanitize id, some result) ∈ ns ∧ utf16Length (sanitize id) = utf16Length id := by
  obtain ⟨decls, hv, hkeys, hhead, hfresh⟩ :=
    varDeclarations_spec (JsObject.keys (buildContext inputData allResults nodeMap))
  have hnames := varDeclarations_nodup _ decls hv
  have hproto := contextWrites_ne_proto allResults nodeMap hplain
  obtain ⟨hnd, hfrom, hdecl⟩ := decl_keys inputData allResults nodeMap decls hproto hkeys
  have hall := decls_declarable allResults nodeMap decls hplain hhead hfrom hfresh
  have hshape := decl_name_shape allResults nodeMap decls hdistinct hdata halias hhead hnd
    hfrom hfresh
  have hsd : sanitize "data" = "data" := by decide
  have hidne : ∀ id n r, IsPriorStep allResults nodeMap id n r → id ≠ "data" := by
    intro id n r hstep h
    exact hdata id n r hstep (by rw [h, hsd])
  -- what the context holds under the id and under the `typeKey` of a prior step
  have hgetid : ∀ id n r, IsPriorStep allResults nodeMap id n r →
      JsObject.get (buildContext inputData allResults nodeMap) id = some r := by
    intro id n r hstep
    rw [buildContext_eq]
    apply writes_foldl_get _ _ (hplain id n r hstep).1.1
    · exact (mem_contextWrites allResults nodeMap id r).mpr ⟨id, n, hstep, Or.inl rfl⟩
    · intro v1 hv1
      obtain ⟨id1, n1, hstep1, hk | hk⟩ := (mem_contextWrites allResults nodeMap id v1).mp hv1
      · subst hk; exact (IsPriorStep.unique hstep1 hstep).2
      · have := (halias id n r id1 n1 v1 hstep hstep1 0 (by rw [hk]; rfl)).1
        subst this
        exact (IsPriorStep.unique hstep1 hstep).2
  have hgetalias : ∀ id n r, IsPriorStep allResults nodeMap id n r →
      sanitize id = sanitize (typeKey n id) →
      JsObject.get (buildContext inputData allResults nodeMap) (typeKey n id) = some r := by
    intro id n r hstep hsame
    rw [buildContext_eq]
    apply writes_foldl_get _ _ (hplain id n r hstep).2.1
    · exact (mem_contextWrites allResults nodeMap _ r).mpr ⟨id, n, hstep, Or.inr rfl⟩
    · intro v1 hv1
      obtain ⟨id1, n1, hstep1, hk | hk⟩ := (mem_contextWrites allResults nodeMap _ v1).mp hv1
      · have := (halias id1 n1 v1 id n r hstep1 hstep 0 (by rw [← hk]; rfl)).1
        subst this
        exact (IsPriorStep.unique hstep1 hstep).2
      · have := (halias id n r id1 n1 v1 hstep hstep1 0 (by rw [hsame, hk]; rfl)).1
        subst this
        exact (IsPriorStep.unique hstep1 hstep).2
  refine ⟨_, transformNamespace_eq inputData allResults nodeMap decls hv hall, ?_, ?_, ?_⟩
  · rw [List.map_map]
    exact hnames
  · -- `data`
    cases hdl : decls with
    | nil => rw [hdl] at hhead; simp at hhead
    | cons d0 rest =>
      rw [hdl] at hhead
      simp only [List.head?_cons, Option.some.injEq] at hhead
      subst hhead
      have hget : JsObject.get (buildContext inputData allResults nodeMap) "data"
          = some inputData := by
        rw [buildContext_eq, writes_foldl_get_other]
        · rfl
        · intro v1 hv1
          obtain ⟨id1, n1, hstep1, hk | hk⟩ :=
            (mem_contextWrites allResults nodeMap _ v1).mp hv1
          · exact hidne id1 n1 v1 hstep1 hk.symm
          · exact typeKey_ne_data n1 id1 hk.symm
      simp only [List.map_cons, List.mem_cons]
      left
      rw [hget]
  · intro id node result hstep
    refine ⟨?_, utf16Length_sanitize id⟩
    obtain ⟨d, hdmem, hdkey⟩ := hdecl id node result hstep (hidne id node result hstep)
    obtain ⟨pre, post, hsplit⟩ := List.append_of_mem hdmem
    have hprene : pre ≠ [] := by
      intro hp
      rw [hsplit, hp] at hhead
      simp only [List.nil_append, List.head?_cons, Option.some.injEq] at hhead
      rw [hhead] at hdkey
      exact hidne id node result hstep hdkey.symm
    obtain ⟨k, hk1, hk2, hk3⟩ := hfresh pre d post hsplit hprene
    cases k with
    | zero =>
      apply List.mem_map.mpr
      refine ⟨d, hdmem, ?_⟩
      rw [hk1, hdkey, hgetid id node result hstep]
      rfl
    | succ k =>
      have hused : sanitize d.key ∈ pre.map VarDecl.name := hk3 0 (by omega)
      rw [hdkey] at hused
      obtain ⟨d1, hd1, hname1⟩ := List.mem_map.mp hused
      obtain ⟨s, t, hst⟩ := List.append_of_mem hd1
      have hsplit1 : decls = s ++ d1 :: (t ++ d :: post) := by
        rw [hsplit, hst]; simp
      have hd1mem : d1 ∈ decls := by rw [hsplit1]; simp
      have hkeyne : d1.key ≠ d.key :=
        decl_key_ne_of_mem_prefix decls pre post d d1 hnd hsplit hd1
      have hd1key : d1.key = typeKey node id ∧ sanitize id = sanitize (typeKey node id) := by
        rcases hshape s.length s d1 (t ++ d :: post) rfl hsplit1 with
          h1 | ⟨j, id2, n2, r2, hj, hstep2, h1⟩
        · rw [h1] at hname1
          rcases hfrom d1 hd1mem with hk | ⟨id1, node1, result1, hstep1, hk | hk⟩
          · rw [hk] at hname1
            exact absurd hname1.symm (hdata id node result hstep)
          · rw [hk] at hname1
            have := hdistinct id1 node1 result1 id node result hstep1 hstep hname1
            exact absurd (by rw [hk, hdkey, this]) hkeyne
          · rw [hk] at hname1
            have := (halias id node result id1 node1 result1 hstep hstep1 0
              (by rw [← hname1]; rfl)).1
            subst this
            have hn := (IsPriorStep.unique hstep1 hstep).1
            subst hn
            exact ⟨hk, hname1.symm⟩
        · rw [h1] at hname1
          have := (halias id node result id2 n2 r2 hstep hstep2 j hname1.symm).2
          omega
      apply List.mem_map.mpr
      refine ⟨d1, hd1mem, ?_⟩
      rw [hname1, hd1key.1, hgetalias id node result hstep hd1key.2]

/-- C8, at the failing input: a prior step whose id is `data`. The write `context[nodeId]`
replaces the primary input `5` by the result `7` of that step, so `const data = ctx.data` binds
`data` to `7`. -/
theorem transformNamespace_data_overwritten :
    JsObject.get (buildContext (JsVal.num 5) [("data", JsVal.num 7)]
      (buildNodeMap [plainStep "data"])) "data" = some (JsVal.num 7) ∧
    transformNamespace (JsVal.num 5) [("data", JsVal.num 7)] (buildNodeMap [plainStep "data"])
      = some [("data", some (JsVal.num 7)), ("transform_data", some (JsVal.num 7))] :=
  ⟨by rfl, by rfl⟩

/-- When no prior step has the id `data` and the ids and `typeKey`s of the prior steps are plain
keys, the first declaration binds `data` to the primary input. -/
theorem transformNamespace_data (inputData : JsVal) (allResults : JsObject)
    (nodeMap : JsMap Node)
    (hplain : ∀ id node result, IsPriorStep allResults nodeMap id node result →
      PlainKey id ∧ PlainKey (typeKey node id))
    (h : ∀ n r, ¬ IsPriorStep allResults nodeMap "data" n r) :
    ∃ ns, transformNamespace inputData allResults nodeMap = some ns ∧
      ns.head? = some ("data", some inputData) ∧ (ns.map Prod.fst).Nodup := by
  obtain ⟨decls, hv, hkeys, hhead, hfresh⟩ :=
    varDeclarations_spec (JsObject.keys (buildContext inputData allResults nodeMap))
  have hnames := varDeclarations_nodup _ decls hv
  have hproto := contextWrites_ne_proto allResults nodeMap hplain
  obtain ⟨_, hfrom, _⟩ := decl_keys inputData allResults nodeMap decls hproto hkeys
  have hall := decls_declarable allResults nodeMap decls hplain hhead hfrom hfresh
  refine ⟨_, transformNamespace_eq inputData allResults nodeMap decls hv hall, ?_, ?_⟩
  · cases hdl : decls with
    | nil => rw [hdl] at hhead; simp at hhead
    | cons d0 rest =>
      rw [hdl] at hhead
      simp only [List.head?_cons, Option.some.injEq] at hhead
      subst hhead
      have hget : JsObject.get (buildContext inputData allResults nodeMap) "data"
          = some inputData := by
        rw [buildContext_eq, writes_foldl_get_other]
        · rfl
        · intro v1 hv1
          obtain ⟨id1, n1, hstep1, hk | hk⟩ :=
            (mem_contextWrites allResults nodeMap _ v1).mp hv1
          · subst hk; exact h n1 v1 hstep1
          · exact typeKey_ne_data n1 id1 hk.symm
      simp only [List.map_cons, List.head?_cons, hget]
  · rw [List.map_map]
    exact hnames

/-- C9 as stated fails: the prior steps `x-1` (a transform, result `1`) and `transform-1` (a
filter, result `2`) have the distinct sanitized ids `x_1` and `transform_1`, both different from
`data`. The `typeKey` of `x-1` is `transform_1` and is declared before the id `transform-1`, so
the name `transform_1` is bound to the result `1` of `x-1`, and the result of `transform-1` is
bound to `transform_1_1`. -/
theorem transformNamespace_typeKey_first :
    sanitize "x-1" = "x_1" ∧ sanitize "transform-1" = "transform_1" ∧
    transformNamespace (JsVal.num 5) [("x-1", JsVal.num 1), ("transform-1", JsVal.num 2)]
        (buildNodeMap aliasNodes)
      = some [("data", some (JsVal.num 5)), ("x_1", some (JsVal.num 1)),
          ("transform_1", some (JsVal.num 1)), ("transform_1_1", some (JsVal.num 2)),
          ("filter_1", some (JsVal.num 2))] :=
  ⟨by decide, by decide, by rfl⟩

/-- A `typeKey` that is the id of another step replaces the entry of that step in the context:
with the prior steps `transform_1` (a filter, result `1`) and `x-1` (a transform, result `2`)
the key `transform_1` holds `2`. -/
theorem transformNamespace_typeKey_clash :
    transformNamespace (JsVal.num 5) [("transform_1", JsVal.num 1), ("x-1", JsVal.num 2)]
        (buildNodeMap clashNodes)
      = some [("data", some (JsVal.num 5)), ("transform_1", some (JsVal.num 2)),
          ("filter_transform_1", some (JsVal.num 1)), ("x_1", some (JsVal.num 2))] := by
  rfl

theorem suffixedName_self (s : String) (k : Nat) (h : s = suffixedName s k) : k = 0 :=
  (suffixedName_injective s 0 k h).symm

/-- C9 on the example of the context builder: the prior results `exampleResults` and the
primary input `5`. -/
theorem transformNamespace_binds_steps_witness :
    ∃ ns, transformNamespace (JsVal.num 5) exampleResults
        (buildNodeMap [plainStep "transform-1700000000000"]) = some ns ∧
      (ns.map Prod.fst).Nodup ∧
      ("data", some (JsVal.num 5)) ∈ ns ∧
      ∀ id node result, IsPriorStep exampleResults
          (buildNodeMap [plainStep "transform-1700000000000"]) id node result →
        (sanitize id, some result) ∈ ns ∧ utf16Length (sanitize id) = utf16Length id :=
  transformNamespace_binds_steps (JsVal.num 5) exampleResults
    (buildNodeMap [plainStep "transform-1700000000000"])
    (by
      rintro id n r ⟨h1, hn, _⟩
      simp only [exampleResults, JsObject.keys, List.map_cons, List.map_nil,
        List.mem_singleton] at h1
      subst h1
      have hnode : n = plainStep "transform-1700000000000" := by
        have : JsMap.get (buildNodeMap [plainStep "transform-1700000000000"])
            "transform-1700000000000" = some (plainStep "transform-1700000000000") := by rfl
        rw [this] at hn
        exact (Option.some.inj hn).symm
      subst hnode
      exact ⟨⟨by decide, by decide, by decide⟩, ⟨by decide, by decide, by decide⟩⟩)
    (by
      rintro id1 n1 r1 id2 n2 r2 ⟨h1, _, _⟩ ⟨h2, _, _⟩ _
      simp only [exampleResults, JsObject.keys, List.map_cons, List.map_nil,
        List.mem_singleton] at h1 h2
      rw [h1, h2])
    (by
      rintro id n r ⟨h1, _, _⟩
      simp only [exampleResults, JsObject.keys, List.map_cons, List.map_nil,
        List.mem_singleton] at h1
      subst h1
      decide)
    (by
      rintro id1 n1 r1 id2 n2 r2 ⟨h1, _, _⟩ ⟨h2, hn2, _⟩ k hk
      simp only [exampleResults, JsObject.keys, List.map_cons, List.map_nil,
        List.mem_singleton] at h1 h2
      subst h1 h2
      have hn : n2 = plainStep "transform-1700000000000" := by
        have : JsMap.get (buildNodeMap [plainStep "transform-1700000000000"])
            "transform-1700000000000" = some (plainStep "transform-1700000000000") := by rfl
        rw [this] at hn2
        exact (Option.some.inj hn2).symm
      subst hn
      have hsame : sanitize (typeKey (plainStep "transform-1700000000000")
          "transform-1700000000000") = sanitize "transform-1700000000000" := by decide
      rw [hsame] at hk
      exact ⟨rfl, suffixedName_self _ k hk⟩)

/-- The namespace of the example: `data` is `5`, the sanitized id is bound to the result of the
step, and the `typeKey`, which sanitizes to the same name, gets the suffix `_1`. -/
theorem transformNamespace_example :
    transformNamespace (JsVal.num 5) exampleResults
        (buildNodeMap [plainStep "transform-1700000000000"])
      = some [("data", some (JsVal.num 5)),
          ("transform_1700000000000", some (JsVal.obj [("x", JsVal.num 1)])),
          ("transform_1700000000000_1", some (JsVal.obj [("x", JsVal.num 1)]))] := by
  rfl

/-! ## The run always ends -/

theorem executeHttpRequest_ne_diverged {σ : Type} (env : Env σ) (node : Node)
    (inputData : JsVal) (w : σ) :
    (executeHttpRequest env node inputData w).1 ≠ Outcome.diverged := by
  unfold executeHttpRequest
  cases truthyString node.config.url with
  | none => simp
  | some url =>
    simp only
    split <;> simp

theorem executeTransform_ne_diverged {σ : Type} (env : Env σ) (node : Node)
    (inputData : JsVal) (allResults : JsObject) (nodeMap : JsMap Node) (w : σ) :
    (executeTransform env node inputData allResults nodeMap w).1 ≠ Outcome.diverged := by
  unfold executeTransform
  cases truthyString node.config.expression with
  | some expression =>
    obtain ⟨decls, hd, _⟩ :=
      varDeclarations_spec (JsObject.keys (buildContext inputData allResults nodeMap))
    simp only [hd]
    split <;> simp
  | none =>
    simp only
    split
    · split <;> simp
    · simp

theorem executeFilter_ne_diverged {σ : Type} (env : Env σ) (node : Node)
    (inputData : JsVal) (allResults : JsObject) (nodeMap : JsMap Node) (w : σ) :
    (executeFilter env node inputData allResults nodeMap w).1 ≠ Outcome.diverged := by
  unfold executeFilter
  cases truthyString node.config.condition with
  | none => simp
  | some condition =>
    simp only
    split <;> simp

theorem executeStep_ne_diverged {σ : Type} (env : Env σ) (edges : List Edge)
    (nodeMap : JsMap Node) (nodeId : String) (node : Node) (results : JsObject) (w : σ) :
    (executeStep env edges nodeMap nodeId node results w).1 ≠ Outcome.diverged := by
  unfold executeStep executorOf
  by_cases h1 : (node.type == "http_request") = true
  · simp only [h1, if_true]
    exact executeHttpRequest_ne_diverged env node _ w
  · by_cases h2 : (node.type == "transform") = true
    · simp only [h1, h2, if_true]
      exact executeTransform_ne_diverged env node _ results nodeMap w
    · by_cases h3 : (node.type == "filter") = true
      · simp only [h1, h2, h3, if_true]
        exact executeFilter_ne_diverged env node _ results nodeMap w
      · simp [h1, h2, h3]

theorem runLoop_ne_diverged {σ : Type} (env : Env σ) (edges : List Edge)
    (nodeMap : JsMap Node) :
    ∀ (order : List String) (results : JsObject) (trace : List Invocation) (w : σ),
      (runLoop env edges nodeMap order results trace w).outcome ≠ Outcome.diverged := by
  intro order
  induction order with
  | nil => intro results trace w; simp [runLoop]
  | cons nodeId rest ih =>
    intro results trace w
    simp only [runLoop]
    cases hn : JsMap.get nodeMap nodeId with
    | none => exact ih _ _ _
    | some node =>
      simp only
      have hstep := executeStep_ne_diverged env edges nodeMap nodeId node results w
      rcases hs : executeStep env edges nodeMap nodeId node results w with ⟨out, calls, w1⟩
      rw [hs] at hstep
      cases out with
      | ok output => exact ih _ _ _
      | thrown message => simp
      | diverged => exact absurd rfl hstep

/-- Every run ends with a result set or an error: no loop of the model runs out of fuel. -/
theorem executeWorkflow_ne_diverged {σ : Type} (env : Env σ) (nodes : List Node)
    (edges : List Edge) (w : σ) :
    (executeWorkflow env nodes edges w).outcome ≠ Outcome.diverged := by
  unfold executeWorkflow
  by_cases hne : nodes.length = 0
  · simp [hne]
  · simp only [hne, if_false]
    cases hsort : topologicalSort nodes (buildDependencies nodes edges) with
    | thrown message => simp
    | diverged => exact absurd hsort (topologicalSort_ne_diverged nodes _)
    | ok order => exact runLoop_ne_diverged env edges _ order [] [] w

/-! ## Graphs that cannot be scheduled -/

/-- A connection into a step from a source that is no step id keeps the scheduler from
returning an order: the source would have to occur in the order, which holds step ids only. -/
theorem topologicalSort_dangling (nodes : List Node) (edges : List Edge) (e : Edge)
    (hids : (nodes.map Node.id).Nodup) (he : e ∈ edges)
    (htarget : e.target ∈ nodes.map Node.id) (hsource : e.source ∉ nodes.map Node.id) :
    topologicalSort nodes (buildDependencies nodes edges) = Outcome.thrown cycleMessage := by
  cases h : topologicalSort nodes (buildDependencies nodes edges) with
  | ok order =>
    exfalso
    obtain ⟨_, hperm, hbefore⟩ := topologicalSort_ok nodes _ order hids h
    have hdep : e.source ∈ depList (buildDependencies nodes edges) e.target := by
      rw [depList_buildDependencies]
      exact mem_producers edges e he
    obtain ⟨front, back, horder, hfront⟩ := hbefore e.target htarget e.source hdep
    have hmem : e.source ∈ order := by
      rw [horder]
      exact List.mem_append_left _ hfront
    exact hsource (hperm.mem_iff.mp hmem)
  | thrown message => rw [topologicalSort_thrown nodes _ message h]
  | diverged => exact absurd h (topologicalSort_ne_diverged nodes _)

/-- A graph whose connections all start outside the steps has no directed cycle among its
steps. -/
theorem not_hasCycle_of_sources (nodes : List Node) (edges : List Edge)
    (h : ∀ e ∈ edges, e.source ∉ nodes.map Node.id) : ¬ HasCycle nodes edges := by
  rintro ⟨v, hv⟩
  have base : ∀ x y, edgeRel nodes edges x y → False := by
    rintro x y ⟨hx, _, e, he, rfl, rfl⟩
    exact h e he hx
  cases hv with
  | single h1 => exact base _ _ h1
  | tail _ h1 => exact base _ _ h1

/-- C16. For every graph with pairwise distinct step ids in which some connection has an
existing step as its target and a source that is the id of no step, `executeWorkflow` fails with
the error of the scheduler (`Workflow contains cycles or disconnected nodes`), returns no result
set and runs no step: the trace is empty and the world is untouched. In particular the target
step is not run, with a null input or any other. -/
theorem executeWorkflow_dangling_producer {σ : Type} (env : Env σ) (nodes : List Node)
    (edges : List Edge) (w : σ) (e : Edge) (hids : (nodes.map Node.id).Nodup) (he : e ∈ edges)
    (htarget : e.target ∈ nodes.map Node.id) (hsource : e.source ∉ nodes.map Node.id) :
    executeWorkflow env nodes edges w = RunResult.mk (Outcome.thrown cycleMessage) [] w := by
  have hne : ¬ nodes.length = 0 := by
    intro h0
    rw [List.length_eq_zero] at h0
    subst h0
    simp at htarget
  unfold executeWorkflow
  simp only [hne, if_false, topologicalSort_dangling nodes edges e hids he htarget hsource]

/-- C16 on the single step `B` with the connection `ghost -> B`: the graph has no directed
cycle, and the run fails at scheduling without running `B`. -/
theorem executeWorkflow_dangling_producer_witness :
    ¬ HasCycle [plainStep "B"] [connect "ghost" "B"] ∧
    executeWorkflow offlineEnv [plainStep "B"] [connect "ghost" "B"] ()
      = RunResult.mk (Outcome.thrown "Workflow contains cycles or disconnected nodes") [] () :=
  ⟨not_hasCycle_of_sources _ _ (by decide),
    executeWorkflow_dangling_producer offlineEnv [plainStep "B"] [connect "ghost" "B"] ()
      (connect "ghost" "B") (by decide) (by simp) (by decide) (by decide)⟩

/-! ## The empty graph -/

/-- Without the guard on `nodes.length` the empty graph would run to the empty result set: the
scheduler returns the empty order for every dependency map, and the loop over it returns the
empty object. -/
theorem topologicalSort_nil {σ : Type} (env : Env σ) (edges : List Edge) (w : σ) :
    topologicalSort [] (buildDependencies [] edges) = Outcome.ok [] ∧
    runLoop env edges (buildNodeMap []) [] [] [] w = RunResult.mk (Outcome.ok []) [] w := by
  constructor
  · rfl
  · rfl

/-- C17. For every connection list, `executeWorkflow` called with the empty list of steps fails
with the error `Workflow has no nodes`: it returns no result set (not the empty one either), runs
no step and calls no collaborator. The error does not come from the scheduler, which orders the
empty graph for the dependency map of any connection list: the guard comes first. -/
theorem executeWorkflow_no_nodes {σ : Type} (env : Env σ) (edges : List Edge) (w : σ) :
    executeWorkflow env [] edges w
      = RunResult.mk (Outcome.thrown "Workflow has no nodes") [] w ∧
    (executeWorkflow env [] edges w).outcome ≠ Outcome.ok [] ∧
    topologicalSort [] (buildDependencies [] edges) = Outcome.ok [] := by
  have hrun : executeWorkflow env [] edges w
      = RunResult.mk (Outcome.thrown "Workflow has no nodes") [] w := by
    unfold executeWorkflow
    simp only [List.length_nil, if_true]
  refine ⟨hrun, ?_, (topologicalSort_nil env edges w).1⟩
  rw [hrun]
  intro h
  cases h

/-! ## The request of an HTTP step -/

/-- The run of `executeHttpRequest` with a non-empty url: one call of the client, on the request
built from the configuration, whose answer decides the outcome. -/
theorem executeHttpRequest_eq {σ : Type} (env : Env σ) (node : Node) (inputData : JsVal)
    (w : σ) (url : String) (hurl : truthyString node.config.url = some url) :
    executeHttpRequest env node inputData w =
      match env.axios (HttpRequest.mk (node.config.method.getD "GET") url
          (node.config.headers.getD (JsVal.obj []))
          (if node.config.method.getD "GET" != "GET" && node.config.method.getD "GET" != "DELETE"
            then some inputData else none)) w with
      | (Except.ok responseData, w1) => (Outcome.ok responseData, w1)
      | (Except.error message, w1) =>
        (Outcome.thrown ("HTTP request failed: " ++ message), w1) := by
  unfold executeHttpRequest
  simp only [hurl]

/-- C15. For every HTTP-request step with a non-empty url and every resolved input,
`executeHttpRequest` hands exactly one request to the HTTP client (the log of calls grows by that
one call), and the request has the configured method (`GET` when none is configured), the
configured url, the configured headers (the empty object when none are configured), and carries
the resolved input as its body if and only if the method is other than `GET` and `DELETE`; for
`GET` and `DELETE` it has no body. -/
theorem executeHttpRequest_request {σ : Type} (env : Env σ) (node : Node) (inputData : JsVal)
    (w : σ) (log : List Call) (url : String) (hurl : truthyString node.config.url = some url) :
    ∃ request : HttpRequest,
      (executeHttpRequest (recording env) node inputData (w, log)).2.2
        = log ++ [Call.axios request] ∧
      request.method = node.config.method.getD "GET" ∧
      request.url = url ∧
      request.headers = node.config.headers.getD (JsVal.obj []) ∧
      (request.data = some inputData ↔ (request.method ≠ "GET" ∧ request.method ≠ "DELETE")) ∧
      (request.method = "GET" ∨ request.method = "DELETE" → request.data = none) := by
  refine ⟨HttpRequest.mk (node.config.method.getD "GET") url
      (node.config.headers.getD (JsVal.obj []))
      (if node.config.method.getD "GET" != "GET" && node.config.method.getD "GET" != "DELETE"
        then some inputData else none), ?_, rfl, rfl, rfl, ?_, ?_⟩
  · rw [executeHttpRequest_eq (recording env) node inputData (w, log) url hurl]
    generalize HttpRequest.mk (node.config.method.getD "GET") url
      (node.config.headers.getD (JsVal.obj []))
      (if node.config.method.getD "GET" != "GET" && node.config.method.getD "GET" != "DELETE"
        then some inputData else none) = request
    have hrec : (recording env).axios request (w, log)
        = ((env.axios request w).1, ((env.axios request w).2, log ++ [Call.axios request])) := rfl
    rw [hrec]
    cases (env.axios request w).1 <;> rfl
  · simp only
    by_cases hg : node.config.method.getD "GET" = "GET"
    · simp [hg]
    · by_cases hd : node.config.method.getD "GET" = "DELETE"
      · simp [hd]
      · simp [hg, hd]
  · simp only
    rintro (hg | hd)
    · simp [hg]
    · simp [hd]

/-- C15 on a `POST` step and on a step without a configured method, both with the url `u` and
the resolved input `7`: the first request carries `7`, the second is a `GET` without body. -/
theorem executeHttpRequest_request_witness :
    (truthyString (Node.mk "A" "http_request" "Send"
        (Config.mk (some "POST") (some "u") none none none none none none)).config.url = some "u" ∧
      ∃ request : HttpRequest,
        (executeHttpRequest (recording offlineEnv) (Node.mk "A" "http_request" "Send"
            (Config.mk (some "POST") (some "u") none none none none none none))
            (JsVal.num 7) ((), [])).2.2 = [] ++ [Call.axios request] ∧
        request.method = (some "POST").getD "GET" ∧
        request.url = "u" ∧
        request.headers = (none : Option JsVal).getD (JsVal.obj []) ∧
        (request.data = some (JsVal.num 7) ↔
          (request.method ≠ "GET" ∧ request.method ≠ "DELETE")) ∧
        (request.method = "GET" ∨ request.method = "DELETE" → request.data = none)) ∧
    (executeHttpRequest (recording offlineEnv) (Node.mk "A" "http_request" "Send"
        (Config.mk (some "POST") (some "u") none none none none none none))
        (JsVal.num 7) ((), [])).2.2
      = [Call.axios (HttpRequest.mk "POST" "u" (JsVal.obj []) (some (JsVal.num 7)))] ∧
    (executeHttpRequest (recording offlineEnv) (Node.mk "A" "http_request" "Fetch"
        (Config.mk none (some "u") none none none none none none))
        (JsVal.num 7) ((), [])).2.2
      = [Call.axios (HttpRequest.mk "GET" "u" (JsVal.obj []) none)] :=
  ⟨⟨by decide, executeHttpRequest_request offlineEnv (Node.mk "A" "http_request" "Send"
      (Config.mk (some "POST") (some "u") none none none none none none))
      (JsVal.num 7) () [] "u" (by decide)⟩, by rfl, by rfl⟩

/-! ## The condition mode of a transform step -/

/-- C12. For every transform step without an expression (absent or empty) and every input: when
the condition is non-empty and `trueValue` and `falseValue` are both present, whatever values
they are, and the evaluation of the condition returns a value, `executeTransform` returns
`trueValue` if that value is truthy and `falseValue` if not (a failing evaluation fails the
step); when the condition is absent or empty, or one of the two values is absent,
`executeTransform` returns the resolved input unchanged and calls no collaborator. -/
theorem executeTransform_condition_mode {σ : Type} (env : Env σ) (node : Node)
    (inputData : JsVal) (allResults : JsObject) (nodeMap : JsMap Node) (w : σ)
    (hexpr : truthyString node.config.expression = none) :
    (∀ condition trueValue falseValue conditionResult w1,
      truthyString node.config.condition = some condition →
      node.config.trueValue = some trueValue →
      node.config.falseValue = some falseValue →
      evaluateCondition env condition (buildContext inputData allResults nodeMap) w
        = (Except.ok conditionResult, w1) →
      executeTransform env node inputData allResults nodeMap w
        = (Outcome.ok (if conditionResult.truthy then trueValue else falseValue), w1)) ∧
    (∀ condition trueValue falseValue message w1,
      truthyString node.config.condition = some condition →
      node.config.trueValue = some trueValue →
      node.config.falseValue = some falseValue →
      evaluateCondition env condition (buildContext inputData allResults nodeMap) w
        = (Except.error message, w1) →
      executeTransform env node inputData allResults nodeMap w
        = (Outcome.thrown ("Transform condition error: " ++ message), w1)) ∧
    ((truthyString node.config.condition = none ∨ node.config.trueValue = none ∨
        node.config.falseValue = none) →
      executeTransform env node inputData allResults nodeMap w = (Outcome.ok inputData, w)) := by
  refine ⟨?_, ?_, ?_⟩
  · intro condition trueValue falseValue conditionResult w1 hc ht hf hev
    unfold executeTransform
    simp only [hexpr, hc, ht, hf, hev]
  · intro condition trueValue falseValue message w1 hc ht hf hev
    unfold executeTransform
    simp only [hexpr, hc, ht, hf, hev]
  · intro h
    unfold executeTransform
    simp only [hexpr]
    rcases h with h | h | h
    · simp only [h]
    · rw [h]
      cases truthyString node.config.condition <;> rfl
    · rw [h]
      cases truthyString node.config.condition <;> cases node.config.trueValue <;> rfl

/-- C12 on the example: the condition `data > 10` with `big` and `small` gives `small` on the
input `5` and `big` on the input `11`; the values may be falsy (here `0` and the empty text on a
step with these as `trueValue` and `falseValue`); a step without configuration returns its
input. -/
theorem executeTransform_condition_mode_witness :
    truthyString conditionStep.config.expression = none ∧
    executeTransform thresholdEnv conditionStep (JsVal.num 5) [] [] ()
      = (Outcome.ok (JsVal.str "small"), ()) ∧
    executeTransform thresholdEnv conditionStep (JsVal.num 11) [] [] ()
      = (Outcome.ok (JsVal.str "big"), ()) ∧
    executeTransform thresholdEnv
        (Node.mk "T" "transform" "Size" (Config.mk none none none (some "")
          (some "data > 10") (some (JsVal.num 0)) (some (JsVal.str "")) none))
        (JsVal.num 5) [] [] ()
      = (Outcome.ok (JsVal.str ""), ()) ∧
    executeTransform thresholdEnv (plainStep "T") (JsVal.num 5) [] [] ()
      = (Outcome.ok (JsVal.num 5), ()) :=
  ⟨by decide,
    (executeTransform_condition_mode thresholdEnv conditionStep (JsVal.num 5) [] [] ()
      (by decide)).1 "data > 10" (JsVal.str "big") (JsVal.str "small") (JsVal.bool false) ()
      rfl rfl rfl rfl,
    (executeTransform_condition_mode thresholdEnv conditionStep (JsVal.num 11) [] [] ()
      (by decide)).1 "data > 10" (JsVal.str "big") (JsVal.str "small") (JsVal.bool true) ()
      rfl rfl rfl rfl,
    (executeTransform_condition_mode thresholdEnv
      (Node.mk "T" "transform" "Size" (Config.mk none none none (some "")
        (some "data > 10") (some (JsVal.num 0)) (some (JsVal.str "")) none))
      (JsVal.num 5) [] [] () (by decide)).1 "data > 10" (JsVal.num 0) (JsVal.str "")
      (JsVal.bool false) () rfl rfl rfl rfl,
    (executeTransform_condition_mode thresholdEnv (plainStep "T") (JsVal.num 5) [] [] ()
      (by decide)).2.2 (Or.inl rfl)⟩

/-! ## The names of a condition -/

/-- The names handed to a condition are the keys of the context as they are, in `Object.keys`
order. -/
theorem conditionNamespace_names (inputData : JsVal) (allResults : JsObject)
    (nodeMap : JsMap Node) :
    (conditionNamespace inputData allResults nodeMap).map Prod.fst
      = JsObject.keys (buildContext inputData allResults nodeMap) := by
  unfold conditionNamespace JsObject.keys JsObject.values
  simp only
  induction buildContext inputData allResults nodeMap with
  | nil => rfl
  | cons kv rest ih => simpa using ih

/-- C11. With the prior results of the example, a transform step `transform-1700000000000`
with the result `x = 1`, and the primary input `5`, the condition of a transform step is given
the names `data`, `transform-1700000000000` and `transform_1700000000000`, the raw keys of the
context, while an expression is evaluated with `data`, `transform_1700000000000` and
`transform_1700000000000_1`; the raw keys are the parameter names that `executeTransform` passes
to the `Function` constructor in condition mode. -/
theorem conditionNamespace_raw_keys :
    conditionNamespace (JsVal.num 5) exampleResults
        (buildNodeMap [plainStep "transform-1700000000000"])
      = [("data", some (JsVal.num 5)),
          ("transform-1700000000000", some (JsVal.obj [("x", JsVal.num 1)])),
          ("transform_1700000000000", some (JsVal.obj [("x", JsVal.num 1)]))] ∧
    transformNamespace (JsVal.num 5) exampleResults
        (buildNodeMap [plainStep "transform-1700000000000"])
      = some [("data", some (JsVal.num 5)),
          ("transform_1700000000000", some (JsVal.obj [("x", JsVal.num 1)])),
          ("transform_1700000000000_1", some (JsVal.obj [("x", JsVal.num 1)]))] ∧
    (executeTransform (recording offlineEnv) conditionStep (JsVal.num 5) exampleResults
        (buildNodeMap [plainStep "transform-1700000000000"]) ((), [])).2.2
      = [Call.callFunction ["data", "transform-1700000000000", "transform_1700000000000"]
          "return data > 10"
          [JsVal.num 5, JsVal.obj [("x", JsVal.num 1)], JsVal.obj [("x", JsVal.num 1)]]] := by
  refine ⟨?_, ?_, ?_⟩
  · rfl
  · rfl
  · rfl

/-! ## The type checks of a filter -/

/-- The run of `executeFilter` with a non-empty condition: one call of `axios.post` on the
request built from the configuration, the input and the prior results, whose answer decides
the outcome. The input is not inspected before the call. -/
theorem executeFilter_eq {σ : Type} (env : Env σ) (node : Node) (inputData : JsVal)
    (allResults : JsObject) (nodeMap : JsMap Node) (w : σ) (condition : String)
    (hcond : truthyString node.config.condition = some condition) :
    executeFilter env node inputData allResults nodeMap w =
      match env.axiosPost "/api/filter" (FilterRequest.mk (node.config.type.getD "array")
          condition inputData (buildFilterContext inputData allResults nodeMap)) w with
      | (Except.ok result, w1) => (Outcome.ok result, w1)
      | (Except.error message, w1) =>
        (Outcome.thrown ("Filter execution failed: " ++ message), w1) := by
  unfold executeFilter
  simp only [hcond]

/-- The checks of the backend: `filterArray` rejects what is not an array, and `filterObject`
rejects numbers, texts, booleans and arrays, both before the language model is called (the state
of the model is untouched). -/
theorem filterRoute_type_mismatch {τ : Type} (backend : Backend τ) (body : FilterRequest)
    (t : τ) (hcond : body.condition ≠ "")
    (hmis : (body.type = "array" ∧ ∀ items, body.data ≠ JsVal.arr items) ∨
      (body.type = "object" ∧ body.data ≠ JsVal.null ∧ ∀ fields, body.data ≠ JsVal.obj fields)) :
    filterRoute backend body t
      = (HttpResponse.mk 500 [("error", JsVal.str
          (if body.type = "array" then "Input data is not an array"
            else "Input data is not an object"))], t) := by
  unfold filterRoute
  rcases hmis with ⟨htype, hdata⟩ | ⟨htype, hnull, hdata⟩
  · simp only [hcond, if_false, htype, if_true]
    unfold filterArray
    cases hd : body.data with
    | arr items => exact absurd hd (hdata items)
    | null => rfl
    | bool b => rfl
    | num n => rfl
    | str s => rfl
    | obj fields => rfl
  · have hne : ¬ ("object" = "array") := by decide
    simp only [hcond, if_false, htype, hne, if_true]
    unfold filterObject
    cases hd : body.data with
    | obj fields => exact absurd hd (hdata fields)
    | null => exact absurd hd hnull
    | bool b => rfl
    | num n => rfl
    | str s => rfl
    | arr items => rfl

/-- The check of `filterObject` lets `null` pass (`typeof null` is `object`): without a language
model the answer to an `object` request with the data `null` is the result `null`. -/
theorem filterRoute_object_null (body : FilterRequest) (hcond : body.condition ≠ "")
    (htype : body.type = "object") (hdata : body.data = JsVal.null) :
    filterRoute fallbackBackend body () = (HttpResponse.mk 200 [("result", JsVal.null)], ()) := by
  have hne : ¬ ("object" = "array") := by decide
  unfold filterRoute
  simp only [hcond, if_false, htype, hne, if_true, hdata]
  rfl

/-- C13, as stated, fails: a filter step of type `array` with the condition `summer` and the
resolved input `5` sends its request to the filtering backend (the log holds the call of
`axios.post`, with the number as `data`), and the step fails with the message of the client about
the answer, status 500. -/
theorem executeFilter_sends_request :
    executeFilter (recording (backendEnv fallbackBackend)) (filterStep (some "array") "summer")
        (JsVal.num 5) [] [] ((), [])
      = (Outcome.thrown "Filter execution failed: Request failed with status code 500",
          ((), [Call.axiosPost "/api/filter"
            (FilterRequest.mk "array" "summer" (JsVal.num 5) [("data", JsVal.num 5)])])) := by
  rfl

/-- C13, amended. For every filter step with a non-empty condition, when the type is `array` and
the resolved input is not an array, or the type is `object` and the resolved input is a number, a
text, a boolean or an array (neither `null` nor a keyed record), `executeFilter` sends its
request to the filtering backend, whose handler answers with status 500 and the type-mismatch
error (`Input data is not an array`, `Input data is not an object`) before any call of the
language model (the state of the model is untouched), and `executeFilter` fails with the message
of the client about that answer. -/
theorem executeFilter_type_mismatch {τ : Type} (backend : Backend τ) (node : Node)
    (condition : String) (inputData : JsVal) (allResults : JsObject) (nodeMap : JsMap Node)
    (t : τ) (log : List Call)
    (hcond : truthyString node.config.condition = some condition)
    (hmis : (node.config.type.getD "array" = "array" ∧ ∀ items, inputData ≠ JsVal.arr items) ∨
      (node.config.type.getD "array" = "object" ∧ inputData ≠ JsVal.null ∧
        ∀ fields, inputData ≠ JsVal.obj fields)) :
    filterRoute backend (FilterRequest.mk (node.config.type.getD "array") condition inputData
        (buildFilterContext inputData allResults nodeMap)) t
      = (HttpResponse.mk 500 [("error", JsVal.str
          (if node.config.type.getD "array" = "array" then "Input data is not an array"
            else "Input data is not an object"))], t) ∧
    executeFilter (recording (backendEnv backend)) node inputData allResults nodeMap (t, log)
      = (Outcome.thrown "Filter execution failed: Request failed with status code 500",
          (t, log ++ [Call.axiosPost "/api/filter"
            (FilterRequest.mk (node.config.type.getD "array") condition inputData
              (buildFilterContext inputData allResults nodeMap))])) := by
  have hne : condition ≠ "" := by
    intro h
    subst h
    cases hc : node.config.condition with
    | none => simp [hc, truthyString] at hcond
    | some s =>
      simp only [hc, truthyString] at hcond
      split at hcond
      · simp at hcond
      · rename_i hs
        simp only [Option.some.injEq] at hcond
        subst hcond
        simp at hs
  have hroute := filterRoute_type_mismatch backend
    (FilterRequest.mk (node.config.type.getD "array") condition inputData
      (buildFilterContext inputData allResults nodeMap)) t hne hmis
  refine ⟨hroute, ?_⟩
  rw [executeFilter_eq (recording (backendEnv backend)) node inputData allResults nodeMap
    (t, log) condition hcond]
  have hpost : (recording (backendEnv backend)).axiosPost "/api/filter"
      (FilterRequest.mk (node.config.type.getD "array") condition inputData
        (buildFilterContext inputData allResults nodeMap)) (t, log)
      = (Except.error "Request failed with status code 500",
          (t, log ++ [Call.axiosPost "/api/filter"
            (FilterRequest.mk (node.config.type.getD "array") condition inputData
              (buildFilterContext inputData allResults nodeMap))])) := by
    simp only [recording, backendEnv, if_true, hroute]
    rfl
  rw [hpost]
  rfl

/-- C13, amended, on a step of type `array` with the input `5` and on a step of type `object`
with the input `[1]`, against a backend with a configured language model whose state counts the
calls: the count stays `0`. -/
theorem executeFilter_type_mismatch_witness :
    executeFilter (recording (backendEnv countingBackend)) (filterStep (some "array") "summer")
        (JsVal.num 5) [] [] (0, [])
      = (Outcome.thrown "Filter execution failed: Request failed with status code 500",
          (0, [Call.axiosPost "/api/filter"
            (FilterRequest.mk "array" "summer" (JsVal.num 5) [("data", JsVal.num 5)])])) ∧
    filterRoute countingBackend (FilterRequest.mk "object" "summer" (JsVal.arr [JsVal.num 1])
        [("data", JsVal.arr [JsVal.num 1])]) 0
      = (HttpResponse.mk 500 [("error", JsVal.str "Input data is not an object")], 0) :=
  ⟨(executeFilter_type_mismatch countingBackend (filterStep (some "array") "summer") "summer"
      (JsVal.num 5) [] [] 0 [] (by decide)
      (Or.inl ⟨by decide, (fun items h => by cases h)⟩)).2,
    (executeFilter_type_mismatch countingBackend (filterStep (some "object") "summer") "summer"
      (JsVal.arr [JsVal.num 1]) [] [] 0 [] (by decide)
      (Or.inr ⟨by decide, (fun h => by cases h), (fun fields h => by cases h)⟩)).1⟩

/-! ## The keyword filter -/

/-- The test `isPrefixOf` on characters: the second list is the first followed by some
characters. -/
theorem isPrefixOf_eq_true_iff (a b : List Char) :
    a.isPrefixOf b = true ↔ ∃ back, b = a ++ back := by
  induction a generalizing b with
  | nil => simp
  | cons x a ih =>
    cases b with
    | nil => simp [List.isPrefixOf]
    | cons y b =>
      simp only [List.isPrefixOf, Bool.and_eq_true, beq_iff_eq, ih, List.cons_append,
        List.cons.injEq]
      constructor
      · rintro ⟨rfl, back, rfl⟩
        exact ⟨back, rfl, rfl⟩
      · rintro ⟨back, rfl, rfl⟩
        exact ⟨rfl, back, rfl⟩

/-- The method `includes` decides containment. -/
theorem includes_iff (s sub : String) : includes s sub = true ↔ Contains s sub := by
  unfold includes Contains
  rw [List.any_eq_true]
  constructor
  · rintro ⟨t, ht, hp⟩
    obtain ⟨front, hfront⟩ := (List.mem_tails _ _).mp ht
    obtain ⟨back, hback⟩ := (isPrefixOf_eq_true_iff _ _).mp hp
    exact ⟨front, back, by rw [← hfront, hback, List.append_assoc]⟩
  · rintro ⟨front, back, h⟩
    refine ⟨sub.toList ++ back, (List.mem_tails _ _).mpr ⟨front, ?_⟩,
      (isPrefixOf_eq_true_iff _ _).mpr ⟨back, rfl⟩⟩
    rw [h, List.append_assoc]

/-- The test of the first branch of `simpleArrayFilter` on the text of an item. -/
theorem summer_test_iff (text : String) :
    (includes text "summer" || includes text "warm" || includes text "short" ||
      includes text "t-shirt" || includes text "dress") = true
      ↔ ∃ word ∈ summerWords, Contains text word := by
  simp only [Bool.or_eq_true, includes_iff, summerWords, List.mem_cons, List.mem_singleton,
    List.not_mem_nil, or_false, exists_eq_or_imp, exists_eq_left, or_assoc]

/-- The test of the second branch of `simpleArrayFilter` on the text of an item. -/
theorem winter_test_iff (text : String) :
    (includes text "winter" || includes text "cold" || includes text "jacket" ||
      includes text "sweater" || includes text "coat") = true
      ↔ ∃ word ∈ winterWords, Contains text word := by
  simp only [Bool.or_eq_true, includes_iff, winterWords, List.mem_cons, List.mem_singleton,
    List.not_mem_nil, or_false, exists_eq_or_imp, exists_eq_left, or_assoc]

/-- C14, as stated, fails: the condition `Summer` contains none of the four words as written,
yet the array `["a wool coat"]` is not returned unchanged but filtered with the summer words;
and under the condition `summer` the item `A WARM DRESS`, whose serialized text contains none of
the summer words as written, is kept. -/
theorem simpleArrayFilter_ignores_case :
    (includes "Summer" "summer" = false ∧ includes "Summer" "warm" = false ∧
      includes "Summer" "winter" = false ∧ includes "Summer" "cold" = false ∧
      simpleArrayFilter asciiRuntime [JsVal.str "a wool coat"] "Summer" [] = []) ∧
    (jsonStringify (JsVal.str "A WARM DRESS") = "\"A WARM DRESS\"" ∧
      (∀ word ∈ summerWords, includes "\"A WARM DRESS\"" word = false) ∧
      simpleArrayFilter asciiRuntime [JsVal.str "A WARM DRESS"] "summer" []
        = [JsVal.str "A WARM DRESS"]) := by
  refine ⟨⟨by decide, by decide, by decide, by decide, by rfl⟩, by decide, by decide, by rfl⟩

/-- C14, amended. For every array and every condition text, with `toLowerCase` and
`JSON.stringify` of the runtime: if the lower-cased condition contains `summer` or `warm`,
`simpleArrayFilter` returns exactly the items, in their original order, whose lower-cased
serialized text contains one of the five summer words; otherwise, if the lower-cased condition
contains `winter` or `cold`, exactly the items whose lower-cased serialized text contains one of
the five winter words; otherwise the array unchanged. Containment is literal containment in the
lower-cased texts. -/
theorem simpleArrayFilter_keywords (rt : Runtime) (array : List JsVal) (condition : String)
    (context : JsObject) :
    ((Contains (rt.toLowerCase condition) "summer" ∨ Contains (rt.toLowerCase condition) "warm") →
      ∃ keep : JsVal → Bool,
        simpleArrayFilter rt array condition context = array.filter keep ∧
        ∀ item, keep item = true ↔
          ∃ word ∈ summerWords, Contains (rt.toLowerCase (rt.stringify item)) word) ∧
    (¬ (Contains (rt.toLowerCase condition) "summer" ∨
          Contains (rt.toLowerCase condition) "warm") →
      (Contains (rt.toLowerCase condition) "winter" ∨
        Contains (rt.toLowerCase condition) "cold") →
      ∃ keep : JsVal → Bool,
        simpleArrayFilter rt array condition context = array.filter keep ∧
        ∀ item, keep item = true ↔
          ∃ word ∈ winterWords, Contains (rt.toLowerCase (rt.stringify item)) word) ∧
    (¬ (Contains (rt.toLowerCase condition) "summer" ∨
          Contains (rt.toLowerCase condition) "warm") →
      ¬ (Contains (rt.toLowerCase condition) "winter" ∨
          Contains (rt.toLowerCase condition) "cold") →
      simpleArrayFilter rt array condition context = array) := by
  have hsummer : (includes (rt.toLowerCase condition) "summer" ||
      includes (rt.toLowerCase condition) "warm") = true ↔
      (Contains (rt.toLowerCase condition) "summer" ∨
        Contains (rt.toLowerCase condition) "warm") := by
    simp only [Bool.or_eq_true, includes_iff]
  have hwinter : (includes (rt.toLowerCase condition) "winter" ||
      includes (rt.toLowerCase condition) "cold") = true ↔
      (Contains (rt.toLowerCase condition) "winter" ∨
        Contains (rt.toLowerCase condition) "cold") := by
    simp only [Bool.or_eq_true, includes_iff]
  refine ⟨?_, ?_, ?_⟩
  · intro h
    refine ⟨fun item =>
      includes (rt.toLowerCase (rt.stringify item)) "summer" ||
        includes (rt.toLowerCase (rt.stringify item)) "warm" ||
        includes (rt.toLowerCase (rt.stringify item)) "short" ||
        includes (rt.toLowerCase (rt.stringify item)) "t-shirt" ||
        includes (rt.toLowerCase (rt.stringify item)) "dress", ?_, ?_⟩
    · unfold simpleArrayFilter
      simp only [if_pos (hsummer.mpr h)]
    · intro item
      exact summer_test_iff _
  · intro hs h
    refine ⟨fun item =>
      includes (rt.toLowerCase (rt.stringify item)) "winter" ||
        includes (rt.toLowerCase (rt.stringify item)) "cold" ||
        includes (rt.toLowerCase (rt.stringify item)) "jacket" ||
        includes (rt.toLowerCase (rt.stringify item)) "sweater" ||
        includes (rt.toLowerCase (rt.stringify item)) "coat", ?_, ?_⟩
    · unfold simpleArrayFilter
      simp only [if_neg (fun hc => hs (hsummer.mp hc)), if_pos (hwinter.mpr h)]
    · intro item
      exact winter_test_iff _
  · intro hs hw
    unfold simpleArrayFilter
    simp only [if_neg (fun hc => hs (hsummer.mp hc)), if_neg (fun hc => hw (hwinter.mp hc))]

/-- C14, amended, on the example: the condition `summer` on `["a warm dress", "a wool coat"]`
keeps the first item only, and the condition `Summer` does the same. -/
theorem simpleArrayFilter_keywords_witness :
    (∃ keep : JsVal → Bool,
      simpleArrayFilter asciiRuntime [JsVal.str "a warm dress", JsVal.str "a wool coat"]
          "summer" []
        = [JsVal.str "a warm dress", JsVal.str "a wool coat"].filter keep ∧
      ∀ item, keep item = true ↔
        ∃ word ∈ summerWords, Contains (asciiLowerCase (jsonStringify item)) word) ∧
    simpleArrayFilter asciiRuntime [JsVal.str "a warm dress", JsVal.str "a wool coat"]
        "summer" [] = [JsVal.str "a warm dress"] ∧
    simpleArrayFilter asciiRuntime [JsVal.str "a warm dress", JsVal.str "a wool coat"]
        "Summer" [] = [JsVal.str "a warm dress"] :=
  ⟨(simpleArrayFilter_keywords asciiRuntime [JsVal.str "a warm dress", JsVal.str "a wool coat"]
      "summer" []).1 (Or.inl ⟨[], [], by rfl⟩), by rfl, by rfl⟩

end WorkflowEditor
